import Mathlib

/-!
# incto: route compilation and dispatch

A shallow embedding of `src/incto.go` (package `incto`) and of
`src/incast/auth.go` (package `incast`).

Modelling conventions.

* A Go `string` is a list of Unicode code points (`Str`); positions count code
  points, so only valid UTF-8 text is covered.
* Go's `regexp` package (standard library, RE2 syntax with the flags of
  `regexp.Compile`) is modelled for a fragment of its syntax: literals, `.`,
  `^`, `$`, capturing groups, `|`, classes `[...]` without escapes or named
  classes, the repetitions `*`, `+`, `?` (greedy and lazy), escaped
  punctuation and `\Q...\E`.  On anything else `regexpCompile` answers
  `unsupported`, which is neither success nor failure.  The library refuses
  an expression whose syntax tree is more than 1000 nodes high or whose
  program is too large; an expression of at most `maxExprLen` code points of
  the fragment stays below these limits, and on a longer one `regexpCompile`
  answers `unsupported`.
* A handler is a state transformer on a `World`: the calls made on the
  `http.ResponseWriter` so far and an arbitrary environment.
* A pointer to a `Magic`, `Spell` or `Experiment` is an address in a `Store`;
  a method that changes its receiver is a function returning the new value,
  and `execOp` does the load and the store.
* `ExperimentCondition` is an exported interface: besides the
  `PathPrefixCondition` of the package, a condition can be a type of the
  caller, whose `Apply` is a sequence of public operations on the objects it
  holds.
* Requests are served one after the other; the clock read by `RateLimit` is a
  field of the environment, in nanoseconds.
-/

namespace Incto

/-- A Go string, as its sequence of code points. -/
abbrev Str := List Char

/-! ## Regular expressions (Go `regexp`, fragment) -/

/-- Syntax tree of a regular expression (`regexp/syntax.Regexp`, fragment). -/
inductive Regex where
  | emptyMatch
  | lit (c : Char)
  | anyNotNL
  | cls (neg : Bool) (ranges : List (Char × Char))
  | beginText
  | endText
  | cat (a b : Regex)
  | alt (a b : Regex)
  | star (greedy : Bool) (r : Regex)
  | plus (greedy : Bool) (r : Regex)
  | quest (greedy : Bool) (r : Regex)
  | cap (i : Nat) (r : Regex)
  deriving DecidableEq

/-- One thread of the matcher: the number of code points consumed from the
start of the text, the text still to read, and the capture groups closed so
far (latest first). -/
structure Thread where
  pos : Nat
  rest : Str
  caps : List (Nat × Str)
  deriving DecidableEq

/-- Membership of a code point in a list of inclusive ranges. -/
def inRanges (c : Char) (ranges : List (Char × Char)) : Bool :=
  ranges.any (fun r => decide (r.1.val ≤ c.val) && decide (c.val ≤ r.2.val))

/-- Consume one code point satisfying `p`. -/
def stepChar (p : Char → Bool) (t : Thread) : List Thread :=
  match t.rest with
  | [] => []
  | x :: xs => if p x then [⟨t.pos + 1, xs, t.caps⟩] else []

/-- Iterations of a loop body `body`, in priority order; an iteration has to
consume text. `fuel` bounds the number of iterations. -/
def starLoop (body : Thread → List Thread) (greedy : Bool) : Nat → Thread → List Thread
  | 0, t => [t]
  | fuel + 1, t =>
    let more := ((body t).filter (fun u => decide (u.rest.length < t.rest.length))).flatMap
      (starLoop body greedy fuel)
    if greedy then more ++ [t] else t :: more

/-- All ways of matching `r` from thread `t`, in the priority order of a
leftmost-first (Perl-like) search. -/
def run : Regex → Thread → List Thread
  | .emptyMatch, t => [t]
  | .lit c, t => stepChar (fun x => decide (x = c)) t
  | .anyNotNL, t => stepChar (fun x => decide (x ≠ '\n')) t
  | .cls neg ranges, t => stepChar (fun x => inRanges x ranges != neg) t
  | .beginText, t => if t.pos = 0 then [t] else []
  | .endText, t => if t.rest = [] then [t] else []
  | .cat a b, t => (run a t).flatMap (run b)
  | .alt a b, t => run a t ++ run b t
  | .star g r, t => starLoop (run r) g t.rest.length t
  | .plus g r, t => (run r t).flatMap (fun u => starLoop (run r) g u.rest.length u)
  | .quest g r, t => if g then run r t ++ [t] else t :: run r t
  | .cap i r, t =>
    (run r t).map (fun u => ⟨u.pos, u.rest, (i, t.rest.take (u.pos - t.pos)) :: u.caps⟩)

/-- Error codes of `regexp/syntax` that the modelled fragment can raise. -/
inductive ErrorCode where
  | missingParen
  | unexpectedParen
  | missingBracket
  | invalidCharRange
  | missingRepeatArgument
  | invalidRepeatOp
  | trailingBackslash
  deriving DecidableEq

/-- Result of a compilation: success, an error of the library, or text outside
the modelled fragment (about which nothing is said). -/
inductive Compiled (α : Type) where
  | ok (a : α)
  | error (e : ErrorCode)
  | unsupported
  deriving DecidableEq

/-- Concatenation node for a list of items. -/
def catList : List Regex → Regex
  | [] => .emptyMatch
  | [r] => r
  | r :: rs => .cat r (catList rs)

/-- Alternation node for a list of alternatives. -/
def altList : List Regex → Regex
  | [] => .emptyMatch
  | [r] => r
  | r :: rs => .alt r (altList rs)

/-- Whether the expression can match the empty string. -/
def nullable : Regex → Bool
  | .emptyMatch => true
  | .lit _ => false
  | .anyNotNL => false
  | .cls _ _ => false
  | .beginText => true
  | .endText => true
  | .cat a b => nullable a && nullable b
  | .alt a b => nullable a || nullable b
  | .star _ _ => true
  | .plus _ r => nullable r
  | .quest _ _ => true
  | .cap _ r => nullable r

/-- An open group on the parser's stack: its capture index and what had been
read of the enclosing group before it. -/
structure Frame where
  capIdx : Nat
  alts : List Regex
  seq : List Regex
  deriving DecidableEq

/-- Parser state: groups numbered so far, the open groups (innermost first),
the finished alternatives of the current group and the items of the
alternative being read. -/
structure PState where
  ncap : Nat
  stack : List Frame
  alts : List Regex
  seq : List Regex
  deriving DecidableEq

/-- The expression read at the current level. -/
def collapse (alts seq : List Regex) : Regex :=
  altList (alts ++ [catList seq])

/-- Push one item onto the current concatenation. -/
def PState.push (st : PState) (r : Regex) : PState :=
  { st with seq := st.seq ++ [r] }

/-- ASCII letters and digits (`isalnum` of `regexp/syntax`). -/
def isalnum (c : Char) : Bool :=
  (decide ('0'.val ≤ c.val) && decide (c.val ≤ '9'.val)) ||
  (decide ('A'.val ≤ c.val) && decide (c.val ≤ 'Z'.val)) ||
  (decide ('a'.val ≤ c.val) && decide (c.val ≤ 'z'.val))

/-- Decimal digit. -/
def isDigit (c : Char) : Bool :=
  decide ('0'.val ≤ c.val) && decide (c.val ≤ '9'.val)

/-- Items of a character class up to the closing bracket (`parseClass`), with
the text after the bracket. -/
def classLoop (neg : Bool) : Nat → Str → Bool → List (Char × Char) → Compiled (Regex × Str)
  | 0, _, _, _ => .unsupported
  | _ + 1, [], _, _ => .error .missingBracket
  | fuel + 1, c :: t, first, ranges =>
    if c = ']' ∧ first = false then .ok (.cls neg ranges, t)
    else if c = '\\' then .unsupported
    else if c = '[' ∧ t.head? = some ':' then .unsupported
    else
      match t with
      | '-' :: hi :: t2 =>
        if hi = ']' then classLoop neg fuel t false (ranges ++ [(c, c)])
        else if hi = '\\' then .unsupported
        else if hi.val < c.val then .error .invalidCharRange
        else classLoop neg fuel t2 false (ranges ++ [(c, hi)])
      | _ => classLoop neg fuel t false (ranges ++ [(c, c)])

/-- A bracket expression; `t` is the text after the opening bracket. -/
def parseClass (t : Str) : Compiled (Regex × Str) :=
  match t with
  | '^' :: t1 => classLoop true (t1.length + 1) t1 true []
  | _ => classLoop false (t.length + 1) t true []

/-- Split at the first `\E`: the text before it and the text after it. -/
def cutE : Str → Str × Str
  | [] => ([], [])
  | '\\' :: 'E' :: t => ([], t)
  | c :: t => (c :: (cutE t).1, (cutE t).2)

/-- Apply a repetition operator to the last item read (`parser.repeat`). -/
def applyRepeat (op : Bool → Regex → Regex) (greedy lastRepeat : Bool) (st : PState) :
    Compiled PState :=
  if lastRepeat then .error .invalidRepeatOp
  else
    match st.seq.getLast? with
    | none => .error .missingRepeatArgument
    | some r =>
      if nullable r then .unsupported
      else .ok { st with seq := st.seq.dropLast ++ [op greedy r] }

/-- The main loop of `regexp/syntax.Parse` with the flags `syntax.Perl`.
`lastRepeat` tells whether the previous item was a repetition operator. -/
def parseLoop : Nat → Str → Bool → PState → Compiled (Regex × Nat)
  | 0, _, _, _ => .unsupported
  | _ + 1, [], _, st =>
    match st.stack with
    | [] => .ok (collapse st.alts st.seq, st.ncap)
    | _ :: _ => .error .missingParen
  | fuel + 1, c :: t, lastRepeat, st =>
    if c = '(' then
      if t.head? = some '?' then .unsupported
      else parseLoop fuel t false
        ⟨st.ncap + 1, ⟨st.ncap + 1, st.alts, st.seq⟩ :: st.stack, [], []⟩
    else if c = '|' then
      parseLoop fuel t false { st with alts := st.alts ++ [catList st.seq], seq := [] }
    else if c = ')' then
      match st.stack with
      | [] => .error .unexpectedParen
      | f :: fs =>
        parseLoop fuel t false
          ⟨st.ncap, fs, f.alts, f.seq ++ [.cap f.capIdx (collapse st.alts st.seq)]⟩
    else if c = '^' then parseLoop fuel t false (st.push .beginText)
    else if c = '$' then parseLoop fuel t false (st.push .endText)
    else if c = '.' then parseLoop fuel t false (st.push .anyNotNL)
    else if c = '[' then
      match parseClass t with
      | .ok (r, t1) => parseLoop fuel t1 false (st.push r)
      | .error e => .error e
      | .unsupported => .unsupported
    else if c = '*' ∨ c = '+' ∨ c = '?' then
      let op : Bool → Regex → Regex :=
        if c = '*' then .star else if c = '+' then .plus else .quest
      let lazy := decide (t.head? = some '?')
      match applyRepeat op (!lazy) lastRepeat st with
      | .ok st1 => parseLoop fuel (if lazy then t.tail else t) true st1
      | .error e => .error e
      | .unsupported => .unsupported
    else if c = '{' then
      if (t.head?.map isDigit).getD false then .unsupported
      else parseLoop fuel t false (st.push (.lit '{'))
    else if c = '\\' then
      match t with
      | [] => .error .trailingBackslash
      | x :: t1 =>
        if x = 'Q' then
          parseLoop fuel (cutE t1).2 false
            { st with seq := st.seq ++ (cutE t1).1.map Regex.lit }
        else if decide (x.val < 128) && !isalnum x then parseLoop fuel t1 false (st.push (.lit x))
        else .unsupported
    else parseLoop fuel t false (st.push (.lit c))

/-- A compiled regular expression (`regexp.Regexp`): the source text, the
syntax tree and the number of capturing groups. -/
structure Regexp where
  expr : Str
  re : Regex
  numSubexp : Nat
  deriving DecidableEq

/-- The longest expression the model answers for. `regexp/syntax` refuses a
syntax tree higher than `maxHeight = 1000` (`ErrNestingDepth`) and a program
or a set of runes that is too large (`ErrLarge`). In the fragment the height
of the tree and the size of the program grow at most with the number of code
points of the expression, so an expression this long stays below these
limits. -/
def maxExprLen : Nat := 512

/-- Model of `regexp.Compile`. A longer expression than `maxExprLen` is outside
the model. -/
def regexpCompile (expr : Str) : Compiled Regexp :=
  if maxExprLen < expr.length then .unsupported
  else
    match parseLoop (expr.length + 1) expr false ⟨0, [], [], []⟩ with
    | .ok (re, n) => .ok ⟨expr, re, n⟩
    | .error e => .error e
    | .unsupported => .unsupported

/-- Leftmost match at or after the current position: the start position, the
text from there on, and the final thread of the first match in priority
order. -/
def search (re : Regex) : Nat → Str → Option (Nat × Str × Thread)
  | pos, [] => (run re ⟨pos, [], []⟩).head?.map (fun u => (pos, [], u))
  | pos, x :: xs =>
    match (run re ⟨pos, x :: xs, []⟩).head? with
    | some u => some (pos, x :: xs, u)
    | none => search re (pos + 1) xs

/-- Model of `Regexp.FindStringSubmatch`: the whole match followed by the text
of each capturing group (empty for a group that took no part). -/
def FindStringSubmatch (re : Regexp) (s : Str) : Option (List Str) :=
  (search re.re 0 s).map (fun m =>
    m.2.1.take (m.2.2.pos - m.1) ::
      (List.range re.numSubexp).map (fun i => (m.2.2.caps.lookup (i + 1)).getD []))

/-- Model of `Regexp.ReplaceAllStringFunc` (the loop of `Regexp.replaceAll`),
with a replacement function that also updates a state `σ`, as the closure
passed by `compilePath` does. `lastMatchEnd` and `searchPos` are positions in
`src`, `buf` is the output so far. -/
def replaceAll {σ : Type} (re : Regexp) (src : Str) (repl : σ → Str → Str × σ) :
    Nat → Nat → Nat → Str → σ → Str × σ
  | 0, lastMatchEnd, _, buf, st => (buf ++ src.drop lastMatchEnd, st)
  | fuel + 1, lastMatchEnd, searchPos, buf, st =>
    if src.length < searchPos then (buf ++ src.drop lastMatchEnd, st)
    else
      match search re.re searchPos (src.drop searchPos) with
      | none => (buf ++ src.drop lastMatchEnd, st)
      | some m =>
        let a0 := m.1
        let a1 := m.2.2.pos
        let buf1 := buf ++ (src.drop lastMatchEnd).take (a0 - lastMatchEnd)
        let out := if lastMatchEnd < a1 ∨ a0 = 0 then
            ((repl st ((src.drop a0).take (a1 - a0))).1, (repl st ((src.drop a0).take (a1 - a0))).2)
          else ([], st)
        let width := if searchPos < src.length then 1 else 0
        let searchPos1 :=
          if a1 < searchPos + width then searchPos + width
          else if a1 < searchPos + 1 then searchPos + 1
          else a1
        replaceAll re src repl fuel a1 searchPos1 (buf1 ++ out.1) out.2

/-- Model of `Regexp.ReplaceAllStringFunc`. -/
def ReplaceAllStringFunc {σ : Type} (re : Regexp) (src : Str) (repl : σ → Str → Str × σ)
    (st : σ) : Str × σ :=
  replaceAll re src repl (src.length + 2) 0 0 [] st

/-- Model of `strings.TrimPrefix`. -/
def TrimPrefix (s pre : Str) : Str :=
  if pre.isPrefixOf s then s.drop pre.length else s

/-- The expression that recognises a parameter token of a path pattern. -/
def paramToken : Str := ":([a-zA-Z_][a-zA-Z0-9_]*)".toList

/-- The expression put in place of a parameter token. -/
def paramGroup : Str := "([^/]+)".toList

/-- The closure `compilePath` passes to `ReplaceAllStringFunc`: it appends the
name of the token `m` to `paramNames` and returns the group. -/
def pathRepl : List Str → Str → Str × List Str :=
  fun paramNames m => (paramGroup, paramNames ++ [TrimPrefix m ":".toList])

/-- Model of `compilePath`: the recognizer of a path pattern and the names of
its parameters, in order. `error` stands for the panic `Invalid path
pattern`. -/
def compilePath (path : Str) : Compiled (Regexp × List Str) :=
  match regexpCompile paramToken with
  | .ok tok =>
    let r := ReplaceAllStringFunc tok path pathRepl []
    let regexPath := "^".toList ++ r.1 ++ "$".toList
    match regexpCompile regexPath with
    | .ok compiled => .ok (compiled, r.2)
    | .error e => .error e
    | .unsupported => .unsupported
  | .error e => .error e
  | .unsupported => .unsupported

/-! ## Requests, handlers and the route table -/

/-- The parts of an `http.Request` the router and its middlewares read. -/
structure Request where
  Method : Str
  Path : Str
  Header : List (Str × Str)
  RemoteAddr : Str
  deriving DecidableEq

/-- A call made on the `http.ResponseWriter`. -/
inductive WriterCall where
  | setHeader (key value : Str)
  | writeHeader (code : Nat)
  | write (body : Str)
  | httpError (text : Str) (code : Nat)
  deriving DecidableEq

/-- What a handler can observe and change: the calls made on the response
writer so far and an environment (the context store, captured variables). -/
structure World (σ : Type) where
  writer : List WriterCall
  env : σ
  deriving DecidableEq

/-- The request context handed to a handler (`Context`): the request and the
path parameters. -/
structure Context where
  req : Request
  params : List (Str × Str)
  deriving DecidableEq

/-- A Go `error`: `none` is `nil`, `some e` an error whose `Error()` is `e`. -/
abbrev GoError := Option Str

/-- Model of `HandlerFunc`. -/
abbrev HandlerFunc (σ : Type) := Context → World σ → GoError × World σ

/-- Model of `MiddlewareFunc`. -/
abbrev MiddlewareFunc (σ : Type) := HandlerFunc σ → HandlerFunc σ

/-- Model of `Route`. -/
structure Route (σ : Type) where
  Method : Str
  Path : Str
  Handler : HandlerFunc σ
  Middlewares : List (MiddlewareFunc σ)
  pathRegex : Regexp
  paramNames : List Str

/-- Model of `Magic` (the `server` field plays no part in dispatch). -/
structure Magic (σ : Type) where
  routes : List (Route σ)
  middlewares : List (MiddlewareFunc σ)

/-- Model of `http.Error(w, text, code)`. -/
def httpError {σ : Type} (w : World σ) (text : Str) (code : Nat) : World σ :=
  { w with writer := w.writer ++ [.httpError text code] }

/-- Model of `http.NotFound(w, r)`. -/
def httpNotFound {σ : Type} (w : World σ) : World σ :=
  httpError w "404 page not found".toList 404

/-- Assignment `m[k] = v` on a Go map, kept as a list of distinct keys. -/
def mapSet (m : List (Str × Str)) (k v : Str) : List (Str × Str) :=
  match m with
  | [] => [(k, v)]
  | (k1, v1) :: rest => if k1 = k then (k, v) :: rest else (k1, v1) :: mapSet rest k v

/-- The loop `for i, name := range route.paramNames { ctx.params[name] = matches[i+1] }`
from index `i` on; `none` is the run-time panic of an index out of range. -/
def extractParams (submatches : List Str) :
    List Str → Nat → List (Str × Str) → Option (List (Str × Str))
  | [], _, params => some params
  | name :: names, i, params =>
    match submatches[i + 1]? with
    | none => none
    | some v => extractParams submatches names (i + 1) (mapSet params name v)

/-- The loop `for i := len(mws) - 1; i >= 0; i-- { handler = mws[i](handler) }`
with `n` middlewares still to apply. -/
def wrapLoop {σ : Type} (mws : List (MiddlewareFunc σ)) : Nat → HandlerFunc σ → HandlerFunc σ
  | 0, handler => handler
  | n + 1, handler =>
    match mws[n]? with
    | some mw => wrapLoop mws n (mw handler)
    | none => wrapLoop mws n handler

/-- The handler chain `handleRequest` builds for a route. -/
def buildChain {σ : Type} (globals : List (MiddlewareFunc σ)) (route : Route σ) :
    HandlerFunc σ :=
  wrapLoop globals globals.length
    (wrapLoop route.Middlewares route.Middlewares.length route.Handler)

/-- The statement `if err := handler(ctx); err != nil { http.Error(...) }`
applied to what the chain returned. -/
def finish {σ : Type} (res : GoError × World σ) : World σ :=
  match res.1 with
  | some err => httpError res.2 err 500
  | none => res.2

/-- The body of `handleRequest` for a route whose recognizer gave `submatches`:
fill the parameters, build the chain, run it and turn an error into the
internal-error response. `none` is a run-time panic. -/
def serve {σ : Type} (globals : List (MiddlewareFunc σ)) (route : Route σ)
    (submatches : List Str) (r : Request) (w : World σ) : Option (World σ) :=
  match extractParams submatches route.paramNames 0 [] with
  | none => none
  | some params => some (finish (buildChain globals route ⟨r, params⟩ w))

/-- The route loop of `handleRequest` over the routes still to try. -/
def handleRoutes {σ : Type} (globals : List (MiddlewareFunc σ)) (r : Request) :
    List (Route σ) → World σ → Option (World σ)
  | [], w => some (httpNotFound w)
  | route :: rest, w =>
    if route.Method ≠ r.Method then handleRoutes globals r rest w
    else
      match FindStringSubmatch route.pathRegex r.Path with
      | some submatches => serve globals route submatches r w
      | none => handleRoutes globals r rest w

/-- Model of `Magic.handleRequest`. -/
def handleRequest {σ : Type} (m : Magic σ) (r : Request) (w : World σ) : Option (World σ) :=
  handleRoutes m.middlewares r m.routes w

/-! ## Registration -/

/-- Cut `s` at separators `sep`, making at most `k` more cuts; `acc` is the
piece being read. -/
def splitGo (sep : Char) : Nat → Str → Str → List Str
  | _, [], acc => [acc]
  | k, c :: t, acc =>
    if c = sep ∧ 0 < k then acc :: splitGo sep (k - 1) t [] else splitGo sep k t (acc ++ [c])

/-- Model of `strings.SplitN(s, sep, n)` for a one-character separator and
`n ≥ 0`. -/
def SplitN (s : Str) (sep : Char) (n : Nat) : List Str :=
  if n = 0 then [] else splitGo sep (n - 1) s []

/-- Model of `strings.ToUpper`. ASCII is mapped here; for the other code points
the table of `unicode.ToUpper` is the parameter `uni`. -/
def ToUpper (uni : Char → Char) (s : Str) : Str :=
  s.map (fun c =>
    if c.val < 128 then
      if 'a'.val ≤ c.val ∧ c.val ≤ 'z'.val then Char.ofNat (c.toNat - 32) else c
    else uni c)

/-- Model of `Spell`; `magic` is the address of the `Magic` it points to. -/
structure Spell (σ : Type) where
  magic : Nat
  method : Str
  path : Str
  middlewares : List (MiddlewareFunc σ)

/-- The `Magic` values allocated so far; a `*Magic` is an index into it. -/
abbrev Heap (σ : Type) := List (Magic σ)

/-- Model of `SpellMagic`: a new `Magic` with an empty route table. -/
def SpellMagic {σ : Type} (heap : Heap σ) : Nat × Heap σ :=
  (heap.length, heap ++ [⟨[], []⟩])

/-- Model of `Magic.Spell` on the `Magic` at address `m`; `error` carries the
panic message. -/
def Magic.Spell {σ : Type} (uni : Char → Char) (m : Nat) (methodPath : Str) (heap : Heap σ) :
    Except Str (Spell σ × Heap σ) :=
  match SplitN methodPath ' ' 2 with
  | [p0, p1] => .ok (⟨m, ToUpper uni p0, p1, []⟩, heap)
  | _ => .error ("Spell format should be 'METHOD /path', got: ".toList ++ methodPath)

/-- Model of `Spell.With`: compile the path and append the route to the table
of the spell's `Magic`. `error` is the panic of `compilePath`; an address
outside the heap is not modelled. -/
def Spell.With {σ : Type} (s : Spell σ) (handler : HandlerFunc σ) (heap : Heap σ) :
    Compiled (Heap σ) :=
  match compilePath s.path with
  | .ok (pathRegex, paramNames) =>
    match heap[s.magic]? with
    | some m =>
      .ok (heap.set s.magic
        { m with routes := m.routes ++
            [⟨s.method, s.path, handler, s.middlewares, pathRegex, paramNames⟩] })
    | none => .unsupported
  | .error e => .error e
  | .unsupported => .unsupported

/-- Model of `Spell.Require`: append the middleware to the spell's list. -/
def Spell.Require {σ : Type} (s : Spell σ) (middleware : MiddlewareFunc σ) : Spell σ :=
  { s with middlewares := s.middlewares ++ [middleware] }

/-- Model of `Cast`: the `Magic` of the first spell; `error` carries the panic
message. -/
def Cast {σ : Type} (spells : List (Spell σ)) : Except Str Nat :=
  match spells with
  | [] => .error "Cast requires at least one spell".toList
  | s :: _ => .ok s.magic

/-- Model of `PathPrefixCondition`; `pfx` is its field holding the prefix. -/
structure PathPrefixCondition where
  pfx : Str
  deriving DecidableEq

mutual
/-- An implementation of the exported interface `ExperimentCondition`: the
`PathPrefixCondition` of the package, or a type of the caller. The method
`Apply` of a caller's type is code of the caller; it is modelled by the
public operations it performs on the objects it holds, given the address of
the experiment it is applied to and the numbers of `Magic`, `Spell` and
`Experiment` values allocated so far (the addresses of the next ones). -/
inductive ExperimentCondition (σ : Type) where
  | pathPrefix (c : PathPrefixCondition)
  | custom (apply : Nat → Nat → Nat → Nat → List (Op σ))
/-- A call of a public operation made by the `Apply` of a caller's condition,
its pointer arguments given as addresses. -/
inductive Op (σ : Type) where
  | SpellMagic
  | Spell (m : Nat) (methodPath : Str)
  | With (s : Nat) (handler : HandlerFunc σ)
  | Require (s : Nat) (middleware : MiddlewareFunc σ)
  | Cast (spells : List Nat)
  | Experiments (name : Str)
  | Given (e : Nat) (conditions : List (ExperimentCondition σ))
  | Subject (e : Nat) (spells : List Nat)
end

/-- Model of `Experiment`; `magic` is the address of its `Magic`. -/
structure Experiment (σ : Type) where
  name : Str
  magic : Nat
  conditions : List (ExperimentCondition σ)
  middlewares : List (MiddlewareFunc σ)

/-- Model of `PathPrefixCondition.Apply`. -/
def PathPrefixCondition.Apply {σ : Type} (_p : PathPrefixCondition) (exp : Experiment σ) :
    Experiment σ :=
  exp

/-- Model of `PathPrefix`. -/
def PathPrefix {σ : Type} (pfx : Str) : ExperimentCondition σ :=
  .pathPrefix ⟨pfx⟩

/-- Model of `Experiments`: a new experiment on a new `Magic`. -/
def Experiments {σ : Type} (name : Str) (heap : Heap σ) : Experiment σ × Heap σ :=
  (⟨name, (SpellMagic heap).1, [], []⟩, (SpellMagic heap).2)

/-- Model of `Experiment.Given`. -/
def Experiment.Given {σ : Type} (e : Experiment σ) (conditions : List (ExperimentCondition σ)) :
    Experiment σ :=
  { e with conditions := e.conditions ++ conditions }

/-! ## Programs over the public operations -/

/-- The objects a program has allocated: a `*Magic`, `*Spell` or `*Experiment`
is an index into the list of its kind. -/
structure Store (σ : Type) where
  magics : Heap σ
  spells : List (Spell σ)
  experiments : List (Experiment σ)

/-- How a call ended: it returned, it panicked, or it is outside the model (an
address that was never allocated, a pattern outside the modelled fragment). -/
inductive Ended where
  | returned
  | panicked
  | notModelled
  deriving DecidableEq

/-- One operation made by the `Apply` of a caller's condition: how it ended
and the store after it. A call that panics leaves the store as the code had
made it up to the panic. A `Subject` called from inside an `Apply` runs
conditions from inside a condition, which need not end; it is outside the
model. -/
def execOp {σ : Type} (uni : Char → Char) : Op σ → Store σ → Ended × Store σ
  | .SpellMagic, st => (.returned, { st with magics := (SpellMagic st.magics).2 })
  | .Spell m methodPath, st =>
    match Magic.Spell uni m methodPath st.magics with
    | .ok (spell, heap) => (.returned, { st with magics := heap, spells := st.spells ++ [spell] })
    | .error _ => (.panicked, st)
  | .With s handler, st =>
    match st.spells[s]? with
    | some spell =>
      match spell.With handler st.magics with
      | .ok heap => (.returned, { st with magics := heap })
      | .error _ => (.panicked, st)
      | .unsupported => (.notModelled, st)
    | none => (.notModelled, st)
  | .Require s middleware, st =>
    match st.spells[s]? with
    | some spell => (.returned, { st with spells := st.spells.set s (spell.Require middleware) })
    | none => (.notModelled, st)
  | .Cast spells, st =>
    match Cast (spells.filterMap (fun a => st.spells[a]?)) with
    | .ok _ => (.returned, st)
    | .error _ => (.panicked, st)
  | .Experiments name, st =>
    (.returned, { st with magics := (Experiments name st.magics).2,
                          experiments := st.experiments ++ [(Experiments name st.magics).1] })
  | .Given e conditions, st =>
    match st.experiments[e]? with
    | some exp =>
      (.returned, { st with experiments := st.experiments.set e (exp.Given conditions) })
    | none => (.notModelled, st)
  | .Subject _ _, st => (.notModelled, st)

/-- The body of a caller's `Apply`: its operations one after the other, up to
the first one that does not return. -/
def runOps {σ : Type} (uni : Char → Char) : List (Op σ) → Store σ → Ended × Store σ
  | [], st => (.returned, st)
  | c :: cs, st =>
    match execOp uni c st with
    | (.returned, st1) => runOps uni cs st1
    | (.panicked, st1) => (.panicked, st1)
    | (.notModelled, st1) => (.notModelled, st1)

/-- The call `condition.Apply(e)` on the experiment at the address `e`. For a
`PathPrefixCondition` the experiment after the call is what its `Apply`
returns. -/
def ExperimentCondition.Apply {σ : Type} (uni : Char → Char) :
    ExperimentCondition σ → Nat → Store σ → Ended × Store σ
  | .pathPrefix c, e, st =>
    match st.experiments[e]? with
    | some exp => (.returned, { st with experiments := st.experiments.set e (c.Apply exp) })
    | none => (.notModelled, st)
  | .custom apply, e, st =>
    runOps uni (apply e st.magics.length st.spells.length st.experiments.length) st

/-- The first loop of `Experiment.Subject`: every condition is applied to the
experiment at the address `e`; a panic ends the loop. -/
def applyConditions {σ : Type} (uni : Char → Char) (e : Nat) :
    List (ExperimentCondition σ) → Store σ → Ended × Store σ
  | [], st => (.returned, st)
  | c :: cs, st =>
    match c.Apply uni e st with
    | (.returned, st1) => applyConditions uni e cs st1
    | (.panicked, st1) => (.panicked, st1)
    | (.notModelled, st1) => (.notModelled, st1)

/-- The second loop of `Experiment.Subject` on pointers: the spells at the
addresses `addrs` are pointed to the `Magic` at `magic`. -/
def repoint {σ : Type} (magic : Nat) : List Nat → List (Spell σ) → List (Spell σ)
  | [], spells => spells
  | a :: addrs, spells =>
    match spells[a]? with
    | some spell => repoint magic addrs (spells.set a { spell with magic := magic })
    | none => repoint magic addrs spells

/-- Model of `Experiment.Subject` on the experiment at the address `e`: the
conditions it holds when the call begins are applied to it, then every spell
is pointed to the experiment's `Magic`. -/
def Experiment.Subject {σ : Type} (uni : Char → Char) (e : Nat) (spells : List Nat)
    (st : Store σ) : Ended × Store σ :=
  match st.experiments[e]? with
  | some exp =>
    match applyConditions uni e exp.conditions st with
    | (.returned, st1) =>
      match st1.experiments[e]? with
      | some exp1 => (.returned, { st1 with spells := repoint exp1.magic spells st1.spells })
      | none => (.notModelled, st1)
    | (.panicked, st1) => (.panicked, st1)
    | (.notModelled, st1) => (.notModelled, st1)
  | none => (.notModelled, st)

/-- A call of a public operation, its pointer arguments given as addresses. -/
inductive Call (σ : Type) where
  | SpellMagic
  | Spell (m : Nat) (methodPath : Str)
  | With (s : Nat) (handler : HandlerFunc σ)
  | Require (s : Nat) (middleware : MiddlewareFunc σ)
  | Cast (spells : List Nat)
  | Experiments (name : Str)
  | Given (e : Nat) (conditions : List (ExperimentCondition σ))
  | Subject (e : Nat) (spells : List Nat)

/-- One call on the store: how it ended and the store after it. -/
def exec {σ : Type} (uni : Char → Char) : Call σ → Store σ → Ended × Store σ
  | .SpellMagic, st => execOp uni .SpellMagic st
  | .Spell m methodPath, st => execOp uni (.Spell m methodPath) st
  | .With s handler, st => execOp uni (.With s handler) st
  | .Require s middleware, st => execOp uni (.Require s middleware) st
  | .Cast spells, st => execOp uni (.Cast spells) st
  | .Experiments name, st => execOp uni (.Experiments name) st
  | .Given e conditions, st => execOp uni (.Given e conditions) st
  | .Subject e spells, st => Experiment.Subject uni e spells st

/-- The store after a sequence of calls (a panic stops the call, not the
program). -/
def runCalls {σ : Type} (uni : Char → Char) : List (Call σ) → Store σ → Store σ
  | [], st => st
  | c :: cs, st => runCalls uni cs (exec uni c st).2

/-- The store of a program that has called nothing yet. -/
def emptyStore {σ : Type} : Store σ :=
  ⟨[], [], []⟩

/-! ## Package `incast`: authentication and rate limiting -/

/-- Model of `Context.Header`: the first value of the header `key`, or the
empty string. Header names are kept in their canonical form. -/
def Context.Header (c : Context) (key : Str) : Str :=
  (c.req.Header.lookup key).getD []

/-- Model of `Context.String`: set the content type, write the status and the
text. The error of the transport's `Write` is taken to be nil. -/
def Context.String {σ : Type} (_c : Context) (code : Nat) (text : Str) (w : World σ) :
    GoError × World σ :=
  (none, { w with writer := w.writer ++
    [.setHeader "Content-Type".toList "text/plain".toList, .writeHeader code, .write text] })

/-- Model of `strings.HasPrefix`. -/
def HasPrefix (s pre : Str) : Bool :=
  pre.isPrefixOf s

/-- The bytes of the UTF-8 encoding of a code point. -/
def utf8Bytes (c : Char) : List Nat :=
  let n := c.toNat
  if n < 128 then [n]
  else if n < 2048 then [192 + n / 64, 128 + n % 64]
  else if n < 65536 then [224 + n / 4096, 128 + (n / 64) % 64, 128 + n % 64]
  else [240 + n / 262144, 128 + (n / 4096) % 64, 128 + (n / 64) % 64, 128 + n % 64]

/-- The alphabet of the standard base64 encoding. -/
def base64Alphabet : Str :=
  "ABCDEFGHIJKLMNOPQRSTUVWXYZabcdefghijklmnopqrstuvwxyz0123456789+/".toList

/-- The base64 digit of a 6-bit value. -/
def base64Digit (i : Nat) : Char :=
  base64Alphabet.getD i 'A'

/-- Standard base64 of a list of bytes, with padding. -/
def base64Bytes : List Nat → Str
  | [] => []
  | [a] => [base64Digit (a / 4), base64Digit ((a % 4) * 16), '=', '=']
  | [a, b] =>
    [base64Digit (a / 4), base64Digit ((a % 4) * 16 + b / 16), base64Digit ((b % 16) * 4), '=']
  | a :: b :: c :: rest =>
    base64Digit (a / 4) :: base64Digit ((a % 4) * 16 + b / 16) ::
      base64Digit ((b % 16) * 4 + c / 64) :: base64Digit (c % 64) :: base64Bytes rest

/-- Model of `base64.StdEncoding.EncodeToString([]byte(s))`. -/
def EncodeToString (s : Str) : Str :=
  base64Bytes (s.flatMap utf8Bytes)

/-- Model of `BasicAuth`; `error` carries the panic message. -/
def BasicAuth {σ : Type} (credentials : Str) : Except Str (MiddlewareFunc σ) :=
  match SplitN credentials ':' 2 with
  | [_, _] =>
    .ok (fun next c w =>
      if !HasPrefix (c.Header "Authorization".toList) "Basic ".toList then
        c.String 401 "Unauthorized".toList
          { w with writer := w.writer ++
            [.setHeader "WWW-Authenticate".toList "Basic realm=\"Restricted\"".toList] }
      else if TrimPrefix (c.Header "Authorization".toList) "Basic ".toList
          ≠ EncodeToString credentials then
        c.String 401 "Unauthorized".toList w
      else next c w)
  | _ => .error "BasicAuth credentials should be in format 'username:password'".toList

/-- The record `client` of `RateLimit`. -/
structure Client where
  requests : Int
  lastReset : Int
  deriving DecidableEq

/-- What a `RateLimit` middleware works on: its map `clients`, the reading of
the clock (`time.Now()`, in nanoseconds) and the rest of the environment. -/
structure RateEnv (τ : Type) where
  clients : List (Str × Client)
  now : Int
  inner : τ
  deriving DecidableEq

/-- The duration `time.Minute`, in nanoseconds. -/
def Minute : Int := 60000000000

/-- Assignment `clients[k] = cl` (or an update through the pointer stored
under `k`) on the map of clients. -/
def clientSet (m : List (Str × Client)) (k : Str) (cl : Client) : List (Str × Client) :=
  match m with
  | [] => [(k, cl)]
  | (k1, c1) :: rest => if k1 = k then (k, cl) :: rest else (k1, c1) :: clientSet rest k cl

/-- The world after the map `clients` of the middleware has been changed. -/
def withClients {τ : Type} (w : World (RateEnv τ)) (clients : List (Str × Client)) :
    World (RateEnv τ) :=
  ⟨w.writer, ⟨clients, w.env.now, w.env.inner⟩⟩

/-- Model of `RateLimit`. -/
def RateLimit {τ : Type} (requestsPerMinute : Int) : MiddlewareFunc (RateEnv τ) :=
  fun next c w =>
    let clientIP := c.req.RemoteAddr
    let now := w.env.now
    match w.env.clients.lookup clientIP with
    | some cl =>
      let cl1 : Client := if now - cl.lastReset > Minute then ⟨0, now⟩ else cl
      if cl1.requests ≥ requestsPerMinute then
        c.String 429 "Rate limit exceeded".toList
          (withClients w (clientSet w.env.clients clientIP cl1))
      else
        next c (withClients w
          (clientSet w.env.clients clientIP ⟨cl1.requests + 1, cl1.lastReset⟩))
    | none => next c (withClients w (clientSet w.env.clients clientIP ⟨1, now⟩))

/-! ## Definitions used to state the properties -/

/-- A middleware that appends `name-before` to the log, calls its inner
handler and appends `name-after`. -/
def logMw (name : Str) : MiddlewareFunc (List Str) :=
  fun next c w =>
    let res := next c { w with env := w.env ++ [name ++ "-before".toList] }
    (res.1, { res.2 with env := res.2.env ++ [name ++ "-after".toList] })

/-- A terminal handler that appends `T` to the log. -/
def logT : HandlerFunc (List Str) :=
  fun _ w => (none, { w with env := w.env ++ ["T".toList] })

/-- No route of `routes` has the request's method and a recognizer matching
its path. -/
def NoMatch {σ : Type} (routes : List (Route σ)) (r : Request) : Prop :=
  ∀ x ∈ routes, x.Method = r.Method → FindStringSubmatch x.pathRegex r.Path = none

/-- A segment of a path pattern: literal text or a parameter `:name`. -/
inductive Seg where
  | lit (s : Str)
  | param (name : Str)
  deriving DecidableEq

/-- First character of a parameter name: `[a-zA-Z_]`. -/
def identStart (c : Char) : Bool :=
  inRanges c [('a', 'z'), ('A', 'Z'), ('_', '_')]

/-- Further characters of a parameter name: `[a-zA-Z0-9_]`. -/
def identChar (c : Char) : Bool :=
  inRanges c [('a', 'z'), ('A', 'Z'), ('0', '9'), ('_', '_')]

/-- A parameter name: `[a-zA-Z_][a-zA-Z0-9_]*`. -/
def isIdent : Str → Bool
  | [] => false
  | c :: t => identStart c && t.all identChar

/-- The metacharacters of regular expressions (those `regexp.QuoteMeta`
escapes). -/
def isMeta (c : Char) : Bool :=
  "\\.+*?()|[]\x7b\x7d^$".toList.contains c

/-- A character allowed in a literal segment: not `/`, not a metacharacter. -/
def plainChar (c : Char) : Bool :=
  c != '/' && !isMeta c

/-- The text begins with a character that can begin a parameter name. -/
def startsIdent : Str → Bool
  | [] => false
  | c :: _ => identStart c

/-- No parameter token begins inside `X` when `Y` follows it: no `:` of `X` is
followed by a character that can begin a name. -/
def noStart : Str → Str → Bool
  | [], _ => true
  | c :: X, Y => (c != ':' || !startsIdent (X ++ Y)) && noStart X Y

/-- A well-formed segment: literal text of plain characters in which no
parameter token begins, or a parameter whose name is an identifier (so that
`:name` is the whole segment). -/
def Seg.wf : Seg → Bool
  | .lit s => s.all plainChar && noStart s []
  | .param name => isIdent name

/-- The text of a segment in the pattern. -/
def Seg.text : Seg → Str
  | .lit s => s
  | .param name => ':' :: name

/-- The text of a segment in a path, the parameters being given by `v`. -/
def Seg.subst (v : Str → Str) : Seg → Str
  | .lit s => s
  | .param name => v name

/-- The parameter names of a pattern, in order. -/
def paramNamesOf : List Seg → List Str
  | [] => []
  | .lit _ :: rest => paramNamesOf rest
  | .param name :: rest => name :: paramNamesOf rest

/-- Pieces joined by `/`. -/
def joinSlash : List Str → Str
  | [] => []
  | [x] => x
  | x :: y :: rest => x ++ '/' :: joinSlash (y :: rest)

/-- The pattern made of the segments `segs`. -/
def patternOf (segs : List Seg) : Str :=
  joinSlash (segs.map Seg.text)

/-- The path obtained from the pattern by substituting `v name` for each
parameter `:name`. -/
def pathOf (v : Str → Str) (segs : List Seg) : Str :=
  joinSlash (segs.map (Seg.subst v))

/-- A piece of a path fits a segment: it is the literal text, or it is a
non-empty text without `/` in a parameter slot. -/
def Fits : Seg → Str → Prop
  | .lit s, piece => piece = s
  | .param _, piece => piece ≠ [] ∧ '/' ∉ piece

/-- The path has the structure of the pattern: it is made of as many pieces
joined by `/` as the pattern has segments, each piece fitting its segment. -/
def Conforms (segs : List Seg) (path : Str) : Prop :=
  ∃ pieces : List Str, List.Forall₂ Fits segs pieces ∧ path = joinSlash pieces

/-- A token of a pattern: one literal character or one parameter. -/
inductive Tok where
  | ch (c : Char)
  | par (name : Str)
  deriving DecidableEq

/-- The tokens of a segment. -/
def Seg.toks : Seg → List Tok
  | .lit s => s.map Tok.ch
  | .param name => [Tok.par name]

/-- The tokens of the segments `segs`, each preceded by the token `/`. -/
def slashToks (segs : List Seg) : List Tok :=
  segs.flatMap (fun s => Tok.ch '/' :: s.toks)

/-- The text of a token in the pattern. -/
def Tok.text : Tok → Str
  | .ch c => [c]
  | .par name => ':' :: name

/-- The text of a token in the expression `compilePath` compiles. -/
def Tok.reText : Tok → Str
  | .ch c => [c]
  | .par _ => paramGroup

/-- The parameter names among the tokens. -/
def tokNames : List Tok → List Str
  | [] => []
  | .ch _ :: rest => tokNames rest
  | .par name :: rest => name :: tokNames rest

/-- The expression of one parameter slot: `[^/]+`. -/
def slotRe : Regex :=
  .plus true (.cls true [('/', '/')])

/-- The items of the syntax tree for the tokens, the groups numbered from
`k + 1`. -/
def tokItems : Nat → List Tok → List Regex
  | _, [] => []
  | k, .ch c :: rest => .lit c :: tokItems k rest
  | k, .par _ :: rest => .cap (k + 1) slotRe :: tokItems (k + 1) rest

/-- Reference matcher on tokens: the values of the parameter slots when the
text is made of the literal characters and non-empty runs without `/` in the
slots, in order. -/
def refMatch : List Tok → Str → Option (List Str)
  | [], inp => if inp = [] then some [] else none
  | .ch _ :: _, [] => none
  | .ch c :: rest, x :: inp => if x = c then refMatch rest inp else none
  | .par _ :: rest, inp =>
    if inp.takeWhile (fun c => c != '/') = [] then none
    else (refMatch rest (inp.dropWhile (fun c => c != '/'))).map
      (fun vs => inp.takeWhile (fun c => c != '/') :: vs)

/-- A token is well formed: a literal character is not a metacharacter, a
parameter name is an identifier. -/
def Tok.wf : Tok → Bool
  | .ch c => !isMeta c
  | .par name => isIdent name

/-- A literal `:` is not followed by a literal character that can begin a
parameter name. -/
def colonsClosed : List Tok → Bool
  | [] => true
  | .ch c :: rest => (c != ':' || !startsIdent (rest.flatMap Tok.text)) && colonsClosed rest
  | .par _ :: rest => colonsClosed rest

/-- Every parameter token is followed by the token `/` or by nothing. -/
def slotsClosed : List Tok → Bool
  | [] => true
  | .ch _ :: rest => slotsClosed rest
  | .par _ :: rest => (rest.head? = none || rest.head? = some (Tok.ch '/')) && slotsClosed rest

/-- The capture list after the slots numbered from `k + 1` took the values
`vals` (latest first), on top of `caps`. -/
def capsAfter : Nat → List Str → List (Nat × Str) → List (Nat × Str)
  | _, [], caps => caps
  | k, v :: vs, caps => capsAfter (k + 1) vs ((k + 1, v) :: caps)

/-- Threads that begin with a character other than `/` are dropped by `K`. -/
def Closes (K : Thread → List Thread) : Prop :=
  ∀ (u : Thread) (c : Char) (t : Str), u.rest = c :: t → (c != '/') = true → K u = []

/-- The syntax tree of the expression compiled for the tokens. -/
def pathTree (toks : List Tok) : Regex :=
  catList (Regex.beginText :: (tokItems 0 toks ++ [Regex.endText]))

/-- The text of the tokens in the compiled expression. -/
def reTextOf (toks : List Tok) : Str := toks.flatMap Tok.reText

/-- Number of parser steps the tokens take. -/
def tokSteps : List Tok → Nat
  | [] => 0
  | .ch _ :: rest => tokSteps rest + 1
  | .par _ :: rest => tokSteps rest + 4

/-- The syntax tree of the expression for a parameter token. -/
def tokenTree : Regex :=
  .cat (.lit ':') (.cap 1 (.cat (.cls false [('a', 'z'), ('A', 'Z'), ('_', '_')])
    (.star true (.cls false [('a', 'z'), ('A', 'Z'), ('0', '9'), ('_', '_')]))))

/-- The text of the tokens in the pattern. -/
def patTextOf (toks : List Tok) : Str := toks.flatMap Tok.text

/-- The tokens of the pattern made of `segs`. -/
def toksOf (segs : List Seg) : List Tok := (slashToks segs).drop 1

/-- The pieces found in the parameter slots. -/
def valsOf : List Seg → List Str → List Str
  | .lit _ :: segs, _ :: ps => valsOf segs ps
  | .param _ :: segs, p :: ps => p :: valsOf segs ps
  | _, _ => []

/-- Compile `pattern` and match `path` against its recognizer. -/
def compileAndMatch (pattern path : Str) : Compiled (Option (List Str)) :=
  match compilePath pattern with
  | .ok (re, _) => .ok (FindStringSubmatch re path)
  | .error e => .error e
  | .unsupported => .unsupported

/-- The program `m := SpellMagic(); m.Spell(decl).With(h)` followed by the
request `r` served by `m`; `none` when the registration panics. -/
def registerAndDispatch {σ : Type} (uni : Char → Char) (decl : Str) (h : HandlerFunc σ)
    (r : Request) (w : World σ) : Option (Option (World σ)) :=
  match Magic.Spell uni (SpellMagic ([] : Heap σ)).1 decl (SpellMagic ([] : Heap σ)).2 with
  | .ok (sp, heap) =>
    match sp.With h heap with
    | .ok heap1 =>
      match heap1[sp.magic]? with
      | some m => some (handleRequest m r w)
      | none => none
    | _ => none
  | .error _ => none

/-- The upper-case letter of a lower-case ASCII letter, from the table of the
alphabet; any other character is left as it is. -/
def upperLetter (c : Char) : Char :=
  (("abcdefghijklmnopqrstuvwxyz".toList.zip "ABCDEFGHIJKLMNOPQRSTUVWXYZ".toList).lookup c).getD c

/-- The segments of `/users/:id/posts/:postId`. -/
def usersSegs : List Seg :=
  [.lit [], .lit "users".toList, .param "id".toList, .lit "posts".toList, .param "postId".toList]

/-- The recognizer of `/users/:id/posts/:postId`. -/
def usersRe : Regexp :=
  ⟨"^/users/([^/]+)/posts/([^/]+)$".toList, pathTree (toksOf usersSegs), 2⟩

/-- The segments of `/a:/:9x/:id`: the literal segments `a:` and `:9x` hold a
`:` that begins no parameter token. -/
def colonSegs : List Seg :=
  [.lit [], .lit "a:".toList, .lit ":9x".toList, .param "id".toList]

/-- The recognizer of `/a:/:9x/:id`. -/
def colonRe : Regexp :=
  ⟨"^/a:/:9x/([^/]+)$".toList, pathTree (toksOf colonSegs), 1⟩

/-- The values `id = 42`, `postId = 7`. -/
def usersVals : Str → Str :=
  fun name => if name = "id".toList then "42".toList else "7".toList

/-- A handler that writes `ok`. -/
def okHandler : HandlerFunc Unit :=
  fun _ w => (none, { w with writer := w.writer ++ [.write "ok".toList] })

/-- The recognizer of the pattern `/a`. -/
def reA : Regexp :=
  ⟨"^/a$".toList, .cat .beginText (.cat (.lit '/') (.cat (.lit 'a') .endText)), 0⟩

/-- A handler that writes `text`. -/
def writeHandler (text : Str) : HandlerFunc Unit :=
  fun _ w => (none, { w with writer := w.writer ++ [.write text] })

/-- A handler that fails with the error `text`. -/
def failHandler (text : Str) : HandlerFunc Unit :=
  fun _ w => (some text, w)

/-- A middleware that writes `text` and calls its inner handler. -/
def passMw (text : Str) : MiddlewareFunc Unit :=
  fun next c w => next c { w with writer := w.writer ++ [.write text] }

/-- A middleware that writes `blocked` and fails with `denied` without calling
its inner handler. -/
def blockMw : MiddlewareFunc Unit :=
  fun _ _ w => (some "denied".toList, { w with writer := w.writer ++ [.write "blocked".toList] })

/-- The middleware `BasicAuth("user:pass")`. -/
def userAuth : MiddlewareFunc Unit :=
  match BasicAuth "user:pass".toList with
  | .ok mw => mw
  | .error _ => fun next => next

/-- A route for `method` and the pattern `/a`. -/
def routeA (method : Str) (handler : HandlerFunc Unit) (mws : List (MiddlewareFunc Unit)) :
    Route Unit :=
  ⟨method, "/a".toList, handler, mws, reA, []⟩

/-- A table with `POST /a` followed by `GET /a` registered twice. -/
def dupMagic : Magic Unit :=
  ⟨[routeA "POST".toList (writeHandler "post".toList) [],
    routeA "GET".toList (writeHandler "first".toList) [],
    routeA "GET".toList (writeHandler "second".toList) []], []⟩

/-- A request with the given method and path. -/
def request (method path : Str) : Request :=
  ⟨method, path, [], []⟩

/-- The world before the request is served. -/
def world0 : World Unit :=
  ⟨[], ()⟩

/-- The names of the route paths held by each `Magic` of the store. -/
def tablePaths {σ : Type} (st : Store σ) : List (List Str) :=
  st.magics.map (fun m => m.routes.map (fun r => r.Path))

/-- The tables `h1` come from the tables `h` by allocating `Magic` values
with an empty table and by appending compiled routes to tables. -/
inductive Grown {σ : Type} : Heap σ → Heap σ → Prop where
  | refl (h : Heap σ) : Grown h h
  | alloc (h h1 : Heap σ) : Grown h h1 → Grown h (h1 ++ [⟨[], []⟩])
  | add (h h1 : Heap σ) (a : Nat) (m : Magic σ) (route : Route σ) : Grown h h1 →
      h1[a]? = some m → compilePath route.Path = .ok (route.pathRegex, route.paramNames) →
      Grown h (h1.set a ⟨m.routes ++ [route], m.middlewares⟩)

/-- The condition is a `PathPrefixCondition`. -/
def isPathPrefix {σ : Type} : ExperimentCondition σ → Bool
  | .pathPrefix _ => true
  | .custom _ => false

/-- A condition of the caller: its `Apply` calls `With(okHandler)` on the
spell at address 0, which it holds. -/
def registering : ExperimentCondition Unit :=
  .custom (fun _ _ _ _ => [.With 0 okHandler])

/-- A store with one `Magic` and a spell declared as `GET /files/\Q:name\E`. -/
def quotedStore : Store Unit :=
  ⟨[⟨[], []⟩], [⟨0, "GET".toList, "/files/\\Q:name\\E".toList, []⟩], []⟩

/-- The spells of a store, without their middlewares. -/
def spellFields {σ : Type} (st : Store σ) : List (Nat × Str × Str) :=
  st.spells.map (fun sp => (sp.magic, sp.method, sp.path))

/-- A spell declared as `GET /a(`, whose pattern does not compile. -/
def badSpell : Spell Unit :=
  ⟨0, "GET".toList, "/a(".toList, []⟩

/-- A store with one `Magic` and the spell `badSpell`. -/
def badStore : Store Unit :=
  ⟨[⟨[], []⟩], [badSpell], []⟩

/-- A program that registers `GET /a` with a middleware on the `Magic` of an
experiment. -/
def sampleCalls : List (Call Unit) :=
  [.SpellMagic, .Spell 0 "GET /a".toList, .Require 0 (passMw "m".toList),
   .Experiments "x".toList, .Given 0 [PathPrefix "/api".toList], .Subject 0 [0],
   .With 0 okHandler, .Cast [0]]

/-- The spell `Spell("GET /a")` makes on the `Magic` at address 0. -/
def spellA : Spell Unit :=
  ⟨0, "GET".toList, "/a".toList, []⟩

/-- The `Magic` of the experiment after `sampleCalls`. -/
def sampleMagic : Magic Unit :=
  ⟨[⟨"GET".toList, "/a".toList, okHandler, [passMw "m".toList], reA, []⟩], []⟩

/-- A store with a route `GET /a` on the `Magic` at address 0, its spell, and
an experiment on the `Magic` at address 1 with the condition
`PathPrefix("/api")`. -/
def subjectStore : Store Unit :=
  ⟨[⟨[⟨"GET".toList, "/a".toList, okHandler, [], reA, []⟩], []⟩, ⟨[], []⟩], [spellA],
    [⟨"x".toList, 1, [PathPrefix "/api".toList], []⟩]⟩

/-- The number of capture groups of the recognizer of `pattern` and the
parameter names `compilePath` returns with it. -/
def compiledShape (pattern : Str) : Compiled (Nat × List Str) :=
  match compilePath pattern with
  | .ok (re, names) => .ok (re.numSubexp, names)
  | .error e => .error e
  | .unsupported => .unsupported

/-- What is observed of one request passed through a `RateLimit` middleware:
the client address, whether the request started a new window of the client
(the client was created or its counter was reset) and whether the request was
forwarded to the inner handler. -/
structure RateEvent where
  addr : Str
  started : Bool
  forwarded : Bool
  deriving DecidableEq

/-- An inner handler that records that it was called. -/
def probe : HandlerFunc (RateEnv Bool) :=
  fun _ w => (none, ⟨w.writer, ⟨w.env.clients, w.env.now, true⟩⟩)

/-- Pass a request of the client `addr` at the time `now` through
`RateLimit(n)` with the map `clients`: the event observed and the map after
it. -/
def observe (n : Int) (clients : List (Str × Client)) (addr : Str) (now : Int) :
    RateEvent × List (Str × Client) :=
  let res := RateLimit n probe ⟨⟨[], [], [], addr⟩, []⟩ ⟨[], ⟨clients, now, false⟩⟩
  (⟨addr,
    match clients.lookup addr with
    | some cl => decide (now - cl.lastReset > Minute)
    | none => true,
    res.2.env.inner⟩, res.2.env.clients)

/-- Pass a sequence of requests (client address, time) through one
`RateLimit(n)` middleware, starting with the map `clients`: the events in
order and the map at the end. -/
def rateRun (n : Int) : List (Str × Int) → List (Str × Client) →
    List RateEvent × List (Str × Client)
  | [], clients => ([], clients)
  | q :: rest, clients =>
    ((observe n clients q.1 q.2).1 :: (rateRun n rest (observe n clients q.1 q.2).2).1,
      (rateRun n rest (observe n clients q.1 q.2).2).2)

/-- The number of requests of the client `a` forwarded since its window
started, after the events `evs`, `count` being the number before them. -/
def windowCount (a : Str) : Nat → List RateEvent → Nat
  | count, [] => count
  | count, e :: evs =>
    windowCount a
      (if e.addr = a then
        (if e.started then 0 else count) + (if e.forwarded then 1 else 0)
      else count) evs

/-- The number of requests of the client `a` forwarded in its current
window. -/
def fwdInWindow (a : Str) (evs : List RateEvent) : Nat :=
  windowCount a 0 evs

/-- The counter of the client `a` is the number `count` of its requests
forwarded in its window and is at most `max n 1`; without a record of `a`
nothing has been forwarded. -/
def RateInv (n : Int) (a : Str) (clients : List (Str × Client)) (count : Nat) : Prop :=
  match clients.lookup a with
  | some cl => cl.requests = (count : Int) ∧ cl.requests ≤ max n 1
  | none => count = 0

/-- Requests of the clients `a` and `b`, the fifth one more than a minute
after the first. -/
def sampleReqs : List (Str × Int) :=
  [("a".toList, 0), ("a".toList, 1), ("b".toList, 1), ("a".toList, 2),
   ("a".toList, 70000000000), ("a".toList, 70000000001), ("a".toList, 70000000002)]

/-- An inner handler that writes `inner`. -/
def rateInner : HandlerFunc (RateEnv Unit) :=
  fun _ w => (none, ⟨w.writer ++ [.write "inner".toList], w.env⟩)

/-- A request with the header `Authorization: Basic dXNlcjpwYXNz`. -/
def authRequest : Request :=
  ⟨"GET".toList, "/a".toList, [("Authorization".toList, "Basic dXNlcjpwYXNz".toList)], []⟩

/-! ## Matching: lemmas -/

theorem run_catList_cons (x : Regex) (xs : List Regex) (t : Thread) :
    run (catList (x :: xs)) t = (run x t).flatMap (run (catList xs)) := by
  cases xs with
  | nil =>
    have : run Regex.emptyMatch = fun u => [u] := by funext u; rfl
    simp [catList, this]
  | cons y ys => rfl

theorem starLoop_step_flatMap (p : Char → Bool) (K : Thread → List Thread)
    (hK : ∀ (u : Thread) (c : Char) (t : Str), u.rest = c :: t → p c = true → K u = []) :
    ∀ (rest : Str) (fuel pos : Nat) (caps : List (Nat × Str)), rest.length ≤ fuel →
      (starLoop (stepChar p) true fuel ⟨pos, rest, caps⟩).flatMap K
        = K ⟨pos + (rest.takeWhile p).length, rest.dropWhile p, caps⟩ := by
  intro rest
  induction rest with
  | nil =>
    intro fuel pos caps _
    cases fuel <;> simp [starLoop, stepChar]
  | cons c r ih =>
    intro fuel pos caps hlen
    cases fuel with
    | zero => simp at hlen
    | succ f =>
      have hf : r.length ≤ f := by simpa using hlen
      by_cases hc : p c = true
      · have hk : K ⟨pos, c :: r, caps⟩ = [] := hK _ c r rfl hc
        simp [starLoop, stepChar, hc, ih f (pos + 1) caps hf, hk, List.takeWhile, List.dropWhile,
          Nat.add_assoc, Nat.add_comm 1]
      · simp [starLoop, stepChar, hc, List.takeWhile, List.dropWhile]

theorem inRanges_slash (x : Char) : (inRanges x [('/', '/')] != true) = (x != '/') := by
  by_cases h : x = '/'
  · subst h; decide
  · have hv : ¬ ('/'.val ≤ x.val ∧ x.val ≤ '/'.val) :=
      fun ⟨h1, h2⟩ => h (Char.ext (UInt32.le_antisymm h2 h1))
    have hb : inRanges x [('/', '/')] = false := by
      simp only [inRanges, List.any_cons, List.any_nil, Bool.or_false, Bool.and_eq_false_imp,
        decide_eq_true_eq, decide_eq_false_iff_not]
      exact fun h1 h2 => hv ⟨h1, h2⟩
    simp [hb, h]

theorem take_length_takeWhile (p : Char → Bool) (l : Str) :
    l.take (l.takeWhile p).length = l.takeWhile p := by
  induction l with
  | nil => rfl
  | cons c r ih =>
    by_cases hc : p c = true
    · simp [List.takeWhile, hc, ih]
    · simp [List.takeWhile, hc]

theorem length_takeWhile_add_dropWhile (p : Char → Bool) (l : Str) :
    (l.takeWhile p).length + (l.dropWhile p).length = l.length := by
  rw [← List.length_append, List.takeWhile_append_dropWhile]

theorem run_slot_flatMap (k : Nat) (K : Thread → List Thread) (hK : Closes K) (t : Thread) :
    (run (.cap k slotRe) t).flatMap K =
      if t.rest.takeWhile (fun c => c != '/') = [] then []
      else K ⟨t.pos + (t.rest.takeWhile (fun c => c != '/')).length,
              t.rest.dropWhile (fun c => c != '/'),
              (k, t.rest.takeWhile (fun c => c != '/')) :: t.caps⟩ := by
  obtain ⟨pos, rest, caps⟩ := t
  have hp : (fun x => inRanges x [('/', '/')] != true) = (fun c => c != '/') := by
    funext x; exact inRanges_slash x
  simp only [run, slotRe, hp, List.flatMap_map]
  cases rest with
  | nil => simp [stepChar]
  | cons c r =>
    by_cases hc : (c != '/') = true
    · have hK2 : ∀ (u : Thread) (c1 : Char) (t1 : Str), u.rest = c1 :: t1 →
          (fun c => c != '/') c1 = true →
          (fun u : Thread => K ⟨u.pos, u.rest,
            (k, (c :: r).take (u.pos - pos)) :: u.caps⟩) u = [] :=
        fun u c1 t1 h1 h2 => hK _ c1 t1 h1 h2
      have hloop := starLoop_step_flatMap (fun c => c != '/') _ hK2 r r.length (pos + 1) caps
        (Nat.le_refl _)
      have hstep : stepChar (fun c => c != '/') ⟨pos, c :: r, caps⟩ = [⟨pos + 1, r, caps⟩] := by
        simp only [stepChar, hc, if_true]
      rw [hstep, List.flatMap_assoc]
      simp only [List.flatMap_cons, List.flatMap_nil, List.append_nil]
      rw [hloop]
      have htw : List.takeWhile (fun c => c != '/') (c :: r)
          = c :: List.takeWhile (fun c => c != '/') r := by
        simp only [List.takeWhile, hc]
      have hdw : List.dropWhile (fun c => c != '/') (c :: r)
          = List.dropWhile (fun c => c != '/') r := by
        simp only [List.dropWhile, hc]
      have hsub : pos + ((List.takeWhile (fun c => c != '/') r).length + 1) - pos
          = (List.takeWhile (fun c => c != '/') r).length + 1 := by omega
      simp only [htw, hdw, List.length_cons, reduceCtorEq, if_false, Nat.add_assoc,
        Nat.add_comm 1, hsub, List.take_succ_cons, take_length_takeWhile]
    · have hstep : stepChar (fun c => c != '/') ⟨pos, c :: r, caps⟩ = [] := by
        simp only [stepChar, hc]
        rfl
      have htw : List.takeWhile (fun c => c != '/') (c :: r) = [] := by
        simp only [List.takeWhile, hc]
      simp [hstep, htw]

theorem run_lit_nil (c : Char) (pos : Nat) (caps : List (Nat × Str)) :
    run (.lit c) ⟨pos, [], caps⟩ = [] := by
  simp [run, stepChar]

theorem run_lit_cons (c x : Char) (xs : Str) (pos : Nat) (caps : List (Nat × Str)) :
    run (.lit c) ⟨pos, x :: xs, caps⟩ = if x = c then [⟨pos + 1, xs, caps⟩] else [] := by
  simp [run, stepChar]

theorem closes_end : Closes (run (catList ([] ++ [Regex.endText]))) := by
  intro u c t h _
  simp [catList, run, h]

theorem closes_slash (items : List Regex) : Closes (run (catList (Regex.lit '/' :: items))) := by
  intro u c t h hc
  have hne : ¬ c = '/' := by simpa using hc
  obtain ⟨pos, rest, caps⟩ := u
  simp only at h
  subst h
  rw [run_catList_cons, run_lit_cons]
  simp [hne]

theorem run_tokItems (toks : List Tok) (hclosed : slotsClosed toks = true) :
    ∀ (k pos : Nat) (inp : Str) (caps : List (Nat × Str)),
      run (catList (tokItems k toks ++ [Regex.endText])) ⟨pos, inp, caps⟩ =
        match refMatch toks inp with
        | some vals => [⟨pos + inp.length, [], capsAfter k vals caps⟩]
        | none => [] := by
  induction toks with
  | nil =>
    intro k pos inp caps
    cases inp <;> simp [tokItems, catList, run, refMatch, capsAfter]
  | cons tok rest ih =>
    intro k pos inp caps
    cases tok with
    | ch c =>
      have hrest : slotsClosed rest = true := by simpa [slotsClosed] using hclosed
      simp only [tokItems, List.cons_append]
      rw [run_catList_cons]
      cases inp with
      | nil => simp [refMatch, run_lit_nil]
      | cons x xs =>
        rw [run_lit_cons]
        by_cases hx : x = c
        · simp only [hx, if_true, List.flatMap_cons, List.flatMap_nil, List.append_nil, refMatch]
          rw [ih hrest]
          simp [Nat.add_assoc, Nat.add_comm 1]
        · simp [hx, refMatch]
    | par name =>
      have hcl : (rest.head? = none ∨ rest.head? = some (Tok.ch '/')) ∧ slotsClosed rest = true := by
        simpa [slotsClosed] using hclosed
      have hK : Closes (run (catList (tokItems (k + 1) rest ++ [Regex.endText]))) := by
        rcases hcl.1 with h | h
        · cases rest with
          | nil => exact closes_end
          | cons a b => simp at h
        · cases rest with
          | nil => simp at h
          | cons a b =>
            have ha : a = Tok.ch '/' := by simpa using h
            subst ha
            exact closes_slash _
      simp only [tokItems, List.cons_append]
      rw [run_catList_cons, run_slot_flatMap _ _ hK]
      simp only [refMatch]
      by_cases hv : List.takeWhile (fun c => c != '/') inp = []
      · simp [hv]
      · simp only [hv, if_false]
        rw [ih hcl.2]
        cases hm : refMatch rest (List.dropWhile (fun c => c != '/') inp) with
        | none => simp
        | some vals =>
          simp [capsAfter, Nat.add_assoc, length_takeWhile_add_dropWhile]

theorem run_pathTree (toks : List Tok) (hclosed : slotsClosed toks = true)
    (pos : Nat) (inp : Str) (caps : List (Nat × Str)) :
    run (pathTree toks) ⟨pos, inp, caps⟩ =
      if pos = 0 then
        match refMatch toks inp with
        | some vals => [⟨inp.length, [], capsAfter 0 vals caps⟩]
        | none => []
      else [] := by
  rw [pathTree, run_catList_cons]
  by_cases hpos : pos = 0
  · subst hpos
    simp [run, run_tokItems toks hclosed]
  · simp [run, hpos]

theorem search_pathTree_pos (toks : List Tok) (hclosed : slotsClosed toks = true) :
    ∀ (rest : Str) (pos : Nat), 0 < pos → search (pathTree toks) pos rest = none := by
  intro rest
  induction rest with
  | nil =>
    intro pos hpos
    simp [search, run_pathTree toks hclosed, Nat.pos_iff_ne_zero.mp hpos]
  | cons x xs ih =>
    intro pos hpos
    simp [search, run_pathTree toks hclosed, Nat.pos_iff_ne_zero.mp hpos, ih (pos + 1)]

theorem search_pathTree (toks : List Tok) (hclosed : slotsClosed toks = true) (path : Str) :
    search (pathTree toks) 0 path =
      (refMatch toks path).map (fun vals => (0, path, ⟨path.length, [], capsAfter 0 vals []⟩)) := by
  cases path with
  | nil =>
    simp only [search, run_pathTree toks hclosed, if_true]
    cases refMatch toks [] <;> simp
  | cons x xs =>
    simp only [search, run_pathTree toks hclosed, if_true]
    cases refMatch toks (x :: xs) with
    | none => simp [search_pathTree_pos toks hclosed]
    | some vals => simp

theorem lookup_capsAfter (vals : List Str) :
    ∀ (k j : Nat) (caps : List (Nat × Str)),
      (capsAfter k vals caps).lookup j =
        if k + 1 ≤ j ∧ j ≤ k + vals.length then vals[j - (k + 1)]? else caps.lookup j := by
  induction vals with
  | nil =>
    intro k j caps
    have : ¬ (k + 1 ≤ j ∧ j ≤ k) := by omega
    simp [capsAfter, this]
  | cons v vs ih =>
    intro k j caps
    rw [capsAfter, ih]
    by_cases h1 : k + 1 + 1 ≤ j ∧ j ≤ k + 1 + vs.length
    · have h2 : k + 1 ≤ j ∧ j ≤ k + (v :: vs).length := by
        simp only [List.length_cons]; omega
      have h3 : j - (k + 1) = (j - (k + 1 + 1)) + 1 := by omega
      rw [if_pos h1, if_pos h2, h3, List.getElem?_cons_succ]
    · rw [if_neg h1]
      by_cases h4 : j = k + 1
      · subst h4
        simp [List.lookup]
      · have h5 : ¬ (k + 1 ≤ j ∧ j ≤ k + (v :: vs).length) := by
          simp only [List.length_cons]; omega
        have h6 : (j == k + 1) = false := by simpa using h4
        rw [if_neg h5]
        simp [List.lookup, h6]

theorem refMatch_length (toks : List Tok) :
    ∀ (inp : Str) (vals : List Str), refMatch toks inp = some vals →
      vals.length = (tokNames toks).length := by
  induction toks with
  | nil =>
    intro inp vals h
    cases inp <;> simp [refMatch] at h
    simp [h, tokNames]
  | cons tok rest ih =>
    intro inp vals h
    cases tok with
    | ch c =>
      cases inp with
      | nil => simp [refMatch] at h
      | cons x xs =>
        by_cases hx : x = c
        · simp only [refMatch, hx, if_true] at h
          simpa [tokNames] using ih _ _ h
        · simp [refMatch, hx] at h
    | par name =>
      simp only [refMatch] at h
      by_cases hv : List.takeWhile (fun c => c != '/') inp = []
      · simp [hv] at h
      · simp only [hv, if_false, Option.map_eq_some'] at h
        obtain ⟨vs, hvs, rfl⟩ := h
        simp [tokNames, ih _ _ hvs]

theorem find_pathTree (expr : Str) (toks : List Tok) (hclosed : slotsClosed toks = true)
    (path : Str) :
    FindStringSubmatch ⟨expr, pathTree toks, (tokNames toks).length⟩ path =
      (refMatch toks path).map (fun vals => path :: vals) := by
  simp only [FindStringSubmatch, search_pathTree toks hclosed, Option.map_map]
  cases hm : refMatch toks path with
  | none => rfl
  | some vals =>
    have hlen := refMatch_length toks path vals hm
    simp only [Option.map_some', Function.comp_apply, Nat.sub_zero, List.take_length]
    congr 2
    apply List.ext_getElem?
    intro i
    by_cases hi : i < vals.length
    · have h1 : i + 1 ≤ vals.length := by omega
      simp [hlen ▸ hi, lookup_capsAfter, h1, List.getElem?_eq_getElem hi]
    · have h2 : vals.length ≤ i := by omega
      rw [List.getElem?_eq_none h2, List.getElem?_eq_none]
      simp [← hlen, h2]

/-! ## Parsing: lemmas -/

theorem parse_plain (c : Char) (hc : Tok.wf (.ch c) = true) (fuel : Nat) (t : Str) (lr : Bool)
    (st : PState) :
    parseLoop (fuel + 1) (c :: t) lr st = parseLoop fuel t false (st.push (.lit c)) := by
  simp only [Tok.wf, isMeta, Bool.not_eq_true',
    List.contains_eq_any_beq, List.any_eq_false, beq_iff_eq] at hc
  have h := hc
  have hm : ∀ x ∈ "\\.+*?()|[]\x7b\x7d^$".toList, ¬ c = x := fun x hx hcx => h x hx hcx
  have e1 := hm '(' (by decide)
  have e2 := hm '|' (by decide)
  have e3 := hm ')' (by decide)
  have e4 := hm '^' (by decide)
  have e5 := hm '$' (by decide)
  have e6 := hm '.' (by decide)
  have e7 := hm '[' (by decide)
  have e8 := hm '*' (by decide)
  have e9 := hm '+' (by decide)
  have e10 := hm '?' (by decide)
  have e11 := hm '{' (by decide)
  have e12 := hm '\\' (by decide)
  simp only [parseLoop, e1, e2, e3, e4, e5, e6, e7, e8, e9, e10, e11, e12, if_false, or_self]

theorem parse_group (fuel : Nat) (t : Str) (lr : Bool) (st : PState) :
    parseLoop (fuel + 4) (paramGroup ++ t) lr st =
      parseLoop fuel t false
        ⟨st.ncap + 1, st.stack, st.alts, st.seq ++ [.cap (st.ncap + 1) slotRe]⟩ := by
  have hg : paramGroup = ['(', '[', '^', '/', ']', '+', ')'] := by decide
  rw [hg]
  simp [parseLoop, parseClass, classLoop, applyRepeat, PState.push, nullable, collapse,
    altList, catList, slotRe]

theorem tokSteps_le (toks : List Tok) : tokSteps toks ≤ (reTextOf toks).length := by
  induction toks with
  | nil => simp [tokSteps]
  | cons tok rest ih =>
    cases tok with
    | ch c =>
      simp only [tokSteps, reTextOf, List.flatMap_cons, Tok.reText, List.length_append,
        List.length_singleton] at ih ⊢
      omega
    | par name =>
      have hg : paramGroup.length = 7 := by decide
      simp only [tokSteps, reTextOf, List.flatMap_cons, Tok.reText, List.length_append, hg] at ih ⊢
      omega

theorem parse_toks (toks : List Tok) (hwf : ∀ tok ∈ toks, Tok.wf tok = true) :
    ∀ (fuel : Nat) (t : Str) (ncap : Nat) (stack : List Frame) (alts seq : List Regex),
      parseLoop (fuel + tokSteps toks) (reTextOf toks ++ t) false ⟨ncap, stack, alts, seq⟩ =
        parseLoop fuel t false
          ⟨ncap + (tokNames toks).length, stack, alts, seq ++ tokItems ncap toks⟩ := by
  induction toks with
  | nil =>
    intro fuel t ncap stack alts seq
    simp [tokSteps, reTextOf, tokNames, tokItems]
  | cons tok rest ih =>
    intro fuel t ncap stack alts seq
    have hrest : ∀ tok ∈ rest, Tok.wf tok = true := fun x hx => hwf x (List.mem_cons_of_mem _ hx)
    have ih2 := ih hrest
    cases tok with
    | ch c =>
      have hc := hwf (.ch c) (List.mem_cons_self _ _)
      have e : parseLoop (fuel + tokSteps (Tok.ch c :: rest)) (reTextOf (Tok.ch c :: rest) ++ t)
          false ⟨ncap, stack, alts, seq⟩
          = parseLoop (fuel + tokSteps rest + 1) (c :: (reTextOf rest ++ t)) false
              ⟨ncap, stack, alts, seq⟩ := by
        simp [tokSteps, reTextOf, Tok.reText, Nat.add_assoc]
      rw [e, parse_plain c hc, PState.push, ih2]
      simp [tokNames, tokItems]
    | par name =>
      have e : parseLoop (fuel + tokSteps (Tok.par name :: rest))
          (reTextOf (Tok.par name :: rest) ++ t) false ⟨ncap, stack, alts, seq⟩
          = parseLoop (fuel + tokSteps rest + 4) (paramGroup ++ (reTextOf rest ++ t)) false
              ⟨ncap, stack, alts, seq⟩ := by
        simp [tokSteps, reTextOf, Tok.reText, Nat.add_assoc]
      rw [e, parse_group, ih2]
      simp [tokNames, tokItems, Nat.add_assoc, Nat.add_comm 1]

theorem compile_reText (toks : List Tok) (hwf : ∀ tok ∈ toks, Tok.wf tok = true)
    (hlen : ('^' :: (reTextOf toks ++ ['$'])).length ≤ maxExprLen) :
    regexpCompile ('^' :: (reTextOf toks ++ ['$'])) =
      .ok ⟨'^' :: (reTextOf toks ++ ['$']), pathTree toks, (tokNames toks).length⟩ := by
  have hle := tokSteps_le toks
  obtain ⟨d, hd⟩ : ∃ d, ('^' :: (reTextOf toks ++ ['$'])).length + 1
      = (d + 1 + 1 + tokSteps toks) + 1 := by
    refine ⟨(reTextOf toks).length - tokSteps toks, ?_⟩
    simp only [List.length_cons, List.length_append, List.length_singleton, List.length_nil]
    omega
  unfold regexpCompile
  rw [if_neg (Nat.not_lt.mpr hlen), hd]
  have h1 : parseLoop (d + 1 + 1 + tokSteps toks + 1) ('^' :: (reTextOf toks ++ ['$'])) false
      ⟨0, [], [], []⟩
      = parseLoop (d + 1 + 1 + tokSteps toks) (reTextOf toks ++ ['$']) false
          ⟨0, [], [], [Regex.beginText]⟩ := by
    simp [parseLoop, PState.push]
  rw [h1, parse_toks toks hwf]
  simp [parseLoop, PState.push, collapse, altList, pathTree]

/-! ## Parameter tokens: lemmas -/

theorem compile_paramToken : regexpCompile paramToken = .ok ⟨paramToken, tokenTree, 1⟩ := by
  decide

theorem starLoop_step_head (p : Char → Bool) :
    ∀ (rest : Str) (fuel pos : Nat) (caps : List (Nat × Str)), rest.length ≤ fuel →
      (starLoop (stepChar p) true fuel ⟨pos, rest, caps⟩).head?
        = some ⟨pos + (rest.takeWhile p).length, rest.dropWhile p, caps⟩ := by
  intro rest
  induction rest with
  | nil =>
    intro fuel pos caps _
    cases fuel <;> simp [starLoop, stepChar]
  | cons c r ih =>
    intro fuel pos caps hlen
    cases fuel with
    | zero => simp at hlen
    | succ f =>
      have hf : r.length ≤ f := by simpa using hlen
      by_cases hc : p c = true
      · have h := ih f (pos + 1) caps hf
        simp only [starLoop, stepChar, hc, if_true, List.length_cons, Nat.lt_succ_self,
          decide_True, List.filter_cons_of_pos, List.filter_nil, List.flatMap_cons,
          List.flatMap_nil, List.append_nil]
        rw [List.head?_append, h]
        simp [List.takeWhile, List.dropWhile, hc, Nat.add_assoc, Nat.add_comm 1]
      · simp [starLoop, stepChar, hc, List.takeWhile, List.dropWhile]

theorem run_token_nil (pos : Nat) (caps : List (Nat × Str)) :
    run tokenTree ⟨pos, [], caps⟩ = [] := by
  simp [tokenTree, run, stepChar]

theorem stepChar_cons (p : Char → Bool) (x : Char) (xs : Str) (pos : Nat)
    (caps : List (Nat × Str)) :
    stepChar p ⟨pos, x :: xs, caps⟩ = if p x = true then [⟨pos + 1, xs, caps⟩] else [] := rfl

theorem run_cls_eq (neg : Bool) (ranges : List (Char × Char)) :
    run (.cls neg ranges) = stepChar (fun x => inRanges x ranges != neg) := by
  funext t; rfl

theorem run_token_skip (c : Char) (rest : Str) (h : (c != ':' || !startsIdent rest) = true)
    (pos : Nat) (caps : List (Nat × Str)) :
    run tokenTree ⟨pos, c :: rest, caps⟩ = [] := by
  by_cases hc : c = ':'
  · subst hc
    cases rest with
    | nil => simp [tokenTree, run, stepChar]
    | cons d r =>
      have hd : identStart d = false := by simpa [startsIdent] using h
      have hs : (inRanges d [('a', 'z'), ('A', 'Z'), ('_', '_')] != false) = false := by
        simpa [identStart] using hd
      simp only [tokenTree, run, run_cls_eq, stepChar_cons, decide_True, if_true,
        List.flatMap_cons, List.flatMap_nil, List.append_nil, hs, Bool.false_eq_true, if_false,
        List.map_nil]
  · simp [tokenTree, run, stepChar, hc]

theorem takeWhile_ident (name rest : Str) (hname : name.all identChar = true)
    (hrest : ∀ c ∈ rest.head?, identChar c = false) :
    (name ++ rest).takeWhile identChar = name ∧ (name ++ rest).dropWhile identChar = rest := by
  induction name with
  | nil =>
    cases rest with
    | nil => simp
    | cons c r =>
      have := hrest c (by simp)
      simp [List.takeWhile, List.dropWhile, this]
  | cons c n ih =>
    simp only [List.all_cons, Bool.and_eq_true] at hname
    simp [List.takeWhile, List.dropWhile, hname.1, ih hname.2]

theorem run_token_hit (name rest : Str) (hname : isIdent name = true)
    (hrest : ∀ c ∈ rest.head?, identChar c = false) (pos : Nat) (caps : List (Nat × Str)) :
    (run tokenTree ⟨pos, ':' :: (name ++ rest), caps⟩).head?
      = some ⟨pos + 1 + name.length, rest, (1, name) :: caps⟩ := by
  cases name with
  | nil => simp [isIdent] at hname
  | cons c n =>
    simp only [isIdent, Bool.and_eq_true] at hname
    have hp : (fun x => inRanges x [('a', 'z'), ('A', 'Z'), ('0', '9'), ('_', '_')] != false)
        = identChar := by
      funext x; simp [identChar]
    have hs : (inRanges c [('a', 'z'), ('A', 'Z'), ('_', '_')] != false) = true := by
      simpa [identStart] using hname.1
    have htw := takeWhile_ident n rest hname.2 hrest
    have hloop := starLoop_step_head identChar (n ++ rest) (n ++ rest).length (pos + 1 + 1) caps
      (Nat.le_refl _)
    rw [htw.1, htw.2] at hloop
    have e : pos + 1 + 1 + n.length - (pos + 1) = n.length + 1 := by omega
    have e2 : pos + 1 + (n.length + 1) = pos + 1 + 1 + n.length := by omega
    simp only [tokenTree, run, run_cls_eq, stepChar_cons, decide_True, if_true,
      List.flatMap_cons, List.flatMap_nil, List.append_nil, List.cons_append, hs, hp,
      List.head?_map, hloop, Option.map_some', e, List.take_succ_cons, List.take_left',
      List.length_cons, e2]

theorem search_token_skip (X Y : Str) (hX : noStart X Y = true) :
    ∀ pos : Nat, search tokenTree pos (X ++ Y) = search tokenTree (pos + X.length) Y := by
  induction X with
  | nil => intro pos; rfl
  | cons c r ih =>
    intro pos
    simp only [noStart, Bool.and_eq_true] at hX
    have e : search tokenTree pos (c :: r ++ Y) = search tokenTree (pos + 1) (r ++ Y) := by
      have hrun := run_token_skip c (r ++ Y) hX.1 pos []
      show (match (run tokenTree ⟨pos, c :: (r ++ Y), []⟩).head? with
        | some u => some (pos, c :: (r ++ Y), u)
        | none => search tokenTree (pos + 1) (r ++ Y)) = _
      rw [hrun]
      rfl
    rw [e, ih hX.2]
    simp [Nat.add_assoc, Nat.add_comm 1]

theorem search_token_none (X : Str) (hX : noStart X [] = true) :
    ∀ pos : Nat, search tokenTree pos X = none := by
  intro pos
  have h := search_token_skip X [] hX pos
  rw [List.append_nil] at h
  rw [h]
  simp [search, run_token_nil]

theorem search_token_hit (X name rest : Str) (hX : noStart X (':' :: (name ++ rest)) = true)
    (hname : isIdent name = true) (hrest : ∀ c ∈ rest.head?, identChar c = false) :
    ∀ pos : Nat, search tokenTree pos (X ++ ':' :: (name ++ rest)) =
      some (pos + X.length, ':' :: (name ++ rest),
        ⟨pos + X.length + 1 + name.length, rest, [(1, name)]⟩) := by
  intro pos
  rw [search_token_skip X _ hX pos]
  simp [search, run_token_hit name rest hname hrest]

theorem noStart_snoc (X : Str) (c : Char) (Y : Str) (hX : noStart X (c :: Y) = true)
    (hc : (c != ':' || !startsIdent Y) = true) : noStart (X ++ [c]) Y = true := by
  induction X with
  | nil => simp [noStart, hc]
  | cons x r ih =>
    simp only [noStart, Bool.and_eq_true] at hX
    have e : r ++ [c] ++ Y = r ++ c :: Y := by simp
    show ((x != ':' || !startsIdent (r ++ [c] ++ Y)) && noStart (r ++ [c]) Y) = true
    rw [e, hX.1, ih hX.2]
    rfl

theorem patText_head (rest : List Tok)
    (h : rest.head? = none ∨ rest.head? = some (Tok.ch '/')) :
    ∀ c ∈ (patTextOf rest).head?, identChar c = false := by
  intro c hc
  cases rest with
  | nil => simp [patTextOf] at hc
  | cons a b =>
    rcases h with h | h
    · simp at h
    · have ha : a = Tok.ch '/' := by simpa using h
      subst ha
      simp [patTextOf, Tok.text] at hc
      subst hc
      decide

theorem replaceAll_toks (toks : List Tok) (hwf : ∀ tok ∈ toks, Tok.wf tok = true)
    (hclosed : slotsClosed toks = true) (hcolons : colonsClosed toks = true) :
    ∀ (fuel : Nat) (done X buf : Str) (names : List Str), noStart X (patTextOf toks) = true →
      (tokNames toks).length + 1 ≤ fuel →
      replaceAll ⟨paramToken, tokenTree, 1⟩ (done ++ (X ++ patTextOf toks)) pathRepl fuel
          done.length done.length buf names
        = (buf ++ (X ++ reTextOf toks), names ++ tokNames toks) := by
  induction toks with
  | nil =>
    intro fuel done X buf names hX hfuel
    cases fuel with
    | zero => simp at hfuel
    | succ f =>
      have hX0 : noStart X [] = true := by simpa [patTextOf] using hX
      simp [replaceAll, patTextOf, reTextOf, search_token_none X hX0, tokNames]
  | cons tok rest ih =>
    intro fuel done X buf names hX hfuel
    have hrest : ∀ tok ∈ rest, Tok.wf tok = true := fun x hx => hwf x (List.mem_cons_of_mem _ hx)
    cases tok with
    | ch c =>
      have hco : (c != ':' || !startsIdent (patTextOf rest)) = true ∧ colonsClosed rest = true := by
        simpa [colonsClosed, patTextOf] using hcolons
      have hcl : slotsClosed rest = true := by simpa [slotsClosed] using hclosed
      have hX1 : noStart X (c :: patTextOf rest) = true := by
        simpa [patTextOf, Tok.text] using hX
      have hX2 : noStart (X ++ [c]) (patTextOf rest) = true := noStart_snoc X c _ hX1 hco.1
      have := ih hrest hcl hco.2 fuel done (X ++ [c]) buf names hX2
        (by simpa [tokNames] using hfuel)
      simpa [patTextOf, reTextOf, Tok.text, Tok.reText, tokNames] using this
    | par name =>
      have hname : isIdent name = true := hwf (.par name) (List.mem_cons_self _ _)
      have hcl : (rest.head? = none ∨ rest.head? = some (Tok.ch '/')) ∧ slotsClosed rest = true := by
        simpa [slotsClosed] using hclosed
      cases fuel with
      | zero => simp at hfuel
      | succ f =>
        have hf : (tokNames rest).length + 1 ≤ f := by simpa [tokNames] using hfuel
        have hco : colonsClosed rest = true := by simpa [colonsClosed] using hcolons
        have hX1 : noStart X (':' :: (name ++ patTextOf rest)) = true := by
          simpa [patTextOf, Tok.text] using hX
        have hs := search_token_hit X name (patTextOf rest) hX1 hname
          (patText_head rest hcl.1) done.length
        have hsrc : done ++ (X ++ patTextOf (Tok.par name :: rest))
            = (done ++ X ++ ':' :: name) ++ ([] ++ patTextOf rest) := by
          simp [patTextOf, Tok.text]
        have ih2 := ih hrest hcl.2 hco f (done ++ X ++ ':' :: name) [] (buf ++ X ++ paramGroup)
          (names ++ [name]) rfl hf
        rw [← hsrc] at ih2
        have hdrop : List.drop done.length (done ++ (X ++ patTextOf (Tok.par name :: rest)))
            = X ++ ':' :: (name ++ patTextOf rest) := by
          simp [patTextOf, Tok.text]
        have hlen : ¬ (done ++ (X ++ patTextOf (Tok.par name :: rest))).length < done.length := by
          simp
        rw [replaceAll, if_neg hlen, hdrop, hs]
        simp only []
        have hL : (done ++ X ++ ':' :: name).length
            = done.length + X.length + 1 + name.length := by
          simp only [List.length_append, List.length_cons]; omega
        rw [hL] at ih2
        have hw : done.length < (done ++ (X ++ patTextOf (Tok.par name :: rest))).length := by
          simp only [patTextOf, List.flatMap_cons, Tok.text, List.length_append, List.length_cons]
          omega
        have h1 : ¬ done.length + X.length + 1 + name.length < done.length + 1 := by omega
        have h2 : done.length < done.length + X.length + 1 + name.length ∨
            done.length + X.length = 0 := Or.inl (by omega)
        have h3 : List.take (done.length + X.length - done.length)
            (X ++ ':' :: (name ++ patTextOf rest)) = X := by
          rw [Nat.add_sub_cancel_left, List.take_left']
          rfl
        have h4 : List.take (done.length + X.length + 1 + name.length - (done.length + X.length))
            (List.drop (done.length + X.length)
              (done ++ (X ++ patTextOf (Tok.par name :: rest)))) = ':' :: name := by
          have e1 : done.length + X.length + 1 + name.length - (done.length + X.length)
              = (':' :: name).length := by simp only [List.length_cons]; omega
          have e2 : done ++ (X ++ patTextOf (Tok.par name :: rest))
              = (done ++ X) ++ ((':' :: name) ++ patTextOf rest) := by
            simp [patTextOf, Tok.text]
          have e3 : done.length + X.length = (done ++ X).length := by simp
          rw [e1, e2, e3, List.drop_left', List.take_left']
          · rfl
          · rfl
        have h5 : pathRepl names (':' :: name) = (paramGroup, names ++ [name]) := by
          simp [pathRepl, TrimPrefix]
        simp only [hw, if_true, h1, if_false, h2, h3, h4, h5]
        rw [ih2]
        simp [reTextOf, Tok.reText, tokNames]

/-! ## Patterns and their tokens: lemmas -/

theorem tokNames_le (toks : List Tok) : (tokNames toks).length ≤ (patTextOf toks).length := by
  induction toks with
  | nil => simp [tokNames]
  | cons tok rest ih =>
    cases tok with
    | ch c =>
      simp only [tokNames, patTextOf, List.flatMap_cons, Tok.text, List.length_append,
        List.length_singleton] at ih ⊢
      omega
    | par name =>
      simp only [tokNames, patTextOf, List.flatMap_cons, Tok.text, List.length_append,
        List.length_cons] at ih ⊢
      omega

theorem replaced_toks (toks : List Tok) (hwf : ∀ tok ∈ toks, Tok.wf tok = true)
    (hclosed : slotsClosed toks = true) (hcolons : colonsClosed toks = true) :
    ReplaceAllStringFunc ⟨paramToken, tokenTree, 1⟩ (patTextOf toks) pathRepl []
      = (reTextOf toks, tokNames toks) := by
  have hle := tokNames_le toks
  have hr := replaceAll_toks toks hwf hclosed hcolons ((patTextOf toks).length + 2) [] [] [] []
    rfl (by omega)
  simp only [List.nil_append, List.length_nil] at hr
  simp only [ReplaceAllStringFunc, hr]

theorem compilePath_toks (toks : List Tok) (hwf : ∀ tok ∈ toks, Tok.wf tok = true)
    (hclosed : slotsClosed toks = true) (hcolons : colonsClosed toks = true)
    (hlen : ('^' :: (reTextOf toks ++ ['$'])).length ≤ maxExprLen) :
    compilePath (patTextOf toks) =
      .ok (⟨'^' :: (reTextOf toks ++ ['$']), pathTree toks, (tokNames toks).length⟩,
        tokNames toks) := by
  simp only [compilePath, compile_paramToken, replaced_toks toks hwf hclosed hcolons]
  have e : "^".toList ++ reTextOf toks ++ "$".toList = '^' :: (reTextOf toks ++ ['$']) := rfl
  rw [e, compile_reText toks hwf hlen]

theorem compilePath_toks_inv (toks : List Tok) (hwf : ∀ tok ∈ toks, Tok.wf tok = true)
    (hclosed : slotsClosed toks = true) (hcolons : colonsClosed toks = true)
    (re : Regexp) (names : List Str) (hc : compilePath (patTextOf toks) = .ok (re, names)) :
    re = ⟨'^' :: (reTextOf toks ++ ['$']), pathTree toks, (tokNames toks).length⟩ ∧
      names = tokNames toks := by
  by_cases hlen : ('^' :: (reTextOf toks ++ ['$'])).length ≤ maxExprLen
  · rw [compilePath_toks toks hwf hclosed hcolons hlen] at hc
    injection hc with h
    injection h with h1 h2
    exact ⟨h1.symm, h2.symm⟩
  · exfalso
    have e : "^".toList ++ reTextOf toks ++ "$".toList = '^' :: (reTextOf toks ++ ['$']) := rfl
    have hu : regexpCompile ('^' :: (reTextOf toks ++ ['$'])) = .unsupported := by
      unfold regexpCompile
      rw [if_pos (Nat.lt_of_not_le hlen)]
    simp only [compilePath, compile_paramToken, replaced_toks toks hwf hclosed hcolons, e,
      hu] at hc
    cases hc

theorem joinSlash_cons (x : Str) (xs : List Str) :
    joinSlash (x :: xs) = x ++ xs.flatMap (fun y => '/' :: y) := by
  induction xs generalizing x with
  | nil => simp [joinSlash]
  | cons y ys ih => simp [joinSlash, ih]

theorem patText_seg (s : Seg) : patTextOf s.toks = s.text := by
  cases s with
  | lit t =>
    induction t with
    | nil => rfl
    | cons c r ih =>
      simp only [Seg.toks, Seg.text, patTextOf, List.map_cons, List.flatMap_cons, Tok.text] at ih ⊢
      simp [ih]
  | param name => simp [Seg.toks, Seg.text, patTextOf, Tok.text]

theorem patText_append (a b : List Tok) : patTextOf (a ++ b) = patTextOf a ++ patTextOf b := by
  simp [patTextOf]

theorem patText_slashToks (segs : List Seg) :
    patTextOf (slashToks segs) = (segs.map Seg.text).flatMap (fun y => '/' :: y) := by
  induction segs with
  | nil => rfl
  | cons s rest ih =>
    have e : slashToks (s :: rest) = Tok.ch '/' :: (s.toks ++ slashToks rest) := by
      simp [slashToks]
    rw [e]
    have e2 : patTextOf (Tok.ch '/' :: (s.toks ++ slashToks rest))
        = '/' :: patTextOf (s.toks ++ slashToks rest) := by
      simp [patTextOf, Tok.text]
    rw [e2, patText_append, patText_seg, ih]
    simp

theorem slashToks_cons (s : Seg) (rest : List Seg) :
    slashToks (s :: rest) = Tok.ch '/' :: (s.toks ++ slashToks rest) := by
  simp [slashToks]

theorem patText_toksOf (segs : List Seg) : patTextOf (toksOf segs) = patternOf segs := by
  cases segs with
  | nil => rfl
  | cons s rest =>
    have e : toksOf (s :: rest) = s.toks ++ slashToks rest := by
      simp [toksOf, slashToks_cons]
    rw [e, patText_append, patText_seg, patText_slashToks, patternOf, List.map_cons,
      joinSlash_cons]

theorem plain_wf (c : Char) (hc : plainChar c = true) : Tok.wf (.ch c) = true := by
  simp only [plainChar, Bool.and_eq_true] at hc
  simp only [Tok.wf]
  exact hc.2

theorem seg_toks_wf (s : Seg) (hs : s.wf = true) : ∀ tok ∈ s.toks, Tok.wf tok = true := by
  intro tok htok
  cases s with
  | lit t =>
    simp only [Seg.toks, List.mem_map] at htok
    obtain ⟨c, hc, rfl⟩ := htok
    simp only [Seg.wf, Bool.and_eq_true, List.all_eq_true] at hs
    exact plain_wf c (hs.1 c hc)
  | param name =>
    simp only [Seg.toks, List.mem_singleton] at htok
    subst htok
    exact hs

theorem slashToks_wf (segs : List Seg) (hwf : ∀ s ∈ segs, Seg.wf s = true) :
    ∀ tok ∈ slashToks segs, Tok.wf tok = true := by
  intro tok htok
  simp only [slashToks, List.mem_flatMap, List.mem_cons] at htok
  obtain ⟨s, hs, h | h⟩ := htok
  · subst h; decide
  · exact seg_toks_wf s (hwf s hs) tok h

theorem toksOf_wf (segs : List Seg) (hwf : ∀ s ∈ segs, Seg.wf s = true) :
    ∀ tok ∈ toksOf segs, Tok.wf tok = true :=
  fun tok htok => slashToks_wf segs hwf tok (List.mem_of_mem_drop htok)

theorem patText_chars (t : Str) (rest : List Tok) :
    patTextOf (t.map Tok.ch ++ rest) = t ++ patTextOf rest := by
  induction t with
  | nil => rfl
  | cons c r ih =>
    simp only [patTextOf, List.map_cons, List.cons_append, List.flatMap_cons, Tok.text] at ih ⊢
    simp [ih]

theorem startsIdent_append (r Y : Str) (hY : startsIdent Y = false) :
    startsIdent (r ++ Y) = startsIdent (r ++ []) := by
  cases r with
  | nil =>
    show startsIdent Y = startsIdent []
    rw [hY]
    rfl
  | cons c t => rfl

theorem colonsClosed_chars (t : Str) (rest : List Tok)
    (hrest : startsIdent (patTextOf rest) = false) (ht : noStart t [] = true) :
    colonsClosed (t.map Tok.ch ++ rest) = colonsClosed rest := by
  induction t with
  | nil => rfl
  | cons c r ih =>
    simp only [noStart, Bool.and_eq_true] at ht
    have e : (r.map Tok.ch ++ rest).flatMap Tok.text = r ++ patTextOf rest := patText_chars r rest
    show ((c != ':' || !startsIdent ((r.map Tok.ch ++ rest).flatMap Tok.text)) &&
      colonsClosed (r.map Tok.ch ++ rest)) = colonsClosed rest
    rw [e, startsIdent_append r _ hrest, ht.1, Bool.true_and]
    exact ih ht.2

theorem startsIdent_slashToks (segs : List Seg) :
    startsIdent (patTextOf (slashToks segs)) = false := by
  cases segs with
  | nil => rfl
  | cons s rest =>
    simp only [slashToks, List.flatMap_cons, List.cons_append, patTextOf, Tok.text,
      List.singleton_append, startsIdent]
    decide

theorem colonsClosed_slashToks (segs : List Seg) (hwf : ∀ s ∈ segs, Seg.wf s = true) :
    colonsClosed (slashToks segs) = true := by
  induction segs with
  | nil => rfl
  | cons s rest ih =>
    have hrest := ih (fun x hx => hwf x (List.mem_cons_of_mem _ hx))
    have hs := hwf s (List.mem_cons_self _ _)
    have e : slashToks (s :: rest) = Tok.ch '/' :: (s.toks ++ slashToks rest) := by
      simp [slashToks]
    rw [e]
    have h1 : ('/' != ':') = true := by decide
    cases s with
    | lit t =>
      simp only [Seg.wf, Bool.and_eq_true] at hs
      show (('/' != ':' || !startsIdent ((t.map Tok.ch ++ slashToks rest).flatMap Tok.text)) &&
        colonsClosed (t.map Tok.ch ++ slashToks rest)) = true
      rw [h1, Bool.true_or, Bool.true_and,
        colonsClosed_chars t _ (startsIdent_slashToks rest) hs.2, hrest]
    | param name =>
      show (('/' != ':' || !startsIdent ((Tok.par name :: slashToks rest).flatMap Tok.text)) &&
        colonsClosed (slashToks rest)) = true
      rw [h1, Bool.true_or, Bool.true_and, hrest]

theorem colonsClosed_toksOf (segs : List Seg) (hwf : ∀ s ∈ segs, Seg.wf s = true) :
    colonsClosed (toksOf segs) = true := by
  cases segs with
  | nil => rfl
  | cons s rest =>
    have h := colonsClosed_slashToks (s :: rest) hwf
    have e : slashToks (s :: rest) = Tok.ch '/' :: (s.toks ++ slashToks rest) := by
      simp [slashToks]
    rw [e] at h
    simp only [colonsClosed, Bool.and_eq_true] at h
    have e2 : toksOf (s :: rest) = s.toks ++ slashToks rest := by
      simp [toksOf, slashToks]
    rw [e2]
    exact h.2

theorem slotsClosed_chars (t : Str) (rest : List Tok) :
    slotsClosed (t.map Tok.ch ++ rest) = slotsClosed rest := by
  induction t with
  | nil => rfl
  | cons c r ih => simpa [slotsClosed] using ih

theorem slotsClosed_slashToks (segs : List Seg) : slotsClosed (slashToks segs) = true := by
  induction segs with
  | nil => rfl
  | cons s rest ih =>
    rw [slashToks_cons]
    cases s with
    | lit t => simpa [slotsClosed, Seg.toks, slotsClosed_chars] using ih
    | param name =>
      cases rest with
      | nil => simp [slotsClosed, Seg.toks, slashToks]
      | cons s2 rest2 =>
        rw [slashToks_cons] at ih ⊢
        simp [slotsClosed, Seg.toks] at ih ⊢
        exact ih

theorem slotsClosed_toksOf (segs : List Seg) : slotsClosed (toksOf segs) = true := by
  cases segs with
  | nil => rfl
  | cons s rest =>
    have h := slotsClosed_slashToks (s :: rest)
    rw [slashToks_cons] at h
    simpa [toksOf, slashToks_cons, slotsClosed] using h

theorem tokNames_append (a b : List Tok) : tokNames (a ++ b) = tokNames a ++ tokNames b := by
  induction a with
  | nil => rfl
  | cons tok rest ih => cases tok <;> simp [tokNames, ih]

theorem tokNames_chars (t : Str) : tokNames (t.map Tok.ch) = [] := by
  induction t with
  | nil => rfl
  | cons c r ih => simpa [tokNames] using ih

theorem tokNames_slashToks (segs : List Seg) : tokNames (slashToks segs) = paramNamesOf segs := by
  induction segs with
  | nil => rfl
  | cons s rest ih =>
    rw [slashToks_cons]
    cases s with
    | lit t => simp [tokNames, tokNames_append, Seg.toks, tokNames_chars, ih, paramNamesOf]
    | param name => simp [tokNames, Seg.toks, ih, paramNamesOf]

theorem tokNames_toksOf (segs : List Seg) : tokNames (toksOf segs) = paramNamesOf segs := by
  cases segs with
  | nil => rfl
  | cons s rest =>
    have h := tokNames_slashToks (s :: rest)
    rw [slashToks_cons] at h
    simpa [toksOf, slashToks_cons, tokNames] using h

theorem refMatch_chars (t : Str) (rest : List Tok) (inp : Str) :
    refMatch (t.map Tok.ch ++ rest) (t ++ inp) = refMatch rest inp := by
  induction t with
  | nil => rfl
  | cons c r ih => simpa [refMatch] using ih

theorem refMatch_chars_inv (t : Str) (rest : List Tok) :
    ∀ (inp : Str) (vals : List Str), refMatch (t.map Tok.ch ++ rest) inp = some vals →
      ∃ R, inp = t ++ R ∧ refMatch rest R = some vals := by
  induction t with
  | nil => intro inp vals h; exact ⟨inp, rfl, h⟩
  | cons c r ih =>
    intro inp vals h
    cases inp with
    | nil => simp [refMatch] at h
    | cons x xs =>
      by_cases hx : x = c
      · subst hx
        simp only [List.map_cons, List.cons_append, refMatch, if_true] at h
        obtain ⟨R, hR, hm⟩ := ih xs vals h
        exact ⟨R, by simp [hR], hm⟩
      · simp [refMatch, hx] at h

theorem takeWhile_piece (v R : Str) (hv : '/' ∉ v) (hR : ∀ c ∈ R.head?, c = '/') :
    (v ++ R).takeWhile (fun c => c != '/') = v ∧ (v ++ R).dropWhile (fun c => c != '/') = R := by
  induction v with
  | nil =>
    cases R with
    | nil => simp
    | cons c r =>
      have := hR c (by simp)
      subst this
      simp [List.takeWhile, List.dropWhile]
  | cons c n ih =>
    have hc : c ≠ '/' := fun h => hv (by simp [h])
    have hn : '/' ∉ n := fun h => hv (List.mem_cons_of_mem _ h)
    have hb : (c != '/') = true := by simpa using hc
    have e : (c :: n) ++ R = c :: (n ++ R) := rfl
    have h1 : List.takeWhile (fun c => c != '/') (c :: (n ++ R))
        = c :: List.takeWhile (fun c => c != '/') (n ++ R) := by
      simp only [List.takeWhile, hb]
    have h2 : List.dropWhile (fun c => c != '/') (c :: (n ++ R))
        = List.dropWhile (fun c => c != '/') (n ++ R) := by
      simp only [List.dropWhile, hb]
    rw [e, h1, h2, (ih hn).1, (ih hn).2]
    exact ⟨rfl, rfl⟩

theorem slashed_head (pieces : List Str) :
    ∀ c ∈ (pieces.flatMap (fun y => '/' :: y)).head?, c = '/' := by
  intro c hc
  cases pieces with
  | nil => simp at hc
  | cons p ps => simp at hc; exact hc.symm

theorem refMatch_of_fits (segs : List Seg) (pieces : List Str)
    (h : List.Forall₂ Fits segs pieces) :
    refMatch (slashToks segs) (pieces.flatMap (fun y => '/' :: y)) = some (valsOf segs pieces) := by
  induction h with
  | nil => rfl
  | @cons s p segs ps hfit _ ih =>
    rw [slashToks_cons]
    cases s with
    | lit t =>
      have hp : p = t := hfit
      subst hp
      have e : (p :: ps).flatMap (fun y => '/' :: y)
          = '/' :: (p ++ ps.flatMap (fun y => '/' :: y)) := rfl
      have e2 : Tok.ch '/' :: ((Seg.lit p).toks ++ slashToks segs)
          = Tok.ch '/' :: (p.map Tok.ch ++ slashToks segs) := rfl
      rw [e, e2, refMatch, if_pos rfl, refMatch_chars, ih]
      rfl
    | param name =>
      have hp : p ≠ [] ∧ '/' ∉ p := hfit
      have htw := takeWhile_piece p (ps.flatMap (fun y => '/' :: y)) hp.2 (slashed_head ps)
      have e : (p :: ps).flatMap (fun y => '/' :: y)
          = '/' :: (p ++ ps.flatMap (fun y => '/' :: y)) := rfl
      have e2 : Tok.ch '/' :: ((Seg.param name).toks ++ slashToks segs)
          = Tok.ch '/' :: Tok.par name :: slashToks segs := rfl
      rw [e, e2, refMatch, if_pos rfl, refMatch, htw.1, htw.2, if_neg hp.1, ih]
      rfl

theorem fits_of_refMatch (segs : List Seg) :
    ∀ (inp : Str) (vals : List Str), refMatch (slashToks segs) inp = some vals →
      ∃ pieces, List.Forall₂ Fits segs pieces ∧ inp = pieces.flatMap (fun y => '/' :: y) := by
  induction segs with
  | nil =>
    intro inp vals h
    cases inp with
    | nil => exact ⟨[], List.Forall₂.nil, rfl⟩
    | cons x xs => simp [slashToks, refMatch] at h
  | cons s rest ih =>
    intro inp vals h
    rw [slashToks_cons] at h
    cases inp with
    | nil => simp [refMatch] at h
    | cons x xs =>
      by_cases hx : x = '/'
      · subst hx
        simp only [refMatch, if_true] at h
        cases s with
        | lit t =>
          obtain ⟨R, hR, hm⟩ := refMatch_chars_inv t _ xs vals h
          obtain ⟨pieces, hf, hp⟩ := ih R vals hm
          exact ⟨t :: pieces, List.Forall₂.cons rfl hf, by simp [hR, hp]⟩
        | param name =>
          simp only [Seg.toks, List.singleton_append, refMatch] at h
          by_cases hv : List.takeWhile (fun c => c != '/') xs = []
          · simp [hv] at h
          · simp only [hv, if_false, Option.map_eq_some'] at h
            obtain ⟨vs, hvs, _⟩ := h
            obtain ⟨pieces, hf, hp⟩ := ih _ vs hvs
            refine ⟨List.takeWhile (fun c => c != '/') xs :: pieces,
              List.Forall₂.cons ⟨hv, ?_⟩ hf, ?_⟩
            · intro hmem
              have := List.mem_takeWhile_imp hmem
              simp at this
            · simp only [List.flatMap_cons, List.cons_append, ← hp,
                List.takeWhile_append_dropWhile]
      · simp [refMatch, hx] at h

theorem refMatch_toksOf_of_fits (segs : List Seg) (pieces : List Str)
    (h : List.Forall₂ Fits segs pieces) :
    refMatch (toksOf segs) (joinSlash pieces) = some (valsOf segs pieces) := by
  have hm := refMatch_of_fits segs pieces h
  cases h with
  | nil => rfl
  | @cons s p segs ps hfit hrest =>
    have e : (p :: ps).flatMap (fun y => '/' :: y)
        = '/' :: (p ++ ps.flatMap (fun y => '/' :: y)) := rfl
    rw [slashToks_cons, e, refMatch, if_pos rfl] at hm
    have e2 : toksOf (s :: segs) = s.toks ++ slashToks segs := by
      simp [toksOf, slashToks_cons]
    rw [e2, joinSlash_cons]
    exact hm

theorem conforms_of_refMatch (segs : List Seg) (path : Str) (vals : List Str)
    (h : refMatch (toksOf segs) path = some vals) : Conforms segs path := by
  cases segs with
  | nil =>
    cases path with
    | nil => exact ⟨[], List.Forall₂.nil, rfl⟩
    | cons x xs => simp [toksOf, slashToks, refMatch] at h
  | cons s rest =>
    have e2 : toksOf (s :: rest) = s.toks ++ slashToks rest := by
      simp [toksOf, slashToks_cons]
    have h2 : refMatch (slashToks (s :: rest)) ('/' :: path) = some vals := by
      rw [slashToks_cons, refMatch, if_pos rfl, ← e2]
      exact h
    obtain ⟨pieces, hf, hp⟩ := fits_of_refMatch _ _ _ h2
    cases hf with
    | @cons _ p _ ps hfit hrest =>
      refine ⟨p :: ps, List.Forall₂.cons hfit hrest, ?_⟩
      have e : (p :: ps).flatMap (fun y => '/' :: y)
          = '/' :: (p ++ ps.flatMap (fun y => '/' :: y)) := rfl
      rw [e] at hp
      rw [joinSlash_cons]
      exact (List.cons.inj hp).2

theorem refMatch_of_conforms (segs : List Seg) (path : Str) (h : Conforms segs path) :
    ∃ vals, refMatch (toksOf segs) path = some vals := by
  obtain ⟨pieces, hf, rfl⟩ := h
  exact ⟨_, refMatch_toksOf_of_fits segs pieces hf⟩

theorem fits_subst (v : Str → Str) (segs : List Seg)
    (hv : ∀ name ∈ paramNamesOf segs, v name ≠ [] ∧ '/' ∉ v name) :
    List.Forall₂ Fits segs (segs.map (Seg.subst v)) := by
  induction segs with
  | nil => exact List.Forall₂.nil
  | cons s rest ih =>
    cases s with
    | lit t =>
      exact List.Forall₂.cons rfl (ih (fun n hn => hv n (by simpa [paramNamesOf] using hn)))
    | param name =>
      refine List.Forall₂.cons (hv name (by simp [paramNamesOf])) (ih (fun n hn => hv n ?_))
      simp [paramNamesOf, hn]

theorem valsOf_subst (v : Str → Str) (segs : List Seg) :
    valsOf segs (segs.map (Seg.subst v)) = (paramNamesOf segs).map v := by
  induction segs with
  | nil => rfl
  | cons s rest ih =>
    cases s with
    | lit t => simpa [valsOf, paramNamesOf] using ih
    | param name => simpa [valsOf, paramNamesOf, Seg.subst] using ih

theorem mapSet_fresh (m : List (Str × Str)) (k v : Str) (h : ∀ p ∈ m, p.1 ≠ k) :
    mapSet m k v = m ++ [(k, v)] := by
  induction m with
  | nil => rfl
  | cons p rest ih =>
    obtain ⟨k1, v1⟩ := p
    have hk : k1 ≠ k := h (k1, v1) (List.mem_cons_self _ _)
    have hr : ∀ q ∈ rest, q.1 ≠ k := fun q hq => h q (List.mem_cons_of_mem _ hq)
    simp [mapSet, hk, ih hr]

theorem extractParams_zip (names : List Str) :
    ∀ (vals front : List Str) (i : Nat) (params : List (Str × Str)),
      front.length = i + 1 → names.length = vals.length → names.Nodup →
      (∀ p ∈ params, p.1 ∉ names) →
      extractParams (front ++ vals) names i params = some (params ++ names.zip vals) := by
  induction names with
  | nil =>
    intro vals front i params _ _ _ _
    simp [extractParams]
  | cons n ns ih =>
    intro vals front i params hfront hlen hnd hdis
    cases vals with
    | nil => simp at hlen
    | cons v vs =>
      have hget : (front ++ v :: vs)[i + 1]? = some v := by
        rw [← hfront, List.getElem?_append_right (Nat.le_refl _)]
        simp
      have hfresh : ∀ p ∈ params, p.1 ≠ n := fun p hp hpn =>
        hdis p hp (by simp [hpn])
      have hnd2 := List.nodup_cons.mp hnd
      have hdis2 : ∀ p ∈ params ++ [(n, v)], p.1 ∉ ns := by
        intro p hp
        rcases List.mem_append.mp hp with h | h
        · exact fun hmem => hdis p h (List.mem_cons_of_mem _ hmem)
        · simp only [List.mem_singleton] at h
          subst h
          exact hnd2.1
      have e : front ++ v :: vs = (front ++ [v]) ++ vs := by simp
      have := ih vs (front ++ [v]) (i + 1) (params ++ [(n, v)]) (by simp [hfront])
        (by simpa using hlen) hnd2.2 hdis2
      rw [extractParams, hget]
      simp only
      rw [mapSet_fresh params n v hfresh, e, this]
      simp

/-! ## Dispatch: lemmas -/

theorem wrapLoop_append {σ : Type} (pre suf : List (MiddlewareFunc σ)) (h : HandlerFunc σ) :
    wrapLoop (pre ++ suf) pre.length h = pre.foldr (fun mw k => mw k) h := by
  induction pre using List.reverseRecOn generalizing suf h with
  | nil => simp [wrapLoop]
  | append_singleton pre x ih =>
    have hx : (pre ++ [x] ++ suf)[pre.length]? = some x := by
      rw [List.append_assoc, List.getElem?_append_right (Nat.le_refl _)]
      simp
    simp only [List.length_append, List.length_singleton, wrapLoop, hx]
    have := ih (x :: suf) (x h)
    simp only [List.append_assoc, List.singleton_append] at this ⊢
    rw [this]
    simp

theorem wrapLoop_length {σ : Type} (mws : List (MiddlewareFunc σ)) (h : HandlerFunc σ) :
    wrapLoop mws mws.length h = mws.foldr (fun mw k => mw k) h := by
  simpa using wrapLoop_append mws [] h

theorem buildChain_eq {σ : Type} (G : List (MiddlewareFunc σ)) (route : Route σ) :
    buildChain G route = (G ++ route.Middlewares).foldr (fun mw k => mw k) route.Handler := by
  simp [buildChain, wrapLoop_length, List.foldr_append]

theorem handleRoutes_skip {σ : Type} (G : List (MiddlewareFunc σ)) (r : Request)
    (pre rest : List (Route σ)) (w : World σ) (hpre : NoMatch pre r) :
    handleRoutes G r (pre ++ rest) w = handleRoutes G r rest w := by
  induction pre with
  | nil => rfl
  | cons x pre ih =>
    have hx := hpre x (List.mem_cons_self _ _)
    have hrest : NoMatch pre r := fun y hy => hpre y (List.mem_cons_of_mem _ hy)
    by_cases hm : x.Method = r.Method
    · simp [handleRoutes, hm, hx hm, ih hrest]
    · simp [handleRoutes, hm, ih hrest]

theorem handleRoutes_hit {σ : Type} (G : List (MiddlewareFunc σ)) (r : Request)
    (route : Route σ) (later : List (Route σ)) (w : World σ) (sub : List Str)
    (hm : route.Method = r.Method)
    (hsub : FindStringSubmatch route.pathRegex r.Path = some sub) :
    handleRoutes G r (route :: later) w = serve G route sub r w := by
  simp [handleRoutes, hm, hsub]

theorem handleRequest_at {σ : Type} (m : Magic σ) (r : Request) (w : World σ) (i : Nat)
    (route : Route σ) (sub : List Str)
    (hmin : ∀ j, j < i → ∀ x, m.routes[j]? = some x → x.Method = r.Method →
      FindStringSubmatch x.pathRegex r.Path = none)
    (hm : route.Method = r.Method)
    (hsub : FindStringSubmatch route.pathRegex r.Path = some sub)
    (later : List (Route σ)) :
    handleRoutes m.middlewares r (m.routes.take i ++ route :: later) w
      = serve m.middlewares route sub r w := by
  have hpre : NoMatch (m.routes.take i) r := by
    intro x hx hxm
    obtain ⟨j, hj, hjx⟩ := List.getElem_of_mem hx
    have hjlt : j < i := by
      have := hj
      simp only [List.length_take] at this
      omega
    refine hmin j hjlt x ?_ hxm
    rw [← hjx, List.getElem_take, List.getElem?_eq_getElem]
  rw [handleRoutes_skip _ _ _ _ _ hpre, handleRoutes_hit _ _ _ _ _ sub hm hsub]

theorem routes_split {σ : Type} (routes : List (Route σ)) (i : Nat) (route : Route σ)
    (hi : routes[i]? = some route) :
    routes = routes.take i ++ route :: routes.drop (i + 1) := by
  have hlt : i < routes.length := by
    rcases Nat.lt_or_ge i routes.length with h | h
    · exact h
    · rw [List.getElem?_eq_none h] at hi
      cases hi
  have hget : routes[i] = route := by
    rw [List.getElem?_eq_getElem hlt] at hi
    exact Option.some.inj hi
  rw [← hget, ← List.drop_eq_getElem_cons hlt, List.take_append_drop]

theorem splitGo_zero (sep : Char) (s acc : Str) : splitGo sep 0 s acc = [acc ++ s] := by
  induction s generalizing acc with
  | nil => simp [splitGo]
  | cons c t ih => simp [splitGo, ih]

theorem splitGo_one (sep : Char) (s acc : Str) :
    splitGo sep 1 s acc =
      if sep ∈ s then
        [acc ++ s.takeWhile (fun c => decide (c ≠ sep)),
          (s.dropWhile (fun c => decide (c ≠ sep))).drop 1]
      else [acc ++ s] := by
  induction s generalizing acc with
  | nil => simp [splitGo]
  | cons c t ih =>
    by_cases hc : c = sep
    · subst hc
      simp [splitGo, splitGo_zero, List.takeWhile, List.dropWhile]
    · have hne : ¬ sep = c := fun h => hc h.symm
      simp only [splitGo, hc, false_and, if_false, ih, List.mem_cons, hne, false_or]
      by_cases hmem : sep ∈ t
      · simp [hmem, List.takeWhile, List.dropWhile, hc]
      · simp [hmem]

theorem Spell_eq {σ : Type} (uni : Char → Char) (m : Nat) (s : Str)
    (heap : Heap σ) :
    Magic.Spell uni m s heap =
      if ' ' ∈ s then
        .ok (⟨m, ToUpper uni (s.takeWhile (fun c => decide (c ≠ ' '))),
              (s.dropWhile (fun c => decide (c ≠ ' '))).drop 1, []⟩, heap)
      else .error ("Spell format should be 'METHOD /path', got: ".toList ++ s) := by
  unfold Magic.Spell SplitN
  simp only [show (2 : Nat) ≠ 0 by decide, if_false, show (2 : Nat) - 1 = 1 by rfl, splitGo_one]
  by_cases h : ' ' ∈ s
  · simp [h]
  · simp [h]

theorem upperLetter_ascii :
    ∀ n : Fin 128,
      (if 'a'.val ≤ (Char.ofNat n.val).val ∧ (Char.ofNat n.val).val ≤ 'z'.val then
          Char.ofNat ((Char.ofNat n.val).toNat - 32)
        else Char.ofNat n.val) = upperLetter (Char.ofNat n.val) := by
  decide

theorem char_ofNat_toNat (c : Char) : Char.ofNat c.toNat = c :=
  Char.ofNat_toNat c

theorem ToUpper_ascii (uni : Char → Char) (t : Str) (ht : ∀ c ∈ t, c.val < 128) :
    ToUpper uni t = t.map upperLetter := by
  unfold ToUpper
  apply List.map_congr_left
  intro c hc
  have h128 := ht c hc
  have hn : c.toNat < 128 := h128
  have h := upperLetter_ascii ⟨c.toNat, hn⟩
  simp only [char_ofNat_toNat] at h
  rw [if_pos h128]
  exact h

theorem zip_map_self (v : Str → Str) (names : List Str) :
    names.zip (names.map v) = names.map (fun name => (name, v name)) := by
  induction names with
  | nil => rfl
  | cons n ns ih => simp [ih]

theorem compilePath_pattern (segs : List Seg) (hwf : ∀ s ∈ segs, Seg.wf s = true)
    (hlen : ('^' :: (reTextOf (toksOf segs) ++ ['$'])).length ≤ maxExprLen) :
    compilePath (patternOf segs) =
      .ok (⟨'^' :: (reTextOf (toksOf segs) ++ ['$']), pathTree (toksOf segs),
            (paramNamesOf segs).length⟩, paramNamesOf segs) := by
  have h := compilePath_toks (toksOf segs) (toksOf_wf segs hwf) (slotsClosed_toksOf segs)
    (colonsClosed_toksOf segs hwf) hlen
  rw [patText_toksOf, tokNames_toksOf] at h
  exact h

theorem compilePath_pattern_inv (segs : List Seg) (hwf : ∀ s ∈ segs, Seg.wf s = true)
    (re : Regexp) (names : List Str) (hc : compilePath (patternOf segs) = .ok (re, names)) :
    re = ⟨'^' :: (reTextOf (toksOf segs) ++ ['$']), pathTree (toksOf segs),
          (paramNamesOf segs).length⟩ ∧ names = paramNamesOf segs := by
  rw [← patText_toksOf] at hc
  have h := compilePath_toks_inv (toksOf segs) (toksOf_wf segs hwf) (slotsClosed_toksOf segs)
    (colonsClosed_toksOf segs hwf) re names hc
  rw [tokNames_toksOf] at h
  exact h

theorem find_pattern (segs : List Seg) (path : Str) :
    FindStringSubmatch ⟨'^' :: (reTextOf (toksOf segs) ++ ['$']), pathTree (toksOf segs),
        (paramNamesOf segs).length⟩ path
      = (refMatch (toksOf segs) path).map (fun vals => path :: vals) := by
  have h := find_pathTree ('^' :: (reTextOf (toksOf segs) ++ ['$'])) (toksOf segs)
    (slotsClosed_toksOf segs) path
  rw [tokNames_toksOf] at h
  exact h

theorem not_conforms_of_refMatch (segs : List Seg) (path : Str)
    (h : refMatch (toksOf segs) path = none) : ¬ Conforms segs path := by
  intro hc
  obtain ⟨vals, hv⟩ := refMatch_of_conforms segs path hc
  rw [h] at hv
  cases hv

theorem takeWhile_sep (sep : Char) (a b : Str) (ha : sep ∉ a) :
    (a ++ sep :: b).takeWhile (fun c => decide (c ≠ sep)) = a ∧
    (a ++ sep :: b).dropWhile (fun c => decide (c ≠ sep)) = sep :: b := by
  induction a with
  | nil => simp [List.takeWhile, List.dropWhile]
  | cons c n ih =>
    have hc : c ≠ sep := fun h => ha (by simp [h])
    have hn : sep ∉ n := fun h => ha (List.mem_cons_of_mem _ h)
    have hb : decide (c ≠ sep) = true := by simpa using hc
    have e : (c :: n) ++ sep :: b = c :: (n ++ sep :: b) := rfl
    have h1 : List.takeWhile (fun c => decide (c ≠ sep)) (c :: (n ++ sep :: b))
        = c :: List.takeWhile (fun c => decide (c ≠ sep)) (n ++ sep :: b) := by
      simp only [List.takeWhile, hb]
    have h2 : List.dropWhile (fun c => decide (c ≠ sep)) (c :: (n ++ sep :: b))
        = List.dropWhile (fun c => decide (c ≠ sep)) (n ++ sep :: b) := by
      simp only [List.dropWhile, hb]
    rw [e, h1, h2, (ih hn).1, (ih hn).2]
    exact ⟨rfl, rfl⟩

/-! ## The properties -/

/-- C1: for a pattern made of well-formed segments with distinct parameter
names, values that are non-empty and free of `/`, and the recognizer `re` and
the names `names` that `compilePath` returns for it: the names are the
parameter names of the pattern in order, `re` matches the substituted path,
the submatches are the values in order, and the parameter mapping
`handleRequest` fills and hands to the chain has exactly the parameter names
as keys, each with its value. -/
theorem params_of_substituted_path (segs : List Seg) (v : Str → Str)
    (hwf : ∀ s ∈ segs, Seg.wf s = true)
    (hnd : (paramNamesOf segs).Nodup)
    (hv : ∀ name ∈ paramNamesOf segs, v name ≠ [] ∧ '/' ∉ v name)
    (re : Regexp) (names : List Str)
    (hc : compilePath (patternOf segs) = .ok (re, names)) :
    names = paramNamesOf segs ∧
    FindStringSubmatch re (pathOf v segs)
      = some (pathOf v segs :: (paramNamesOf segs).map v) ∧
    extractParams (pathOf v segs :: (paramNamesOf segs).map v) names 0 []
      = some ((paramNamesOf segs).map (fun name => (name, v name))) ∧
    ∀ (σ : Type) (G : List (MiddlewareFunc σ)) (route : Route σ) (r : Request) (w : World σ),
      route.pathRegex = re → route.paramNames = names →
      route.Method = r.Method → r.Path = pathOf v segs →
      handleRequest ⟨[route], G⟩ r w
        = some (finish (buildChain G route
            ⟨r, (paramNamesOf segs).map (fun name => (name, v name))⟩ w)) := by
  obtain ⟨hre, hn⟩ := compilePath_pattern_inv segs hwf re names hc
  subst hre hn
  have hfind : FindStringSubmatch ⟨'^' :: (reTextOf (toksOf segs) ++ ['$']),
      pathTree (toksOf segs), (paramNamesOf segs).length⟩ (pathOf v segs)
      = some (pathOf v segs :: (paramNamesOf segs).map v) := by
    rw [find_pattern, pathOf, refMatch_toksOf_of_fits segs _ (fits_subst v segs hv),
      valsOf_subst]
    rfl
  have hex : extractParams (pathOf v segs :: (paramNamesOf segs).map v) (paramNamesOf segs) 0 []
      = some ((paramNamesOf segs).map (fun name => (name, v name))) := by
    have := extractParams_zip (paramNamesOf segs) ((paramNamesOf segs).map v) [pathOf v segs] 0 []
      rfl (by simp) hnd (by simp)
    simp only [List.singleton_append, List.nil_append] at this
    rw [this, zip_map_self]
  refine ⟨rfl, hfind, hex, ?_⟩
  intro σ G route r w hre hnames hm hpath
  rw [handleRequest]
  simp only
  rw [handleRoutes_hit G r route [] w _ hm (by rw [hre, hpath]; exact hfind), serve, hnames, hex]

/-- Witness for C1: `compilePath` returns a recognizer and the names `id`,
`postId` for `/users/:id/posts/:postId`, and against `/users/42/posts/7` this
gives id = 42 and postId = 7. -/
theorem params_of_substituted_path_witness :
    patternOf usersSegs = "/users/:id/posts/:postId".toList ∧
    pathOf usersVals usersSegs = "/users/42/posts/7".toList ∧
    compilePath "/users/:id/posts/:postId".toList
      = .ok (usersRe, ["id".toList, "postId".toList]) ∧
    FindStringSubmatch usersRe "/users/42/posts/7".toList
      = some ["/users/42/posts/7".toList, "42".toList, "7".toList] ∧
    (["id".toList, "postId".toList] = paramNamesOf usersSegs ∧
    FindStringSubmatch usersRe (pathOf usersVals usersSegs)
      = some (pathOf usersVals usersSegs :: (paramNamesOf usersSegs).map usersVals) ∧
    extractParams (pathOf usersVals usersSegs :: (paramNamesOf usersSegs).map usersVals)
        ["id".toList, "postId".toList] 0 []
      = some ((paramNamesOf usersSegs).map (fun name => (name, usersVals name))) ∧
    ∀ (σ : Type) (G : List (MiddlewareFunc σ)) (route : Route σ) (r : Request) (w : World σ),
      route.pathRegex = usersRe → route.paramNames = ["id".toList, "postId".toList] →
      route.Method = r.Method → r.Path = pathOf usersVals usersSegs →
      handleRequest ⟨[route], G⟩ r w
        = some (finish (buildChain G route
            ⟨r, (paramNamesOf usersSegs).map (fun name => (name, usersVals name))⟩ w))) ∧
    (paramNamesOf usersSegs).map (fun name => (name, usersVals name))
      = [("id".toList, "42".toList), ("postId".toList, "7".toList)] :=
  ⟨by decide, by decide, by decide, by decide,
    params_of_substituted_path usersSegs usersVals (by decide) (by decide) (by decide)
      usersRe ["id".toList, "postId".toList] (by decide),
    by decide⟩

/-- C2: for a pattern made of well-formed segments (literal text without
metacharacter in which no parameter token begins, parameters that are whole
segments) and the recognizer `compilePath` returns for it, a path that does
not have the structure of the pattern is not matched. -/
theorem no_match_without_structure (segs : List Seg) (path : Str)
    (hwf : ∀ s ∈ segs, Seg.wf s = true) (hnot : ¬ Conforms segs path)
    (re : Regexp) (names : List Str)
    (hc : compilePath (patternOf segs) = .ok (re, names)) :
    FindStringSubmatch re path = none := by
  obtain ⟨hre, _⟩ := compilePath_pattern_inv segs hwf re names hc
  subst hre
  rw [find_pattern]
  cases hm : refMatch (toksOf segs) path with
  | none => rfl
  | some vals => exact absurd (conforms_of_refMatch segs path vals hm) hnot

/-- Witness for C2: the recognizer of `/users/:id/posts/:postId` matches
neither `/users/42/posts` (a segment is missing) nor `/users//posts/7` (an
empty parameter slot), and the recognizer of `/a:/:9x/:id`, whose literal
segments `a:` and `:9x` hold a `:` that begins no parameter, matches neither
`/a/:9x/5` nor `/a:/:9x/5/6`. -/
theorem no_match_without_structure_witness :
    compilePath "/users/:id/posts/:postId".toList
      = .ok (usersRe, ["id".toList, "postId".toList]) ∧
    FindStringSubmatch usersRe "/users/42/posts".toList = none ∧
    FindStringSubmatch usersRe "/users//posts/7".toList = none ∧
    patternOf colonSegs = "/a:/:9x/:id".toList ∧
    compilePath "/a:/:9x/:id".toList = .ok (colonRe, ["id".toList]) ∧
    FindStringSubmatch colonRe "/a/:9x/5".toList = none ∧
    FindStringSubmatch colonRe "/a:/:9x/5/6".toList = none ∧
    FindStringSubmatch colonRe "/a:/:9x/5".toList
      = some ["/a:/:9x/5".toList, "5".toList] :=
  ⟨by decide,
    no_match_without_structure usersSegs "/users/42/posts".toList (by decide)
      (not_conforms_of_refMatch usersSegs "/users/42/posts".toList (by decide))
      usersRe ["id".toList, "postId".toList] (by decide),
    no_match_without_structure usersSegs "/users//posts/7".toList (by decide)
      (not_conforms_of_refMatch usersSegs "/users//posts/7".toList (by decide))
      usersRe ["id".toList, "postId".toList] (by decide),
    by decide, by decide,
    no_match_without_structure colonSegs "/a/:9x/5".toList (by decide)
      (not_conforms_of_refMatch colonSegs "/a/:9x/5".toList (by decide))
      colonRe ["id".toList] (by decide),
    no_match_without_structure colonSegs "/a:/:9x/5/6".toList (by decide)
      (not_conforms_of_refMatch colonSegs "/a:/:9x/5/6".toList (by decide))
      colonRe ["id".toList] (by decide),
    by decide⟩

/-- C3 (the code at the failing input): the recognizer of the pattern `/a.b`
matches the path `/axb`, and the recognizer of `/v1+` matches `/v11` and does
not match `/v1+`. -/
theorem metacharacters_are_not_literal :
    compileAndMatch "/a.b".toList "/axb".toList = .ok (some ["/axb".toList]) ∧
    compileAndMatch "/v1+".toList "/v11".toList = .ok (some ["/v11".toList]) ∧
    compileAndMatch "/v1+".toList "/v1+".toList = .ok none := by
  decide

/-- C4: the entry selected by `handleRequest` is the one with the lowest
registration index among those with the request's method and a matching
recognizer; whatever is registered after it (duplicates included) has no
influence on the outcome. -/
theorem first_registered_route_wins {σ : Type} (m : Magic σ) (r : Request) (w : World σ)
    (i : Nat) (route : Route σ) (sub : List Str)
    (hi : m.routes[i]? = some route)
    (hmin : ∀ j, j < i → ∀ x, m.routes[j]? = some x → x.Method = r.Method →
      FindStringSubmatch x.pathRegex r.Path = none)
    (hm : route.Method = r.Method)
    (hsub : FindStringSubmatch route.pathRegex r.Path = some sub) :
    handleRequest m r w = serve m.middlewares route sub r w ∧
    ∀ later : List (Route σ),
      handleRequest ⟨m.routes.take i ++ route :: later, m.middlewares⟩ r w
        = serve m.middlewares route sub r w := by
  refine ⟨?_, fun later => handleRequest_at m r w i route sub hmin hm hsub later⟩
  have h := handleRequest_at m r w i route sub hmin hm hsub (m.routes.drop (i + 1))
  rw [← routes_split m.routes i route hi] at h
  exact h

/-- Witness for C4: with `POST /a`, `GET /a`, `GET /a` registered in this
order, the request `GET /a` runs the handler of the first `GET /a`. -/
theorem first_registered_route_wins_witness :
    handleRequest dupMagic (request "GET".toList "/a".toList) world0
      = some ⟨[.write "first".toList], ()⟩ :=
  (first_registered_route_wins dupMagic (request "GET".toList "/a".toList) world0 1
    (routeA "GET".toList (writeHandler "first".toList) []) ["/a".toList] rfl
    (fun j hj x hx hm => by
      have hj0 : j = 0 := by omega
      subst hj0
      have hx2 : routeA "POST".toList (writeHandler "post".toList) [] = x :=
        Option.some.inj hx
      subst hx2
      exact absurd hm (by decide))
    (by decide) (by decide)).1.trans (by decide)

/-- C5: the chain built for a route is
`G[0](G[1](...(R[0](R[1](...(T))))))`, this is the handler `handleRequest`
runs, and with logging middlewares the log reads G1-before, G2-before,
R1-before, R2-before, T, R2-after, R1-after, G2-after, G1-after. -/
theorem chain_is_nested_application {σ : Type} (G R : List (MiddlewareFunc σ))
    (T : HandlerFunc σ) (method path : Str) (re : Regexp) (names : List Str) :
    buildChain G ⟨method, path, T, R, re, names⟩ = (G ++ R).foldr (fun mw k => mw k) T ∧
    (∀ (sub : List Str) (r : Request) (w : World σ),
      serve G ⟨method, path, T, R, re, names⟩ sub r w
        = (extractParams sub names 0 []).map (fun params =>
            finish ((G ++ R).foldr (fun mw k => mw k) T ⟨r, params⟩ w))) ∧
    (∀ (g1 g2 r1 r2 : Str) (c : Context) (w : World (List Str)),
      (buildChain [logMw g1, logMw g2]
          ⟨method, path, logT, [logMw r1, logMw r2], re, names⟩ c w).2.env
        = w.env ++ [g1 ++ "-before".toList, g2 ++ "-before".toList, r1 ++ "-before".toList,
            r2 ++ "-before".toList, "T".toList, r2 ++ "-after".toList, r1 ++ "-after".toList,
            g2 ++ "-after".toList, g1 ++ "-after".toList]) := by
  refine ⟨buildChain_eq G _, ?_, ?_⟩
  · intro sub r w
    simp only [serve, buildChain_eq]
    cases extractParams sub names 0 [] <;> rfl
  · intro g1 g2 r1 r2 c w
    simp [buildChain_eq, logMw, logT]

/-- C6: `S` holds of the contexts and worlds at which the middlewares outside
`mw` call the handler below them while this request is served (`houter`: what
they return depends on that handler only through its results there). When
`mw` returns without calling its inner handler at these calls (`hmw`: its
result there is the same whatever the inner handler is), the outcome of
`handleRequest` is what `mw` returns, passed out through the middlewares
outside it, whatever the inner middlewares and the terminal handler are: none
of them is run. -/
theorem short_circuit_skips_inner {σ : Type} (m : Magic σ) (r : Request) (w : World σ)
    (i : Nat) (route : Route σ) (sub : List Str) (params : List (Str × Str))
    (outer inner : List (MiddlewareFunc σ)) (mw : MiddlewareFunc σ)
    (S : Context → World σ → Prop)
    (hi : m.routes[i]? = some route)
    (hmin : ∀ j, j < i → ∀ x, m.routes[j]? = some x → x.Method = r.Method →
      FindStringSubmatch x.pathRegex r.Path = none)
    (hm : route.Method = r.Method)
    (hsub : FindStringSubmatch route.pathRegex r.Path = some sub)
    (hparams : extractParams sub route.paramNames 0 [] = some params)
    (hchain : m.middlewares ++ route.Middlewares = outer ++ mw :: inner)
    (houter : ∀ X Y : HandlerFunc σ, (∀ c1 w1, S c1 w1 → X c1 w1 = Y c1 w1) →
      outer.foldr (fun f k => f k) X ⟨r, params⟩ w
        = outer.foldr (fun f k => f k) Y ⟨r, params⟩ w)
    (hmw : ∀ c1 w1, S c1 w1 → ∀ h1 h2 : HandlerFunc σ, mw h1 c1 w1 = mw h2 c1 w1) :
    ∀ any : HandlerFunc σ,
      handleRequest m r w
        = some (finish (outer.foldr (fun f k => f k) (mw any) ⟨r, params⟩ w)) := by
  intro any
  have h := handleRequest_at m r w i route sub hmin hm hsub (m.routes.drop (i + 1))
  rw [← routes_split m.routes i route hi] at h
  rw [handleRequest, h, serve, hparams, buildChain_eq, hchain]
  simp only [List.foldr_append, List.foldr_cons]
  rw [houter (mw (List.foldr (fun mw k => mw k) route.Handler inner)) (mw any)
    (fun c1 w1 hS => hmw c1 w1 hS _ _)]

/-- Witness for C6. First a global middleware that passes on and a route
middleware that always blocks. Then the middleware `BasicAuth("user:pass")`
behind the same global middleware, followed by a second route middleware: it
calls its inner handler for other requests, but the request has no
`Authorization` header, so it answers 401 and neither the second middleware
nor the terminal handler writes anything. -/
theorem short_circuit_skips_inner_witness :
    handleRequest ⟨[routeA "GET".toList (writeHandler "terminal".toList) [blockMw]],
        [passMw "global".toList]⟩ (request "GET".toList "/a".toList) world0
      = some ⟨[.write "global".toList, .write "blocked".toList,
          .httpError "denied".toList 500], ()⟩ ∧
    handleRequest
        ⟨[routeA "GET".toList (writeHandler "terminal".toList) [userAuth, passMw "inner".toList]],
          [passMw "global".toList]⟩ (request "GET".toList "/a".toList) world0
      = some ⟨[.write "global".toList,
          .setHeader "WWW-Authenticate".toList "Basic realm=\"Restricted\"".toList,
          .setHeader "Content-Type".toList "text/plain".toList, .writeHeader 401,
          .write "Unauthorized".toList], ()⟩ ∧
    userAuth (writeHandler "terminal".toList) ⟨authRequest, []⟩ world0
      = (none, ⟨[.write "terminal".toList], ()⟩) :=
  ⟨(short_circuit_skips_inner
      ⟨[routeA "GET".toList (writeHandler "terminal".toList) [blockMw]],
        [passMw "global".toList]⟩
      (request "GET".toList "/a".toList) world0 0
      (routeA "GET".toList (writeHandler "terminal".toList) [blockMw]) ["/a".toList] []
      [passMw "global".toList] [] blockMw (fun _ _ => True) rfl
      (fun j hj => absurd hj (Nat.not_lt_zero j))
      (by decide) (by decide) (by decide) rfl
      (fun _ _ h => h _ _ trivial) (fun _ _ _ _ _ => rfl)
      (writeHandler "other".toList)).trans (by decide),
    (short_circuit_skips_inner
      ⟨[routeA "GET".toList (writeHandler "terminal".toList)
          [userAuth, passMw "inner".toList]], [passMw "global".toList]⟩
      (request "GET".toList "/a".toList) world0 0
      (routeA "GET".toList (writeHandler "terminal".toList) [userAuth, passMw "inner".toList])
      ["/a".toList] []
      [passMw "global".toList] [passMw "inner".toList] userAuth
      (fun c1 _ => c1.req = request "GET".toList "/a".toList) rfl
      (fun j hj => absurd hj (Nat.not_lt_zero j))
      (by decide) (by decide) (by decide) rfl
      (fun _ _ h => h _ _ rfl)
      (fun c1 w1 hS h1 h2 => by
        cases c1 with
        | mk req ps =>
          simp only at hS
          subst hS
          rfl)
      (writeHandler "other".toList)).trans (by decide),
    by decide⟩

/-- C7: when no entry has the request's method and a matching recognizer,
`handleRequest` answers not found (404) and the outcome involves no handler
and no middleware. -/
theorem no_route_gives_not_found {σ : Type} (m : Magic σ) (r : Request) (w : World σ)
    (hnone : ∀ x ∈ m.routes, x.Method = r.Method →
      FindStringSubmatch x.pathRegex r.Path = none) :
    handleRequest m r w = some (httpNotFound w) := by
  have h := handleRoutes_skip m.middlewares r m.routes [] w hnone
  rw [List.append_nil] at h
  rw [handleRequest, h]
  rfl

/-- Witness for C7: no route of the table is registered for `DELETE`. -/
theorem no_route_gives_not_found_witness :
    handleRequest dupMagic (request "DELETE".toList "/a".toList) world0
      = some ⟨[.httpError "404 page not found".toList 404], ()⟩ :=
  (no_route_gives_not_found dupMagic (request "DELETE".toList "/a".toList) world0
    (by decide)).trans (by decide)

/-- C8: when the chain of the matched route returns an error `e`,
`handleRequest` emits the internal-error response (500) with the text of `e`
after what the chain did, and that is its whole outcome, whatever routes come
later; when the chain returns nil, the outcome is the chain's and nothing is
added. -/
theorem chain_error_gives_500 {σ : Type} (m : Magic σ) (r : Request) (w : World σ)
    (i : Nat) (route : Route σ) (sub : List Str) (params : List (Str × Str))
    (hi : m.routes[i]? = some route)
    (hmin : ∀ j, j < i → ∀ x, m.routes[j]? = some x → x.Method = r.Method →
      FindStringSubmatch x.pathRegex r.Path = none)
    (hm : route.Method = r.Method)
    (hsub : FindStringSubmatch route.pathRegex r.Path = some sub)
    (hparams : extractParams sub route.paramNames 0 [] = some params) :
    (∀ (e : Str) (w1 : World σ),
      buildChain m.middlewares route ⟨r, params⟩ w = (some e, w1) →
      handleRequest m r w = some ⟨w1.writer ++ [.httpError e 500], w1.env⟩ ∧
      ∀ later : List (Route σ),
        handleRequest ⟨m.routes.take i ++ route :: later, m.middlewares⟩ r w
          = some ⟨w1.writer ++ [.httpError e 500], w1.env⟩) ∧
    (∀ w1 : World σ,
      buildChain m.middlewares route ⟨r, params⟩ w = (none, w1) →
      handleRequest m r w = some w1) := by
  have hall : ∀ later : List (Route σ),
      handleRequest ⟨m.routes.take i ++ route :: later, m.middlewares⟩ r w
        = some (finish (buildChain m.middlewares route ⟨r, params⟩ w)) := by
    intro later
    have h := handleRequest_at m r w i route sub hmin hm hsub later
    rw [handleRequest]
    simp only
    rw [h, serve, hparams]
  have hself : handleRequest m r w
      = some (finish (buildChain m.middlewares route ⟨r, params⟩ w)) := by
    have h := hall (m.routes.drop (i + 1))
    rw [← routes_split m.routes i route hi] at h
    exact h
  refine ⟨fun e w1 hres => ⟨?_, fun later => ?_⟩, fun w1 hres => ?_⟩
  · rw [hself, hres]; rfl
  · rw [hall later, hres]; rfl
  · rw [hself, hres]; rfl

/-- Witness for C8: a handler failing with `boom`. -/
theorem chain_error_gives_500_witness :
    handleRequest ⟨[routeA "GET".toList (failHandler "boom".toList) []], []⟩
        (request "GET".toList "/a".toList) world0
      = some ⟨[.httpError "boom".toList 500], ()⟩ :=
  ((chain_error_gives_500 ⟨[routeA "GET".toList (failHandler "boom".toList) []], []⟩
    (request "GET".toList "/a".toList) world0 0
    (routeA "GET".toList (failHandler "boom".toList) []) ["/a".toList] [] rfl
    (fun j hj => absurd hj (Nat.not_lt_zero j))
    (by decide) (by decide) (by decide)).1 "boom".toList world0 (by decide)).1

/-- C9 (counterexample): a route registered as `GET /a` is not selected for a
request `get /a`, which gets the not-found response; the request `GET /a`
runs the handler. -/
theorem lower_case_method_not_found :
    registerAndDispatch id "GET /a".toList okHandler (request "get".toList "/a".toList) world0
      = some (some ⟨[.httpError "404 page not found".toList 404], ()⟩) ∧
    registerAndDispatch id "GET /a".toList okHandler (request "GET".toList "/a".toList) world0
      = some (some ⟨[.write "ok".toList], ()⟩) := by
  decide

/-- C9 (amended): a route registered with `Spell("M /p").With(h)` is selected
for every request whose path matches `/p` and whose method is the upper-cased
`M`, whatever the letter case of `M` in the declaration. -/
theorem upper_cased_method_selects_route {σ : Type} (uni : Char → Char) (M p : Str)
    (h : HandlerFunc σ) (r : Request) (w : World σ) (re : Regexp) (names : List Str)
    (sub : List Str)
    (hM : ' ' ∉ M) (hc : compilePath p = .ok (re, names))
    (hmeth : r.Method = ToUpper uni M)
    (hsub : FindStringSubmatch re r.Path = some sub) :
    registerAndDispatch uni (M ++ ' ' :: p) h r w
      = some (serve [] ⟨ToUpper uni M, p, h, [], re, names⟩ sub r w) := by
  have hmem : ' ' ∈ M ++ ' ' :: p := by simp
  have htw := takeWhile_sep ' ' M p hM
  simp only [registerAndDispatch, Spell_eq, hmem, if_true, htw.1, htw.2,
    List.drop_succ_cons, List.drop_zero, Spell.With, hc, SpellMagic, List.length_nil,
    List.nil_append]
  simp [handleRequest, handleRoutes, hmeth, hsub]

/-- Witness for C9 (amended): the declaration `get /a` and the request
`GET /a`. -/
theorem upper_cased_method_selects_route_witness :
    registerAndDispatch id ("get".toList ++ ' ' :: "/a".toList) okHandler
        (request "GET".toList "/a".toList) world0
      = some (some ⟨[.write "ok".toList], ()⟩) :=
  (upper_cased_method_selects_route id "get".toList "/a".toList okHandler
    (request "GET".toList "/a".toList) world0 reA [] ["/a".toList]
    (by decide) (by decide) (by decide) (by decide)).trans (by decide)

/-- C10: `Spell(s)` panics exactly when `s` has no space; otherwise the method
is the upper-cased text before the first space, the path is all the text
after it, and the heap (every route table) is left as it was. Upper-casing
ASCII text replaces each letter `a`..`z` by the letter `A`..`Z` of the table
`upperLetter` and leaves every other character as it is. -/
theorem spell_splits_at_first_space {σ : Type} (uni : Char → Char) (m : Nat) (s : Str)
    (heap : Heap σ) :
    (Magic.Spell uni m s heap =
      if ' ' ∈ s then
        .ok (⟨m, ToUpper uni (s.takeWhile (fun c => decide (c ≠ ' '))),
              (s.dropWhile (fun c => decide (c ≠ ' '))).drop 1, []⟩, heap)
      else .error ("Spell format should be 'METHOD /path', got: ".toList ++ s)) ∧
    (∀ t : Str, (∀ c ∈ t, c.val < 128) → ToUpper uni t = t.map upperLetter) ∧
    (' ' ∈ s → (∀ c ∈ s.takeWhile (fun c => decide (c ≠ ' ')), c.val < 128) →
      Magic.Spell uni m s heap =
        .ok (⟨m, (s.takeWhile (fun c => decide (c ≠ ' '))).map upperLetter,
              (s.dropWhile (fun c => decide (c ≠ ' '))).drop 1, []⟩, heap)) := by
  refine ⟨Spell_eq uni m s heap, fun t ht => ToUpper_ascii uni t ht, fun hs ht => ?_⟩
  rw [Spell_eq, if_pos hs, ToUpper_ascii uni _ ht]

/-- Witness for C10: `get /a b` gives the method `GET` and the path `/a b`
(the second space stays in the path), a leading space gives the empty method,
`Content-Type` is upper-cased to `CONTENT-TYPE`, and `GET` alone panics. -/
theorem spell_splits_at_first_space_witness :
    Magic.Spell id 0 "get /a b".toList ([] : Heap Unit)
      = .ok (⟨0, "GET".toList, "/a b".toList, []⟩, []) ∧
    Magic.Spell id 0 " /a".toList ([] : Heap Unit)
      = .ok (⟨0, [], "/a".toList, []⟩, []) ∧
    ToUpper id "Content-Type".toList = "CONTENT-TYPE".toList ∧
    Magic.Spell id 0 "GET".toList ([] : Heap Unit)
      = .error "Spell format should be 'METHOD /path', got: GET".toList :=
  ⟨((spell_splits_at_first_space id 0 "get /a b".toList ([] : Heap Unit)).2.2
      (by decide) (by decide)).trans rfl,
    ((spell_splits_at_first_space id 0 " /a".toList ([] : Heap Unit)).2.2
      (by decide) (by decide)).trans rfl,
    ((spell_splits_at_first_space id 0 [] ([] : Heap Unit)).2.1 "Content-Type".toList
      (by decide)).trans (by decide),
    ((spell_splits_at_first_space id 0 "GET".toList ([] : Heap Unit)).1).trans rfl⟩

/-! ## Registration, programs, authentication and rate limiting -/

theorem With_eq {σ : Type} (s : Spell σ) (h : HandlerFunc σ) (heap : Heap σ) (m : Magic σ)
    (re : Regexp) (names : List Str)
    (hm : heap[s.magic]? = some m) (hc : compilePath s.path = .ok (re, names)) :
    s.With h heap = .ok (heap.set s.magic
      ⟨m.routes ++ [⟨s.method, s.path, h, s.middlewares, re, names⟩], m.middlewares⟩) := by
  simp [Spell.With, hc, hm]

theorem With_ok_inv {σ : Type} (s : Spell σ) (h : HandlerFunc σ) (heap heap1 : Heap σ)
    (hw : s.With h heap = .ok heap1) :
    ∃ m re names, heap[s.magic]? = some m ∧ compilePath s.path = .ok (re, names) ∧
      heap1 = heap.set s.magic
        ⟨m.routes ++ [⟨s.method, s.path, h, s.middlewares, re, names⟩], m.middlewares⟩ := by
  unfold Spell.With at hw
  cases hc : compilePath s.path with
  | ok p =>
    obtain ⟨re, names⟩ := p
    rw [hc] at hw
    simp only at hw
    cases hm : heap[s.magic]? with
    | none => rw [hm] at hw; cases hw
    | some m =>
      rw [hm] at hw
      exact ⟨m, re, names, rfl, rfl, (Compiled.ok.inj hw).symm⟩
  | error e => rw [hc] at hw; cases hw
  | unsupported => rw [hc] at hw; cases hw

theorem Spell_heap {σ : Type} (uni : Char → Char) (m : Nat) (decl : Str) (heap heap1 : Heap σ)
    (s : Spell σ) (h : Magic.Spell uni m decl heap = .ok (s, heap1)) :
    heap1 = heap ∧ s.magic = m ∧ s.middlewares = [] := by
  rw [Spell_eq] at h
  by_cases hsp : ' ' ∈ decl
  · rw [if_pos hsp] at h
    have := Except.ok.inj h
    rw [Prod.mk.injEq] at this
    obtain ⟨h1, h2⟩ := this
    subst h1
    exact ⟨h2.symm, rfl, rfl⟩
  · rw [if_neg hsp] at h
    cases h

/-- What an operation can do to the list of `Magic` values: nothing, allocate
an empty one, or append one compiled route to one table. -/
theorem execOp_magics {σ : Type} (uni : Char → Char) (c : Op σ) (st : Store σ) :
    (execOp uni c st).2.magics = st.magics ∨
    (execOp uni c st).2.magics = st.magics ++ [⟨[], []⟩] ∨
    ∃ (a : Nat) (m : Magic σ) (route : Route σ), st.magics[a]? = some m ∧
      compilePath route.Path = .ok (route.pathRegex, route.paramNames) ∧
      (execOp uni c st).2.magics = st.magics.set a ⟨m.routes ++ [route], m.middlewares⟩ := by
  cases c with
  | SpellMagic => exact Or.inr (Or.inl rfl)
  | Spell m decl =>
    left
    simp only [execOp]
    cases hs : Magic.Spell uni m decl st.magics with
    | error e => rfl
    | ok p =>
      obtain ⟨s, heap1⟩ := p
      exact (Spell_heap uni m decl _ _ s hs).1
  | With s h =>
    simp only [execOp]
    cases hsp : st.spells[s]? with
    | none => exact Or.inl rfl
    | some spell =>
      simp only
      cases hw : spell.With h st.magics with
      | error e => exact Or.inl rfl
      | unsupported => exact Or.inl rfl
      | ok heap1 =>
        obtain ⟨m, re, names, hm, hc, hh⟩ := With_ok_inv spell h _ _ hw
        exact Or.inr (Or.inr ⟨spell.magic, m, _, hm, hc, hh⟩)
  | Require s mw =>
    left
    simp only [execOp]
    cases st.spells[s]? <;> rfl
  | Cast spells =>
    left
    simp only [execOp]
    cases Cast (List.filterMap (fun a => st.spells[a]?) spells) <;> rfl
  | Experiments name => exact Or.inr (Or.inl rfl)
  | Given e conds =>
    left
    simp only [execOp]
    cases st.experiments[e]? <;> rfl
  | Subject e spells => exact Or.inl rfl

theorem Grown_trans {σ : Type} (h1 h2 h3 : Heap σ) (h12 : Grown h1 h2) (h23 : Grown h2 h3) :
    Grown h1 h3 := by
  induction h23 with
  | refl => exact h12
  | alloc h4 _ ih => exact Grown.alloc _ _ ih
  | add h4 a m route _ hm hc ih => exact Grown.add _ _ a m route ih hm hc

theorem execOp_grown {σ : Type} (uni : Char → Char) (c : Op σ) (st : Store σ) :
    Grown st.magics (execOp uni c st).2.magics := by
  rcases execOp_magics uni c st with he | he | ⟨a, m, route, hm, hc, he⟩
  · rw [he]; exact Grown.refl _
  · rw [he]; exact Grown.alloc _ _ (Grown.refl _)
  · rw [he]; exact Grown.add _ _ a m route (Grown.refl _) hm hc

theorem runOps_grown {σ : Type} (uni : Char → Char) (ops : List (Op σ)) :
    ∀ st : Store σ, Grown st.magics (runOps uni ops st).2.magics := by
  induction ops with
  | nil => intro st; exact Grown.refl _
  | cons c cs ih =>
    intro st
    have h1 := execOp_grown uni c st
    cases hc : execOp uni c st with
    | mk e st1 =>
      rw [hc] at h1
      cases e with
      | returned =>
        simp only [runOps, hc]
        exact Grown_trans _ _ _ h1 (ih st1)
      | panicked => simp only [runOps, hc]; exact h1
      | notModelled => simp only [runOps, hc]; exact h1

theorem Apply_grown {σ : Type} (uni : Char → Char) (c : ExperimentCondition σ) (e : Nat)
    (st : Store σ) : Grown st.magics (c.Apply uni e st).2.magics := by
  cases c with
  | pathPrefix p =>
    simp only [ExperimentCondition.Apply]
    cases st.experiments[e]? <;> exact Grown.refl _
  | custom apply => exact runOps_grown uni _ st

theorem applyConditions_grown {σ : Type} (uni : Char → Char) (e : Nat)
    (conds : List (ExperimentCondition σ)) :
    ∀ st : Store σ, Grown st.magics (applyConditions uni e conds st).2.magics := by
  induction conds with
  | nil => intro st; exact Grown.refl _
  | cons c cs ih =>
    intro st
    have h1 := Apply_grown uni c e st
    cases hc : c.Apply uni e st with
    | mk en st1 =>
      rw [hc] at h1
      cases en with
      | returned =>
        simp only [applyConditions, hc]
        exact Grown_trans _ _ _ h1 (ih st1)
      | panicked => simp only [applyConditions, hc]; exact h1
      | notModelled => simp only [applyConditions, hc]; exact h1

theorem Subject_magics {σ : Type} (uni : Char → Char) (e : Nat) (spells : List Nat)
    (st : Store σ) (exp : Experiment σ) (hexp : st.experiments[e]? = some exp) :
    (Experiment.Subject uni e spells st).2.magics
      = (applyConditions uni e exp.conditions st).2.magics := by
  simp only [Experiment.Subject, hexp]
  cases hc : applyConditions uni e exp.conditions st with
  | mk en st1 =>
    cases en with
    | returned =>
      simp only
      cases st1.experiments[e]? <;> rfl
    | panicked => rfl
    | notModelled => rfl

theorem Subject_grown {σ : Type} (uni : Char → Char) (e : Nat) (spells : List Nat)
    (st : Store σ) : Grown st.magics (Experiment.Subject uni e spells st).2.magics := by
  cases hexp : st.experiments[e]? with
  | none =>
    simp only [Experiment.Subject, hexp]
    exact Grown.refl _
  | some exp =>
    rw [Subject_magics uni e spells st exp hexp]
    exact applyConditions_grown uni e _ st

theorem exec_grown {σ : Type} (uni : Char → Char) (c : Call σ) (st : Store σ) :
    Grown st.magics (exec uni c st).2.magics := by
  cases c with
  | SpellMagic => exact execOp_grown uni _ st
  | Spell m decl => exact execOp_grown uni _ st
  | With s h => exact execOp_grown uni _ st
  | Require s mw => exact execOp_grown uni _ st
  | Cast spells => exact execOp_grown uni _ st
  | Experiments name => exact execOp_grown uni _ st
  | Given e conds => exact execOp_grown uni _ st
  | Subject e spells => exact Subject_grown uni e spells st

theorem runCalls_grown {σ : Type} (uni : Char → Char) (calls : List (Call σ)) :
    ∀ st : Store σ, Grown st.magics (runCalls uni calls st).magics := by
  induction calls with
  | nil => intro st; exact Grown.refl _
  | cons c cs ih =>
    intro st
    exact Grown_trans _ _ _ (exec_grown uni c st) (ih _)

theorem Grown_invariant {σ : Type} (P : Magic σ → Prop)
    (hempty : P ⟨[], []⟩)
    (hadd : ∀ (m : Magic σ) (route : Route σ), P m →
      compilePath route.Path = .ok (route.pathRegex, route.paramNames) →
      P ⟨m.routes ++ [route], m.middlewares⟩)
    (h h1 : Heap σ) (hg : Grown h h1) (hP : ∀ m ∈ h, P m) : ∀ m ∈ h1, P m := by
  induction hg with
  | refl => exact hP
  | alloc h2 _ ih =>
    intro m hm
    rcases List.mem_append.mp hm with h3 | h3
    · exact ih m h3
    · rw [List.mem_singleton.mp h3]; exact hempty
  | add h2 a m0 route _ hm0 hc ih =>
    intro m hm
    rcases List.mem_or_eq_of_mem_set hm with h3 | h3
    · exact ih m h3
    · rw [h3]; exact hadd m0 route (ih m0 (List.getElem?_mem hm0)) hc

theorem Grown_keeps {σ : Type} (h h1 : Heap σ) (hg : Grown h h1) (a : Nat) (m : Magic σ)
    (hm : h[a]? = some m) :
    ∃ (m1 : Magic σ) (extra : List (Route σ)), h1[a]? = some m1 ∧
      m1.routes = m.routes ++ extra ∧ m1.middlewares = m.middlewares := by
  induction hg with
  | refl => exact ⟨m, [], hm, by simp, rfl⟩
  | alloc h2 _ ih =>
    obtain ⟨m1, extra, h3, h4, h5⟩ := ih
    have hlt : a < h2.length := by
      rcases Nat.lt_or_ge a h2.length with h6 | h6
      · exact h6
      · rw [List.getElem?_eq_none h6] at h3; cases h3
    exact ⟨m1, extra, by rw [List.getElem?_append_left hlt, h3], h4, h5⟩
  | add h2 b m0 route _ hm0 hc ih =>
    obtain ⟨m1, extra, h3, h4, h5⟩ := ih
    have hlt : a < h2.length := by
      rcases Nat.lt_or_ge a h2.length with h6 | h6
      · exact h6
      · rw [List.getElem?_eq_none h6] at h3; cases h3
    by_cases hab : b = a
    · subst hab
      rw [h3] at hm0
      have hmm : m1 = m0 := Option.some.inj hm0
      subst hmm
      exact ⟨⟨m1.routes ++ [route], m1.middlewares⟩, extra ++ [route],
        by rw [List.getElem?_set_self hlt], by simp [h4], h5⟩
    · exact ⟨m1, extra, by rw [List.getElem?_set_ne hab, h3], h4, h5⟩

theorem runCalls_invariant {σ : Type} (uni : Char → Char) (P : Magic σ → Prop)
    (hempty : P ⟨[], []⟩)
    (hadd : ∀ (m : Magic σ) (route : Route σ), P m →
      compilePath route.Path = .ok (route.pathRegex, route.paramNames) →
      P ⟨m.routes ++ [route], m.middlewares⟩) :
    ∀ (calls : List (Call σ)) (st : Store σ), (∀ m ∈ st.magics, P m) →
      ∀ m ∈ (runCalls uni calls st).magics, P m :=
  fun calls st h => Grown_invariant P hempty hadd _ _ (runCalls_grown uni calls st) h

theorem exec_keeps_entries {σ : Type} (uni : Char → Char) (c : Call σ) (st : Store σ) (a : Nat)
    (m : Magic σ) (hm : st.magics[a]? = some m) :
    ∃ (m1 : Magic σ) (extra : List (Route σ)), (exec uni c st).2.magics[a]? = some m1 ∧
      m1.routes = m.routes ++ extra ∧ m1.middlewares = m.middlewares :=
  Grown_keeps _ _ (exec_grown uni c st) a m hm

theorem set_same {α : Type} (l : List α) (i : Nat) (x : α) (h : l[i]? = some x) :
    l.set i x = l := by
  induction l generalizing i with
  | nil => rfl
  | cons y ys ih =>
    cases i with
    | zero =>
      have hy : y = x := by simpa using h
      rw [hy]
      rfl
    | succ j =>
      have hj : ys[j]? = some x := by simpa using h
      simp only [List.set_cons_succ, ih j hj]

theorem applyConditions_pathPrefix {σ : Type} (uni : Char → Char) (e : Nat) (st : Store σ)
    (exp : Experiment σ) (hexp : st.experiments[e]? = some exp)
    (conds : List (ExperimentCondition σ)) (hconds : conds.all isPathPrefix = true) :
    applyConditions uni e conds st = (.returned, st) := by
  induction conds with
  | nil => rfl
  | cons c cs ih =>
    simp only [List.all_cons, Bool.and_eq_true] at hconds
    cases c with
    | custom apply => cases hconds.1
    | pathPrefix p =>
      have h1 : (ExperimentCondition.pathPrefix p).Apply uni e st = (.returned, st) := by
        simp only [ExperimentCondition.Apply, hexp, PathPrefixCondition.Apply,
          set_same _ e exp hexp]
      simp only [applyConditions, h1]
      exact ih hconds.2

theorem Subject_pathPrefix {σ : Type} (uni : Char → Char) (e : Nat) (spells : List Nat)
    (st : Store σ) (exp : Experiment σ) (hexp : st.experiments[e]? = some exp)
    (hconds : exp.conditions.all isPathPrefix = true) :
    Experiment.Subject uni e spells st
      = (.returned, ⟨st.magics, repoint exp.magic spells st.spells, st.experiments⟩) := by
  simp only [Experiment.Subject, hexp,
    applyConditions_pathPrefix uni e st exp hexp exp.conditions hconds]

theorem repoint_getElem {σ : Type} (magic : Nat) (addrs : List Nat) :
    ∀ (spells : List (Spell σ)) (a : Nat),
      (repoint magic addrs spells)[a]? =
        spells[a]?.map (fun s =>
          if a ∈ addrs then ⟨magic, s.method, s.path, s.middlewares⟩ else s) := by
  induction addrs with
  | nil =>
    intro spells a
    show spells[a]? = _
    cases hsa : spells[a]? with
    | none => rfl
    | some s => simp
  | cons b rest ih =>
    intro spells a
    cases hb : spells[b]? with
    | none =>
      simp only [repoint, hb, ih]
      by_cases hab : a = b
      · subst hab
        rw [hb]
        rfl
      · cases spells[a]? with
        | none => rfl
        | some s => simp [hab]
    | some sp =>
      simp only [repoint, hb, ih]
      have hlt : b < spells.length := by
        rcases Nat.lt_or_ge b spells.length with h6 | h6
        · exact h6
        · rw [List.getElem?_eq_none h6] at hb; cases hb
      by_cases hab : a = b
      · subst hab
        rw [List.getElem?_set_self hlt, hb]
        by_cases hr : a ∈ rest
        · simp [hr]
        · simp [hr]
      · rw [List.getElem?_set_ne (Ne.symm hab)]
        cases spells[a]? with
        | none => rfl
        | some s => simp [hab]

/-- C11 (the code at the failing input): with the condition
`PathPrefix("/api")` given to the experiment, the route of a spell declared
as `GET /users` is held under the path `/users`, whether `With` is called
after `Subject` or before it; `Apply` returns the experiment as it is and
leaves the store as it was. -/
theorem path_prefix_is_not_applied :
    tablePaths (runCalls id
      [.SpellMagic, .Spell 0 "GET /users".toList, .Experiments "api".toList,
       .Given 0 [PathPrefix "/api".toList], .Subject 0 [0], .With 0 okHandler] emptyStore)
      = [[], ["/users".toList]] ∧
    tablePaths (runCalls id
      [.SpellMagic, .Spell 0 "GET /users".toList, .With 0 okHandler, .Experiments "api".toList,
       .Given 0 [PathPrefix "/api".toList], .Subject 0 [0]] emptyStore)
      = [["/users".toList], []] ∧
    (∀ (pfx : Str) (exp : Experiment Unit), PathPrefixCondition.Apply ⟨pfx⟩ exp = exp) ∧
    ∀ (pfx : Str) (e : Nat) (st : Store Unit),
      ((PathPrefix pfx : ExperimentCondition Unit).Apply id e st).2 = st := by
  refine ⟨by decide, by decide, fun pfx exp => rfl, fun pfx e st => ?_⟩
  cases hexp : st.experiments[e]? with
  | none => simp only [PathPrefix, ExperimentCondition.Apply, hexp]
  | some exp =>
    simp only [PathPrefix, ExperimentCondition.Apply, hexp, PathPrefixCondition.Apply,
      set_same _ e exp hexp]

theorem foldl_Require {σ : Type} (mws : List (MiddlewareFunc σ)) :
    ∀ s : Spell σ, mws.foldl (fun sp mw => sp.Require mw) s
      = ⟨s.magic, s.method, s.path, s.middlewares ++ mws⟩ := by
  induction mws with
  | nil => intro s; simp
  | cons mw rest ih =>
    intro s
    rw [List.foldl_cons, ih]
    simp [Spell.Require]

/-- C12: the middlewares attached with `Require` to a spell made by `Spell`
are, in attachment order and with nothing dropped, duplicated or reordered,
the middleware list of the route entry that `With` appends. -/
theorem require_order_is_kept {σ : Type} (uni : Char → Char) (a : Nat) (decl : Str)
    (heap heap1 : Heap σ) (s : Spell σ) (mws : List (MiddlewareFunc σ)) (h : HandlerFunc σ)
    (m : Magic σ) (re : Regexp) (names : List Str)
    (hs : Magic.Spell uni a decl heap = .ok (s, heap1))
    (hm : heap1[a]? = some m)
    (hc : compilePath s.path = .ok (re, names)) :
    (mws.foldl (fun sp mw => sp.Require mw) s).middlewares = mws ∧
    (mws.foldl (fun sp mw => sp.Require mw) s).With h heap1
      = .ok (heap1.set a
          ⟨m.routes ++ [⟨s.method, s.path, h, mws, re, names⟩], m.middlewares⟩) := by
  obtain ⟨_, hmag, hmw⟩ := Spell_heap uni a decl heap heap1 s hs
  rw [foldl_Require, hmw]
  refine ⟨by simp, ?_⟩
  have := With_eq (⟨s.magic, s.method, s.path, [] ++ mws⟩ : Spell σ) h heap1 m re names
    (by rw [hmag]; exact hm) hc
  rw [this, hmag]
  simp

/-- Witness for C12: two middlewares attached to the spell `GET /a`. -/
theorem require_order_is_kept_witness :
    ([passMw "1".toList, passMw "2".toList].foldl (fun sp mw => sp.Require mw) spellA).middlewares
      = [passMw "1".toList, passMw "2".toList] ∧
    ([passMw "1".toList, passMw "2".toList].foldl (fun sp mw => sp.Require mw) spellA).With
        okHandler [⟨[], []⟩]
      = .ok (([⟨[], []⟩] : Heap Unit).set 0
          ⟨[] ++ [⟨"GET".toList, "/a".toList, okHandler,
            [passMw "1".toList, passMw "2".toList], reA, []⟩], []⟩) :=
  require_order_is_kept id 0 "GET /a".toList [⟨[], []⟩] [⟨[], []⟩] spellA
    [passMw "1".toList, passMw "2".toList] okHandler ⟨[], []⟩ reA [] rfl rfl (by decide)

/-- C13: `With` on a spell whose pattern compiles leaves the table of the
spell's `Magic` equal to the old table followed by exactly one entry (the
spell's method, path and middlewares, the handler `h`), leaves every other
table as it was, and no call of a public operation removes or reorders the
entries of any table. -/
theorem registration_appends_one_entry {σ : Type} (s : Spell σ) (h : HandlerFunc σ)
    (heap : Heap σ) (m : Magic σ) (re : Regexp) (names : List Str)
    (hm : heap[s.magic]? = some m) (hc : compilePath s.path = .ok (re, names)) :
    ∃ heap1 : Heap σ, s.With h heap = .ok heap1 ∧
      heap1[s.magic]? = some
        ⟨m.routes ++ [⟨s.method, s.path, h, s.middlewares, re, names⟩], m.middlewares⟩ ∧
      (∀ a : Nat, a ≠ s.magic → heap1[a]? = heap[a]?) ∧
      ∀ (uni : Char → Char) (c : Call σ) (st : Store σ) (a : Nat) (m0 : Magic σ),
        st.magics[a]? = some m0 →
        ∃ (m1 : Magic σ) (extra : List (Route σ)), (exec uni c st).2.magics[a]? = some m1 ∧
          m1.routes = m0.routes ++ extra := by
  have hlt : s.magic < heap.length := by
    rcases Nat.lt_or_ge s.magic heap.length with h1 | h1
    · exact h1
    · rw [List.getElem?_eq_none h1] at hm; cases hm
  refine ⟨_, With_eq s h heap m re names hm hc, List.getElem?_set_self hlt, ?_, ?_⟩
  · intro a ha
    exact List.getElem?_set_ne (Ne.symm ha)
  · intro uni c st a m0 hm0
    obtain ⟨m1, extra, h1, h2, _⟩ := exec_keeps_entries uni c st a m0 hm0
    exact ⟨m1, extra, h1, h2⟩

/-- Witness for C13: `With` on the spell `GET /a` of a fresh `Magic`. -/
theorem registration_appends_one_entry_witness :
    ∃ heap1 : Heap Unit,
      (⟨0, "GET".toList, "/a".toList, []⟩ : Spell Unit).With okHandler [⟨[], []⟩] = .ok heap1 ∧
      heap1[0]? = some
        ⟨[] ++ [⟨"GET".toList, "/a".toList, okHandler, [], reA, []⟩], []⟩ ∧
      (∀ a : Nat, a ≠ 0 → heap1[a]? = ([⟨[], []⟩] : Heap Unit)[a]?) ∧
      ∀ (uni : Char → Char) (c : Call Unit) (st : Store Unit) (a : Nat) (m0 : Magic Unit),
        st.magics[a]? = some m0 →
        ∃ (m1 : Magic Unit) (extra : List (Route Unit)),
          (exec uni c st).2.magics[a]? = some m1 ∧ m1.routes = m0.routes ++ extra :=
  registration_appends_one_entry (⟨0, "GET".toList, "/a".toList, []⟩ : Spell Unit) okHandler
    [⟨[], []⟩] ⟨[], []⟩ reA [] rfl (by decide)

theorem With_error {σ : Type} (s : Spell σ) (h : HandlerFunc σ) (heap : Heap σ) (e : ErrorCode)
    (hc : compilePath s.path = .error e) : s.With h heap = .error e := by
  simp [Spell.With, hc]

/-- When the expression obtained from the pattern of a spell by the
substitution of the parameters is refused with one of the modelled errors,
`With` panics at that call and the store (every route table) is as before; in
every store a program of public operations can reach, every entry holds the
recognizer and the parameter names `compilePath` gives for its path. -/
theorem refused_pattern_panics_in_With {σ : Type} (uni : Char → Char) (st : Store σ)
    (a : Nat) (spell : Spell σ) (h : HandlerFunc σ) (e : ErrorCode)
    (hs : st.spells[a]? = some spell)
    (he : regexpCompile ("^".toList ++
        (ReplaceAllStringFunc ⟨paramToken, tokenTree, 1⟩ spell.path pathRepl []).1 ++ "$".toList)
      = .error e) :
    compilePath spell.path = .error e ∧
    (∀ heap : Heap σ, spell.With h heap = .error e) ∧
    exec uni (.With a h) st = (.panicked, st) ∧
    ∀ (calls : List (Call σ)), ∀ m ∈ (runCalls uni calls emptyStore).magics, ∀ r ∈ m.routes,
      compilePath r.Path = .ok (r.pathRegex, r.paramNames) := by
  have hc : compilePath spell.path = .error e := by
    simp only [compilePath, compile_paramToken, he]
  refine ⟨hc, fun heap => With_error spell h heap e hc, ?_, ?_⟩
  · simp [exec, execOp, hs, With_error spell h st.magics e hc]
  · intro calls
    refine runCalls_invariant uni
      (fun m => ∀ r ∈ m.routes, compilePath r.Path = .ok (r.pathRegex, r.paramNames))
      ?_ ?_ calls emptyStore ?_
    · intro r hr; cases hr
    · intro m route hm hroute r hr
      rcases List.mem_append.mp hr with h1 | h1
      · exact hm r h1
      · rw [List.mem_singleton.mp h1]; exact hroute
    · intro m hm; cases hm

/-- C14 (the code at the failing input): `With` accepts the pattern
`/files/\Q:name\E` (it returns and the table holds the route), and the request
`GET /files/([^/]+)`, which the recognizer of that route matches, makes
`handleRequest` panic on the index of the parameter; the pattern `/a(` is
refused by `With`, which panics and leaves the table empty. -/
theorem accepted_pattern_panics_at_request :
    (exec id (.With 0 okHandler) quotedStore).1 = .returned ∧
    tablePaths (exec id (.With 0 okHandler) quotedStore).2
      = [["/files/\\Q:name\\E".toList]] ∧
    (exec id (.With 0 okHandler) quotedStore).2.magics.map
        (fun m => handleRequest m (request "GET".toList "/files/([^/]+)".toList) world0)
      = [none] ∧
    (exec id (.With 0 okHandler) quotedStore).2.magics.map
        (fun m => handleRequest m (request "GET".toList "/files/x".toList) world0)
      = [some ⟨[.httpError "404 page not found".toList 404], ()⟩] ∧
    (exec id (.With 0 okHandler) badStore).1 = .panicked ∧
    tablePaths (exec id (.With 0 okHandler) badStore).2 = [[]] := by
  decide

/-- C15: in every store a program of public operations can reach, the global
middleware list of every `Magic` is empty, so the chain `handleRequest` builds
for a route is the route's own middlewares around its handler. -/
theorem global_middlewares_stay_empty {σ : Type} (uni : Char → Char) (calls : List (Call σ))
    (m : Magic σ) (hm : m ∈ (runCalls uni calls emptyStore).magics) :
    m.middlewares = [] ∧
    ∀ route : Route σ,
      buildChain m.middlewares route
        = route.Middlewares.foldr (fun mw k => mw k) route.Handler := by
  have h : m.middlewares = [] :=
    runCalls_invariant uni (fun m => m.middlewares = []) rfl (fun _ _ h _ => h) calls emptyStore
      (fun m hm => by cases hm) m hm
  refine ⟨h, fun route => ?_⟩
  rw [buildChain_eq, h, List.nil_append]

theorem sampleCalls_magic : (runCalls id sampleCalls emptyStore).magics[1]? = some sampleMagic :=
  rfl

/-- Witness for C15: the `Magic` of the experiment in `sampleCalls`. -/
theorem global_middlewares_stay_empty_witness :
    (runCalls id sampleCalls emptyStore).magics[1]? = some sampleMagic ∧
    sampleMagic.middlewares = [] :=
  ⟨sampleCalls_magic,
    (global_middlewares_stay_empty id sampleCalls sampleMagic
      (List.getElem?_mem sampleCalls_magic)).1⟩

theorem exec_Spell_magics {σ : Type} (uni : Char → Char) (m : Nat) (decl : Str) (st : Store σ) :
    (exec uni (.Spell m decl) st).2.magics = st.magics ∧
    (exec uni (.Spell m decl) st).2.experiments = st.experiments := by
  simp only [exec, execOp]
  cases hs : Magic.Spell uni m decl st.magics with
  | error e => exact ⟨rfl, rfl⟩
  | ok p =>
    obtain ⟨s, heap1⟩ := p
    exact ⟨(Spell_heap uni m decl _ _ s hs).1, rfl⟩

theorem exec_With_length {σ : Type} (uni : Char → Char) (a : Nat) (h : HandlerFunc σ)
    (st : Store σ) :
    (exec uni (.With a h) st).2.magics.length = st.magics.length ∧
    (exec uni (.With a h) st).2.experiments = st.experiments := by
  simp only [exec, execOp]
  cases hsp : st.spells[a]? with
  | none => exact ⟨rfl, rfl⟩
  | some spell =>
    simp only
    cases hw : spell.With h st.magics with
    | error e => exact ⟨rfl, rfl⟩
    | unsupported => exact ⟨rfl, rfl⟩
    | ok heap1 =>
      obtain ⟨m, re, names, _, _, hh⟩ := With_ok_inv spell h _ _ hw
      exact ⟨by simp [hh], rfl⟩

theorem exec_Require_magics {σ : Type} (uni : Char → Char) (s : Nat) (mw : MiddlewareFunc σ)
    (st : Store σ) : (exec uni (.Require s mw) st).2.magics = st.magics := by
  simp only [exec, execOp]
  cases st.spells[s]? <;> rfl

theorem exec_Experiments_magics {σ : Type} (uni : Char → Char) (name : Str) (st : Store σ) :
    (exec uni (.Experiments name) st).2.magics = st.magics ++ [⟨[], []⟩] ∧
    (exec uni (.Experiments name) st).2.experiments
      = st.experiments ++ [⟨name, st.magics.length, [], []⟩] :=
  ⟨rfl, rfl⟩

theorem runCalls_append {σ : Type} (uni : Char → Char) (xs ys : List (Call σ)) :
    ∀ st : Store σ, runCalls uni (xs ++ ys) st = runCalls uni ys (runCalls uni xs st) := by
  induction xs with
  | nil => intro st; rfl
  | cons c cs ih => intro st; exact ih _

theorem registered_magics {σ : Type} (uni : Char → Char) (decl : Str) (h : HandlerFunc σ) :
    (∃ m0 : Magic σ,
      (runCalls uni [.SpellMagic, .Spell 0 decl, .With 0 h] emptyStore).magics = [m0]) ∧
    (runCalls uni [.SpellMagic, .Spell 0 decl, .With 0 h] (emptyStore : Store σ)).experiments
      = [] := by
  have hlen : (runCalls uni [.SpellMagic, .Spell 0 decl, .With 0 h]
      (emptyStore : Store σ)).magics.length = 1 := by
    simp only [runCalls]
    rw [(exec_With_length _ _ _ _).1, (exec_Spell_magics _ _ _ _).1]
    rfl
  have hexp : (runCalls uni [.SpellMagic, .Spell 0 decl, .With 0 h]
      (emptyStore : Store σ)).experiments = [] := by
    simp only [runCalls]
    rw [(exec_With_length _ _ _ _).2, (exec_Spell_magics _ _ _ _).2]
    rfl
  refine ⟨?_, hexp⟩
  match hm : (runCalls uni [.SpellMagic, .Spell 0 decl, .With 0 h]
      (emptyStore : Store σ)).magics, hlen with
  | [m0], _ => exact ⟨m0, rfl⟩

/-- C16 (counterexample): an experiment is given a condition of the caller
whose `Apply` calls `With` on a spell; before `Subject` both tables are
empty, after `Subject` the `Magic` at address 0 holds the route `/a`. -/
theorem subject_runs_caller_condition :
    tablePaths (runCalls id
      [.SpellMagic, .Spell 0 "GET /a".toList, .Experiments "x".toList,
       .Given 0 [registering]] emptyStore) = [[], []] ∧
    tablePaths (runCalls id
      [.SpellMagic, .Spell 0 "GET /a".toList, .Experiments "x".toList,
       .Given 0 [registering], .Subject 0 [0]] emptyStore) = [["/a".toList], []] := by
  decide

/-- C16 (amended): for an experiment whose conditions are `PathPrefix`
conditions, `Subject` returns and changes no route table: the list of `Magic`
values and the experiments are the same after the call, and each spell keeps
its fields except `magic`, which is the experiment's `Magic` for the spells
passed. For every experiment the tables after `Subject` are those its
conditions left: the loop over the spells changes none. A route registered by
`With` before its spell is passed to `Subject` stays in the table where it
was, and the experiment's `Magic` has an empty table, on which every request
gets the not-found response. -/
theorem subject_changes_no_table {σ : Type} (uni : Char → Char) (st : Store σ) (e : Nat)
    (spells : List Nat) (exp : Experiment σ)
    (hexp : st.experiments[e]? = some exp)
    (hconds : exp.conditions.all isPathPrefix = true) :
    exec uni (.Subject e spells) st
      = (.returned, ⟨st.magics, repoint exp.magic spells st.spells, st.experiments⟩) ∧
    (∀ a : Nat, (repoint exp.magic spells st.spells)[a]? =
      st.spells[a]?.map (fun s =>
        if a ∈ spells then ⟨exp.magic, s.method, s.path, s.middlewares⟩ else s)) ∧
    (∀ (st2 : Store σ) (e2 : Nat) (spells2 : List Nat) (exp2 : Experiment σ),
      st2.experiments[e2]? = some exp2 →
      (exec uni (.Subject e2 spells2) st2).2.magics
        = (applyConditions uni e2 exp2.conditions st2).2.magics) ∧
    (∀ (decl name : Str) (h : HandlerFunc σ), ∃ m0 : Magic σ,
      (runCalls uni [.SpellMagic, .Spell 0 decl, .With 0 h] emptyStore).magics = [m0] ∧
      (runCalls uni [.SpellMagic, .Spell 0 decl, .With 0 h, .Experiments name, .Subject 0 [0]]
        emptyStore).magics = [m0, ⟨[], []⟩]) ∧
    ∀ (r : Request) (w : World σ),
      handleRequest (⟨[], []⟩ : Magic σ) r w = some (httpNotFound w) := by
  refine ⟨Subject_pathPrefix uni e spells st exp hexp hconds,
    fun a => repoint_getElem exp.magic spells st.spells a,
    fun st2 e2 spells2 exp2 h2 => Subject_magics uni e2 spells2 st2 exp2 h2, ?_, fun r w => rfl⟩
  intro decl name h
  obtain ⟨⟨m0, hm0⟩, hex0⟩ := registered_magics uni decl h
  refine ⟨m0, hm0, ?_⟩
  have happ := runCalls_append uni [.SpellMagic, .Spell 0 decl, .With 0 h]
    [.Experiments name, .Subject 0 [0]] (emptyStore : Store σ)
  simp only [List.cons_append, List.nil_append] at happ
  rw [happ]
  generalize runCalls uni [.SpellMagic, .Spell 0 decl, .With 0 h] (emptyStore : Store σ)
    = st3 at hm0 hex0 ⊢
  simp only [runCalls]
  have h4 : (exec uni (.Experiments name) st3).2.experiments[0]?
      = some ⟨name, st3.magics.length, [], []⟩ := by
    rw [(exec_Experiments_magics uni name st3).2, hex0]
    rfl
  have h5 := Subject_pathPrefix uni 0 [0] (exec uni (.Experiments name) st3).2 _ h4 rfl
  have h6 : exec uni (.Subject 0 [0]) (exec uni (.Experiments name) st3).2
      = Experiment.Subject uni 0 [0] (exec uni (.Experiments name) st3).2 := rfl
  rw [h6, h5]
  simp only
  rw [(exec_Experiments_magics uni name st3).1, hm0]
  rfl

/-- Witness for C16 (amended): `Subject` on the experiment of `subjectStore`,
whose condition is `PathPrefix("/api")`, with the spell that registered
`GET /a`: the route stays in the `Magic` at address 0, the table of the
experiment's `Magic` stays empty, and the spell points to the `Magic` at
address 1. -/
theorem subject_changes_no_table_witness :
    (exec id (.Subject 0 [0]) subjectStore).1 = .returned ∧
    tablePaths subjectStore = [["/a".toList], []] ∧
    spellFields subjectStore = [(0, "GET".toList, "/a".toList)] ∧
    tablePaths (exec id (.Subject 0 [0]) subjectStore).2 = [["/a".toList], []] ∧
    spellFields (exec id (.Subject 0 [0]) subjectStore).2 = [(1, "GET".toList, "/a".toList)] :=
  ⟨congrArg Prod.fst
      (subject_changes_no_table id subjectStore 0 [0]
        ⟨"x".toList, 1, [PathPrefix "/api".toList], []⟩ rfl rfl).1,
    by decide, by decide,
    (congrArg (fun x => tablePaths x.2)
      (subject_changes_no_table id subjectStore 0 [0]
        ⟨"x".toList, 1, [PathPrefix "/api".toList], []⟩ rfl rfl).1).trans (by decide),
    (congrArg (fun x => spellFields x.2)
      (subject_changes_no_table id subjectStore 0 [0]
        ⟨"x".toList, 1, [PathPrefix "/api".toList], []⟩ rfl rfl).1).trans (by decide)⟩

theorem registered_routes_plain {σ : Type} (uni : Char → Char) (decl : Str)
    (h : HandlerFunc σ) :
    ∀ m ∈ (runCalls uni [.SpellMagic, .Spell 0 decl, .With 0 h] (emptyStore : Store σ)).magics,
      ∀ r ∈ m.routes, r.Middlewares = [] := by
  have e0 : (exec uni .SpellMagic (emptyStore : Store σ)).2 = ⟨[⟨[], []⟩], [], []⟩ := rfl
  simp only [runCalls]
  rw [e0]
  cases hs : Magic.Spell uni 0 decl ([⟨[], []⟩] : Heap σ) with
  | error msg =>
    have e1 : exec uni (.Spell 0 decl) (⟨[⟨[], []⟩], [], []⟩ : Store σ)
        = (.panicked, ⟨[⟨[], []⟩], [], []⟩) := by
      simp only [exec, execOp, hs]
    rw [e1]
    intro m hm r hr
    have hm2 : m = ⟨[], []⟩ := by simpa [exec, execOp] using hm
    subst hm2
    cases hr
  | ok p =>
    obtain ⟨s, heap1⟩ := p
    obtain ⟨hheap, hmag, hmw⟩ := Spell_heap uni 0 decl _ _ s hs
    subst hheap
    have e1 : exec uni (.Spell 0 decl) (⟨[⟨[], []⟩], [], []⟩ : Store σ)
        = (.returned, ⟨[⟨[], []⟩], [s], []⟩) := by
      simp only [exec, execOp, hs]
      rfl
    rw [e1]
    intro m hm r hr
    cases hw : s.With h [⟨[], []⟩] with
    | error e =>
      have hm2 : m = ⟨[], []⟩ := by simpa [exec, execOp, hw] using hm
      subst hm2
      cases hr
    | unsupported =>
      have hm2 : m = ⟨[], []⟩ := by simpa [exec, execOp, hw] using hm
      subst hm2
      cases hr
    | ok heap2 =>
      obtain ⟨m1, re, names, hm1, _, hh⟩ := With_ok_inv s h _ _ hw
      rw [hmag] at hm1 hh
      have hm1b : m1 = ⟨[], []⟩ := by simpa using hm1.symm
      subst hm1b
      have hm2 : m = ⟨[⟨s.method, s.path, h, s.middlewares, re, names⟩], []⟩ := by
        simpa [exec, execOp, hw, hh] using hm
      subst hm2
      have hr2 : r = ⟨s.method, s.path, h, s.middlewares, re, names⟩ := by simpa using hr
      subst hr2
      exact hmw

/-- C17: `Require` changes no route table, so the entry `With` appended has
the same middleware list before and after a later `Require` on the same
spell: after `Spell(s).With(h).Require(m)` the tables are those after
`Spell(s).With(h)`, and the middleware list of the registered route is
empty. -/
theorem require_after_with_changes_no_route {σ : Type} (uni : Char → Char) (st : Store σ)
    (s : Nat) (mw : MiddlewareFunc σ) :
    (exec uni (.Require s mw) st).2.magics = st.magics ∧
    ∀ (decl : Str) (h : HandlerFunc σ),
      (runCalls uni [.SpellMagic, .Spell 0 decl, .With 0 h, .Require 0 mw] emptyStore).magics
        = (runCalls uni [.SpellMagic, .Spell 0 decl, .With 0 h] emptyStore).magics ∧
      ∀ m ∈ (runCalls uni [.SpellMagic, .Spell 0 decl, .With 0 h, .Require 0 mw]
          emptyStore).magics,
        ∀ r ∈ m.routes, r.Middlewares = [] := by
  refine ⟨exec_Require_magics uni s mw st, fun decl h => ?_⟩
  have happ := runCalls_append uni [.SpellMagic, .Spell 0 decl, .With 0 h]
    [.Require 0 mw] (emptyStore : Store σ)
  simp only [List.cons_append, List.nil_append] at happ
  have heq : (runCalls uni [.SpellMagic, .Spell 0 decl, .With 0 h, .Require 0 mw]
      (emptyStore : Store σ)).magics
      = (runCalls uni [.SpellMagic, .Spell 0 decl, .With 0 h] emptyStore).magics := by
    rw [happ]
    simp only [runCalls]
    rw [exec_Require_magics]
  refine ⟨heq, ?_⟩
  rw [heq]
  exact registered_routes_plain uni decl h

/-- C18 (the code at the failing input): for the pattern `/\Q:id\E`
`compilePath` returns one parameter name with a recognizer that has no capture
group; the recognizer matches the path `/([^/]+)` with a submatch list of
length one, and `handleRequest` panics on the index. -/
theorem quoted_token_leaves_no_group :
    compiledShape "/\\Q:id\\E".toList = .ok (0, ["id".toList]) ∧
    compileAndMatch "/\\Q:id\\E".toList "/([^/]+)".toList
      = .ok (some ["/([^/]+)".toList]) ∧
    registerAndDispatch id "GET /\\Q:id\\E".toList okHandler
      (request "GET".toList "/([^/]+)".toList) world0 = some none := by
  decide

theorem lookup_clientSet_self (m : List (Str × Client)) (k : Str) (v : Client) :
    (clientSet m k v).lookup k = some v := by
  induction m with
  | nil => simp [clientSet, List.lookup]
  | cons p rest ih =>
    obtain ⟨k1, v1⟩ := p
    by_cases h : k1 = k
    · simp [clientSet, h, List.lookup]
    · have h2 : (k == k1) = false := by simpa using fun e => h e.symm
      simp [clientSet, h, List.lookup, h2, ih]

theorem lookup_clientSet_ne (m : List (Str × Client)) (k k2 : Str) (v : Client) (hk : k2 ≠ k) :
    (clientSet m k v).lookup k2 = m.lookup k2 := by
  induction m with
  | nil =>
    have h2 : (k2 == k) = false := by simpa using hk
    simp [clientSet, List.lookup, h2]
  | cons p rest ih =>
    obtain ⟨k1, v1⟩ := p
    by_cases h : k1 = k
    · subst h
      have h2 : (k2 == k1) = false := by simpa using hk
      simp [clientSet, List.lookup, h2]
    · by_cases h3 : k2 = k1
      · subst h3
        simp [clientSet, h, List.lookup]
      · have h4 : (k2 == k1) = false := by simpa using h3
        simp [clientSet, h, List.lookup, h4, ih]

theorem observe_eq (n : Int) (clients : List (Str × Client)) (addr : Str) (now : Int) :
    observe n clients addr now =
      match clients.lookup addr with
      | none => (⟨addr, true, true⟩, clientSet clients addr ⟨1, now⟩)
      | some cl =>
        if now - cl.lastReset > Minute then
          if (0 : Int) ≥ n then (⟨addr, true, false⟩, clientSet clients addr ⟨0, now⟩)
          else (⟨addr, true, true⟩, clientSet clients addr ⟨0 + 1, now⟩)
        else
          if cl.requests ≥ n then (⟨addr, false, false⟩, clientSet clients addr cl)
          else (⟨addr, false, true⟩, clientSet clients addr ⟨cl.requests + 1, cl.lastReset⟩) := by
  unfold observe RateLimit
  cases hl : clients.lookup addr with
  | none => simp [hl, probe, withClients]
  | some cl =>
    simp only [hl]
    by_cases hr : now - cl.lastReset > Minute
    · by_cases hn : (0 : Int) ≥ n
      · simp [hr, hn, probe, withClients, Context.String]
      · simp [hr, hn, probe, withClients, Context.String]
    · by_cases hn : cl.requests ≥ n
      · simp [hr, hn, probe, withClients, Context.String]
      · simp [hr, hn, probe, withClients, Context.String]

theorem rateInv_step (n : Int) (a : Str) (clients : List (Str × Client)) (count : Nat)
    (addr : Str) (now : Int) (h : RateInv n a clients count) :
    RateInv n a (observe n clients addr now).2
      (if (observe n clients addr now).1.addr = a then
        (if (observe n clients addr now).1.started then 0 else count)
          + (if (observe n clients addr now).1.forwarded then 1 else 0)
      else count) := by
  have hmax1 : (1 : Int) ≤ max n 1 := le_max_right n 1
  have hmaxn : n ≤ max n 1 := le_max_left n 1
  rw [observe_eq]
  by_cases ha : addr = a
  · subst ha
    unfold RateInv at h ⊢
    cases hl : clients.lookup addr with
    | none =>
      simp only [lookup_clientSet_self, if_true, Bool.true_eq_false, if_false]
      exact ⟨by simp, hmax1⟩
    | some cl =>
      rw [hl] at h
      simp only at h ⊢
      by_cases hr : now - cl.lastReset > Minute
      · by_cases hn : (0 : Int) ≥ n
        · simp only [hr, hn, if_true, lookup_clientSet_self, Bool.false_eq_true, if_false]
          exact ⟨by simp, le_trans (by decide) hmax1⟩
        · simp only [hr, hn, if_true, if_false, lookup_clientSet_self]
          exact ⟨by simp, by simp⟩
      · by_cases hn : cl.requests ≥ n
        · simp only [hr, hn, if_true, if_false, lookup_clientSet_self, Bool.false_eq_true]
          exact ⟨by simpa using h.1, h.2⟩
        · simp only [hr, hn, if_true, if_false, lookup_clientSet_self, Bool.false_eq_true]
          refine ⟨by rw [h.1]; simp, ?_⟩
          have : cl.requests + 1 ≤ n := by omega
          exact le_trans this hmaxn
  · have hne : a ≠ addr := fun e => ha e.symm
    unfold RateInv at h ⊢
    cases hl : clients.lookup addr with
    | none =>
      simp only [ha, if_false, lookup_clientSet_ne _ _ _ _ hne]
      exact h
    | some cl =>
      simp only
      by_cases hr : now - cl.lastReset > Minute
      · by_cases hn : (0 : Int) ≥ n
        · simp only [hr, hn, if_true, ha, if_false, lookup_clientSet_ne _ _ _ _ hne]
          exact h
        · simp only [hr, hn, if_true, ha, if_false, lookup_clientSet_ne _ _ _ _ hne]
          exact h
      · by_cases hn : cl.requests ≥ n
        · simp only [hr, hn, if_true, ha, if_false, lookup_clientSet_ne _ _ _ _ hne]
          exact h
        · simp only [hr, hn, if_true, ha, if_false, lookup_clientSet_ne _ _ _ _ hne]
          exact h

theorem rateInv_run (n : Int) (a : Str) (reqs : List (Str × Int)) :
    ∀ (clients : List (Str × Client)) (count : Nat), RateInv n a clients count →
      RateInv n a (rateRun n reqs clients).2 (windowCount a count (rateRun n reqs clients).1) := by
  induction reqs with
  | nil => intro clients count h; exact h
  | cons q rest ih =>
    intro clients count h
    simp only [rateRun, windowCount]
    exact ih _ _ (rateInv_step n a clients count q.1 q.2 h)

theorem rateLimit_eq {τ : Type} (n : Int) (next : HandlerFunc (RateEnv τ)) (c : Context)
    (w : World (RateEnv τ)) :
    RateLimit n next c w =
      if (observe n w.env.clients c.req.RemoteAddr w.env.now).1.forwarded = true then
        next c (withClients w (observe n w.env.clients c.req.RemoteAddr w.env.now).2)
      else
        c.String 429 "Rate limit exceeded".toList
          (withClients w (observe n w.env.clients c.req.RemoteAddr w.env.now).2) := by
  rw [observe_eq]
  unfold RateLimit
  cases hl : w.env.clients.lookup c.req.RemoteAddr with
  | none => simp [hl]
  | some cl =>
    simp only [hl]
    by_cases hr : w.env.now - cl.lastReset > Minute
    · by_cases hn : (0 : Int) ≥ n
      · simp [hr, hn]
      · simp [hr, hn]
    · by_cases hn : cl.requests ≥ n
      · simp [hr, hn]
      · simp [hr, hn]

theorem observe_addr (n : Int) (clients : List (Str × Client)) (addr : Str) (now : Int) :
    (observe n clients addr now).1.addr = addr := rfl

theorem observe_other (n : Int) (clients : List (Str × Client)) (addr a : Str) (now : Int)
    (h : a ≠ addr) : (observe n clients addr now).2.lookup a = clients.lookup a := by
  rw [observe_eq]
  cases hl : clients.lookup addr with
  | none => exact lookup_clientSet_ne _ _ _ _ h
  | some cl =>
    simp only
    split
    · split <;> exact lookup_clientSet_ne _ _ _ _ h
    · split <;> exact lookup_clientSet_ne _ _ _ _ h

theorem observe_same (n : Int) (c1 c2 : List (Str × Client)) (a : Str) (now : Int)
    (h : c1.lookup a = c2.lookup a) :
    (observe n c1 a now).1 = (observe n c2 a now).1 ∧
    (observe n c1 a now).2.lookup a = (observe n c2 a now).2.lookup a := by
  rw [observe_eq, observe_eq, h]
  cases hl : c2.lookup a with
  | none => simp [lookup_clientSet_self]
  | some cl =>
    simp only
    split
    · split <;> simp [lookup_clientSet_self]
    · split <;> simp [lookup_clientSet_self]

theorem rateRun_independent (n : Int) (a : Str) (reqs : List (Str × Int)) :
    ∀ (c1 c2 : List (Str × Client)), c1.lookup a = c2.lookup a →
      (rateRun n reqs c1).1.filter (fun e => decide (e.addr = a))
        = (rateRun n (reqs.filter (fun q => decide (q.1 = a))) c2).1 ∧
      (rateRun n reqs c1).2.lookup a
        = (rateRun n (reqs.filter (fun q => decide (q.1 = a))) c2).2.lookup a := by
  induction reqs with
  | nil => intro c1 c2 h; exact ⟨rfl, h⟩
  | cons q rest ih =>
    intro c1 c2 h
    by_cases hq : q.1 = a
    · have hs := observe_same n c1 c2 a q.2 h
      have := ih (observe n c1 q.1 q.2).2 (observe n c2 q.1 q.2).2 (by rw [hq]; exact hs.2)
      simp only [List.filter_cons, hq, decide_True, if_true, rateRun, observe_addr]
      rw [hq] at this
      exact ⟨by rw [this.1, hs.1], this.2⟩
    · have hne : a ≠ q.1 := fun e => hq e.symm
      have := ih (observe n c1 q.1 q.2).2 c2 (by rw [observe_other _ _ _ _ _ hne]; exact h)
      simp only [List.filter_cons, hq, decide_False, rateRun, observe_addr, Bool.false_eq_true,
        if_false]
      exact this

/-- C19: for every limit `n` and every sequence of requests with arbitrary
times passed through one `RateLimit(n)` middleware, the counter of a client is
at most `max n 1`, the number of its requests forwarded in a window (since its
record was created or its counter reset) is at most `max n 1`, a request is
either forwarded to the inner handler or answered without it by the status
429 and the text `Rate limit exceeded` (written after the content type
`text/plain`, the handler returning nil), and what happens to the requests of
a client is the same when the requests of the other clients are left out. -/
theorem rate_limit_bounds_each_window {τ : Type} (n : Int) (reqs : List (Str × Int))
    (a : Str) :
    (∀ cl : Client, (rateRun n reqs []).2.lookup a = some cl → cl.requests ≤ max n 1) ∧
    ((fwdInWindow a (rateRun n reqs []).1 : Int) ≤ max n 1) ∧
    (∀ (next : HandlerFunc (RateEnv τ)) (c : Context) (w : World (RateEnv τ)),
      RateLimit n next c w =
        if (observe n w.env.clients c.req.RemoteAddr w.env.now).1.forwarded = true then
          next c ⟨w.writer,
            ⟨(observe n w.env.clients c.req.RemoteAddr w.env.now).2, w.env.now, w.env.inner⟩⟩
        else
          (none, ⟨w.writer ++ [.setHeader "Content-Type".toList "text/plain".toList,
              .writeHeader 429, .write "Rate limit exceeded".toList],
            ⟨(observe n w.env.clients c.req.RemoteAddr w.env.now).2, w.env.now,
              w.env.inner⟩⟩)) ∧
    (rateRun n reqs []).1.filter (fun e => decide (e.addr = a))
      = (rateRun n (reqs.filter (fun q => decide (q.1 = a))) []).1 ∧
    (rateRun n reqs []).2.lookup a
      = (rateRun n (reqs.filter (fun q => decide (q.1 = a))) []).2.lookup a := by
  have hinv := rateInv_run n a reqs [] 0 rfl
  unfold RateInv at hinv
  refine ⟨?_, ?_, fun next c w => (rateLimit_eq n next c w).trans rfl,
    rateRun_independent n a reqs [] [] rfl⟩
  · intro cl hcl
    rw [hcl] at hinv
    exact hinv.2
  · unfold fwdInWindow
    cases hl : (rateRun n reqs []).2.lookup a with
    | none =>
      rw [hl] at hinv
      simp only at hinv
      rw [hinv]
      exact le_trans (by decide) (le_max_right n 1)
    | some cl =>
      rw [hl] at hinv
      rw [← hinv.1]
      exact hinv.2

/-- Witness for C19: the limit 2 and the requests `sampleReqs`; of the six
requests of `a` the third and the sixth are answered 429, and the counter of
`a` ends at 2. The third request of a client within a minute gets the status
429 and the text `Rate limit exceeded`, and the inner handler writes nothing;
the second one reaches the inner handler. -/
theorem rate_limit_bounds_each_window_witness :
    (rateRun 2 sampleReqs []).1.map (fun e => (e.addr, e.started, e.forwarded))
      = [("a".toList, true, true), ("a".toList, false, true), ("b".toList, true, true),
         ("a".toList, false, false), ("a".toList, true, true), ("a".toList, false, true),
         ("a".toList, false, false)] ∧
    (⟨2, 70000000000⟩ : Client).requests ≤ max 2 1 ∧
    RateLimit 2 rateInner ⟨⟨"GET".toList, "/a".toList, [], "a".toList⟩, []⟩
        ⟨[], ⟨[("a".toList, ⟨2, 0⟩)], 5, ()⟩⟩
      = (none, ⟨[.setHeader "Content-Type".toList "text/plain".toList, .writeHeader 429,
          .write "Rate limit exceeded".toList], ⟨[("a".toList, ⟨2, 0⟩)], 5, ()⟩⟩) ∧
    RateLimit 2 rateInner ⟨⟨"GET".toList, "/a".toList, [], "a".toList⟩, []⟩
        ⟨[], ⟨[("a".toList, ⟨1, 0⟩)], 5, ()⟩⟩
      = (none, ⟨[.write "inner".toList], ⟨[("a".toList, ⟨2, 0⟩)], 5, ()⟩⟩) :=
  ⟨by decide,
    (@rate_limit_bounds_each_window Unit 2 sampleReqs "a".toList).1 ⟨2, 70000000000⟩
      (by decide),
    ((@rate_limit_bounds_each_window Unit 2 [] []).2.2.1 rateInner
      ⟨⟨"GET".toList, "/a".toList, [], "a".toList⟩, []⟩
      ⟨[], ⟨[("a".toList, ⟨2, 0⟩)], 5, ()⟩⟩).trans (by decide),
    ((@rate_limit_bounds_each_window Unit 2 [] []).2.2.1 rateInner
      ⟨⟨"GET".toList, "/a".toList, [], "a".toList⟩, []⟩
      ⟨[], ⟨[("a".toList, ⟨1, 0⟩)], 5, ()⟩⟩).trans (by decide)⟩

theorem hasPrefix_trim (auth pre exp : Str) :
    (HasPrefix auth pre = true ∧ TrimPrefix auth pre = exp) ↔ auth = pre ++ exp := by
  unfold HasPrefix TrimPrefix
  constructor
  · rintro ⟨hp, ht⟩
    rw [if_pos hp] at ht
    obtain ⟨t, rfl⟩ := List.isPrefixOf_iff_prefix.mp hp
    rw [List.drop_left'] at ht
    · rw [ht]
    · rfl
  · intro h
    subst h
    have hp : pre.isPrefixOf (pre ++ exp) = true :=
      List.isPrefixOf_iff_prefix.mpr (List.prefix_append pre exp)
    refine ⟨hp, ?_⟩
    rw [if_pos hp, List.drop_left']
    rfl

theorem BasicAuth_eq {σ : Type} (credentials : Str) :
    (BasicAuth credentials : Except Str (MiddlewareFunc σ)) =
      if ':' ∈ credentials then
        .ok (fun next c w =>
          if !HasPrefix (c.Header "Authorization".toList) "Basic ".toList then
            c.String 401 "Unauthorized".toList
              { w with writer := w.writer ++
                [.setHeader "WWW-Authenticate".toList "Basic realm=\"Restricted\"".toList] }
          else if TrimPrefix (c.Header "Authorization".toList) "Basic ".toList
              ≠ EncodeToString credentials then
            c.String 401 "Unauthorized".toList w
          else next c w)
      else .error "BasicAuth credentials should be in format 'username:password'".toList := by
  unfold BasicAuth SplitN
  simp only [show (2 : Nat) ≠ 0 by decide, if_false, show (2 : Nat) - 1 = 1 by rfl, splitGo_one]
  by_cases h : ':' ∈ credentials
  · simp [h]
  · simp [h]

/-- C20: `BasicAuth(c)` panics exactly when `c` has no `:`; otherwise its
handler calls the inner handler exactly when the header `Authorization` is
`Basic ` followed by the base64 encoding of `c`, and in every other case it
does not call it and answers the status 401 and the text `Unauthorized`
(written after the content type `text/plain`, and after the header
`WWW-Authenticate` when the value does not start with `Basic `), returning
nil. -/
theorem basic_auth_checks_header {σ : Type} (credentials : Str) :
    (':' ∉ credentials →
      (BasicAuth credentials : Except Str (MiddlewareFunc σ))
        = .error "BasicAuth credentials should be in format 'username:password'".toList) ∧
    (':' ∈ credentials →
      ∃ mw : MiddlewareFunc σ, BasicAuth credentials = .ok mw ∧
        ∀ (next : HandlerFunc σ) (c : Context) (w : World σ),
          mw next c w =
            if c.Header "Authorization".toList = "Basic ".toList ++ EncodeToString credentials then
              next c w
            else if HasPrefix (c.Header "Authorization".toList) "Basic ".toList = true then
              (none, ⟨w.writer ++ [.setHeader "Content-Type".toList "text/plain".toList,
                .writeHeader 401, .write "Unauthorized".toList], w.env⟩)
            else
              (none, ⟨w.writer ++ [.setHeader "WWW-Authenticate".toList
                  "Basic realm=\"Restricted\"".toList,
                .setHeader "Content-Type".toList "text/plain".toList,
                .writeHeader 401, .write "Unauthorized".toList], w.env⟩)) := by
  refine ⟨fun h => by rw [BasicAuth_eq, if_neg h], fun h => ?_⟩
  refine ⟨_, by rw [BasicAuth_eq, if_pos h], fun next c w => ?_⟩
  have key := hasPrefix_trim (c.Header "Authorization".toList) "Basic ".toList
    (EncodeToString credentials)
  by_cases hp : HasPrefix (c.Header "Authorization".toList) "Basic ".toList = true
  · by_cases ht : TrimPrefix (c.Header "Authorization".toList) "Basic ".toList
        = EncodeToString credentials
    · have heq := key.mp ⟨hp, ht⟩
      simp only [hp, ht, Bool.not_true, Bool.false_eq_true, if_false, ne_eq,
        not_true_eq_false, if_true]
      rw [if_pos heq]
    · have hne : ¬ c.Header "Authorization".toList
          = "Basic ".toList ++ EncodeToString credentials := fun e => ht (key.mpr e).2
      simp only [hp, ht, hne, Bool.not_true, Bool.false_eq_true, if_false, ne_eq,
        not_false_eq_true, if_true]
      rfl
  · have hne : ¬ c.Header "Authorization".toList
        = "Basic ".toList ++ EncodeToString credentials := fun e => hp (key.mpr e).1
    have hp2 : HasPrefix (c.Header "Authorization".toList) "Basic ".toList = false := by
      simpa using hp
    simp only [hp2, hne, Bool.not_false, if_true, if_false, Bool.false_eq_true]
    simp [Context.String]

/-- Witness for C20: the credentials `user:pass`. With the header
`Authorization: Basic dXNlcjpwYXNz` the inner handler runs; with the
credentials of another user it does not run and the answer is 401
`Unauthorized`; without the header the answer is 401 after the header
`WWW-Authenticate`; the base64 encoding of `user:pass` is `dXNlcjpwYXNz`. -/
theorem basic_auth_checks_header_witness :
    ∃ mw : MiddlewareFunc Unit, BasicAuth "user:pass".toList = .ok mw ∧
      mw okHandler ⟨authRequest, []⟩ world0 = (none, ⟨[.write "ok".toList], ()⟩) ∧
      mw okHandler
          ⟨⟨"GET".toList, "/a".toList,
            [("Authorization".toList, "Basic b3RoZXI6cGFzcw==".toList)], []⟩, []⟩ world0
        = (none, ⟨[.setHeader "Content-Type".toList "text/plain".toList, .writeHeader 401,
            .write "Unauthorized".toList], ()⟩) ∧
      mw okHandler ⟨request "GET".toList "/a".toList, []⟩ world0
        = (none, ⟨[.setHeader "WWW-Authenticate".toList "Basic realm=\"Restricted\"".toList,
            .setHeader "Content-Type".toList "text/plain".toList, .writeHeader 401,
            .write "Unauthorized".toList], ()⟩) ∧
      EncodeToString "user:pass".toList = "dXNlcjpwYXNz".toList :=
  match (basic_auth_checks_header "user:pass".toList).2 (by decide) with
  | ⟨mw, h1, h2⟩ =>
    ⟨mw, h1, (h2 okHandler ⟨authRequest, []⟩ world0).trans (by decide),
      (h2 okHandler
        ⟨⟨"GET".toList, "/a".toList,
          [("Authorization".toList, "Basic b3RoZXI6cGFzcw==".toList)], []⟩, []⟩
        world0).trans (by decide),
      (h2 okHandler ⟨request "GET".toList "/a".toList, []⟩ world0).trans (by decide),
      by decide⟩

end Incto
